import Mathlib

/-!
Shallow embedding of the `shortpath` path-search engine
(`src/api/app/algorithms/{bfs,dijkstra,astar,factory}.py` and
`src/api/app/models/{graph,path}.py`) together with proofs of the
spec claims about it.

Modelling conventions:
* Python `float` weights/distances are modelled by `ℚ` (exact arithmetic);
  `float('inf')` is `⊤` in `WithTop ℚ`.
* Python `dict` is a partial map `String → Option α`; a read of a missing key
  is a `KeyError`, modelled by `Except.error k` where `k` is the missing key.
* Python `heapq` pops the minimum element of the heap under lexicographic
  tuple order; the heap is modelled as a list and `heappop` as removal of the
  (lexicographically) least element.
* Python `set` objects are modelled as duplicate-free lists in insertion
  order (`len` is `List.length`, membership is list membership).
* `while` loops are modelled by fuel recursion; exhausted fuel yields
  `Except.error "fuel"`, and every theorem about a loop is proved under a
  fuel bound shown to be large enough, so the sentinel never occurs in any
  behaviour we prove.
* `time.time()` / `execution_time_ms` and logging are side effects with no
  influence on any other field and are omitted from the model, as is the
  `algorithm_used`-independent `execution_time_ms` field of `PathResult`.
-/

namespace ShortPath

/-- A Python `dict` keyed by strings: a partial map. -/
abbrev Dict (α : Type) := String → Option α

namespace Dict

/-- The empty dict. -/
def empty {α : Type} : Dict α := fun _ => none

/-- Python `d[k] = v` (adds the key if absent, overwrites otherwise). -/
def set {α : Type} (d : Dict α) (k : String) (v : α) : Dict α :=
  fun x => if x = k then some v else d x

end Dict

/-- One edge of the graph (`models/graph.py`, class `Edge`); the pydantic
field `properties` carries no algorithmic meaning and is omitted. -/
structure Edge where
  from_node : String
  to_node : String
  weight : ℚ
deriving DecidableEq, Repr

/-- The graph value consumed by the algorithms (`models/graph.py`, class
`Graph`); `id`, timestamps and `metadata` do not influence the search
engine and are omitted. -/
structure Graph where
  directed : Bool
  nodes : List String
  edges : List Edge
deriving DecidableEq, Repr

/-- The `AlgorithmType` enum of `models/path.py`. -/
inductive AlgorithmType where
  | dijkstra
  | bfs
  | astar
deriving DecidableEq, Repr

/-- The `.value` of the string enum `AlgorithmType`. -/
def AlgorithmType.value : AlgorithmType → String
  | .dijkstra => "dijkstra"
  | .bfs => "bfs"
  | .astar => "astar"

/-- The `PathResult` record of `models/path.py`.  Its two pydantic
validators (`validate_distance`, `validate_path_consistency`) are no-ops at
runtime: each guards on `'exists' in values`, but `exists` is declared after
`path` and `distance`, so it is never in `values` when they run.  The record
is therefore a plain data carrier.  `execution_time_ms` (wall-clock time) is
not modelled. -/
structure PathResult where
  path : List String
  distance : WithTop ℚ
  algorithm_used : AlgorithmType
  visited_nodes_count : ℕ
  visited_nodes : Option (List String)
  «exists» : Bool
deriving DecidableEq, Repr

/-- The `PathQuery` record of `models/path.py` after validation. -/
structure PathQuery where
  source : String
  target : String
  algorithm : AlgorithmType
  include_visited : Bool

/-- Append `v` to the list stored at key `k` (`d[k].append(v)`); `KeyError`
if the key is absent. -/
def dictAppend {α : Type} (d : Dict (List α)) (k : String) (v : α) :
    Except String (Dict (List α)) :=
  match d k with
  | none => .error k
  | some l => .ok (d.set k (l ++ [v]))

/-- The dict comprehension `{node: [] for node in self.graph.nodes}`. -/
def initAdj {α : Type} (nodes : List String) : Dict (List α) :=
  nodes.foldl (fun d n => d.set n []) Dict.empty

/-- Weighted adjacency list builder shared verbatim by
`DijkstraAlgorithm._build_adjacency_list` and
`AStarAlgorithm._build_adjacency_list`. -/
def build_adjacency_list (g : Graph) : Except String (Dict (List (String × ℚ))) :=
  g.edges.foldlM
    (fun adj e => do
      let adj ← dictAppend adj e.from_node (e.to_node, e.weight)
      if g.directed then pure adj
      else dictAppend adj e.to_node (e.from_node, e.weight))
    (initAdj g.nodes)

/-- Reconstruction loop shared by all three algorithms:
`while current is not None: path.append(current); current = previous[current]`.
Produces the path in target-first order (callers reverse it). -/
def reconstruct_path (previous : Dict (Option String)) :
    ℕ → String → Except String (List String)
  | 0, _ => .error "fuel"
  | fuel + 1, current =>
    match previous current with
    | none => .error current
    | some none => .ok [current]
    | some (some p) => do
      let rest ← reconstruct_path previous fuel p
      .ok (current :: rest)

/-- Find the element of `m :: l` with the least `key`, keeping the earliest
among equals. -/
def findMinKey {α κ : Type} [LinearOrder κ] (key : α → κ) : α → List α → α
  | m, [] => m
  | m, x :: xs => findMinKey key (if key m ≤ key x then m else x) xs

/-- Model of `heapq.heappop`: remove the least element (lexicographic tuple
order) from the heap. -/
def popMinKey {α κ : Type} [DecidableEq α] [LinearOrder κ] (key : α → κ)
    (l : List α) : Option (α × List α) :=
  match l with
  | [] => none
  | x :: xs =>
    let m := findMinKey key x xs
    some (m, (x :: xs).erase m)

/-- Fuel for the search loops.  Each loop iteration removes one entry from
the frontier, and the total number of frontier insertions is at most
`1 + 2 * |edges|` (each adjacency entry causes at most one insertion), so
this bound strictly dominates the number of iterations of every loop. -/
def search_fuel (g : Graph) : ℕ := g.nodes.length + 2 * g.edges.length + 2

/-- Fuel for predecessor-chain reconstruction; the chain visits pairwise
distinct discovered nodes, of which there are at most
`|nodes| + 2 * |edges| + 1`. -/
def reconstruct_fuel (g : Graph) : ℕ := g.nodes.length + 2 * g.edges.length + 2

namespace BFSAlgorithm

/-- The unweighted adjacency list of `BFSAlgorithm._build_adjacency_list`. -/
def bfs_build_adjacency_list (g : Graph) : Except String (Dict (List String)) :=
  g.edges.foldlM
    (fun adj e => do
      let adj ← dictAppend adj e.from_node e.to_node
      if g.directed then pure adj
      else dictAppend adj e.to_node e.from_node)
    (initAdj g.nodes)

/-- The local variables of `BFSAlgorithm.find_shortest_path`'s search loop. -/
structure State where
  queue : List String
  visited : List String
  previous : Dict (Option String)
  distances : Dict ℕ
  visited_order : List String
  path_found : Bool

/-- The `for neighbor in self.adjacency_list[current_node]` body of the BFS
loop, including the `break` on discovering the target. -/
def scan (target : String) (include_visited : Bool) (current_node : String) :
    List String → State → Except String State
  | [], st => .ok st
  | neighbor :: rest, st =>
    if neighbor ∈ st.visited then scan target include_visited current_node rest st
    else
      match st.distances current_node with
      | none => .error current_node
      | some dcur =>
        let st' : State :=
          { queue := st.queue ++ [neighbor]
            visited := st.visited ++ [neighbor]
            previous := st.previous.set neighbor (some current_node)
            distances := st.distances.set neighbor (dcur + 1)
            visited_order :=
              if include_visited then st.visited_order ++ [neighbor] else st.visited_order
            path_found := st.path_found }
        if neighbor = target then .ok { st' with path_found := true }
        else scan target include_visited current_node rest st'

/-- The `while queue and not path_found` loop of
`BFSAlgorithm.find_shortest_path`. -/
def loop (adj : Dict (List String)) (target : String) (include_visited : Bool) :
    ℕ → State → Except String State
  | 0, st => if st.queue.isEmpty || st.path_found then .ok st else .error "fuel"
  | fuel + 1, st =>
    if st.path_found then .ok st
    else
      match st.queue with
      | [] => .ok st
      | current_node :: queue' =>
        match adj current_node with
        | none => .error current_node
        | some neighbors => do
          let st' ← scan target include_visited current_node neighbors
            { st with queue := queue' }
          loop adj target include_visited fuel st'

/-- `BFSAlgorithm.find_shortest_path` (building the adjacency list first, as
`BFSAlgorithm.__init__` does). -/
def find_shortest_path (g : Graph) (source target : String)
    (include_visited : Bool) : Except String PathResult := do
  let adjacency_list ← bfs_build_adjacency_list g
  if source = target then
    .ok { path := [source], distance := (0 : WithTop ℚ), algorithm_used := .bfs,
          visited_nodes_count := 1,
          visited_nodes := if include_visited then some [source] else none,
          «exists» := true }
  else
    let st0 : State :=
      { queue := [source], visited := [source],
        previous := Dict.empty.set source none,
        distances := Dict.empty.set source 0,
        visited_order := if include_visited then [source] else [],
        path_found := false }
    let st ← loop adjacency_list target include_visited (search_fuel g) st0
    let path ←
      if target ∈ st.visited then do
        let p ← reconstruct_path st.previous (reconstruct_fuel g) target
        pure p.reverse
      else pure []
    let distance : WithTop ℚ :=
      match st.distances target with
      | some d => ((d : ℚ) : WithTop ℚ)
      | none => ⊤
    .ok { path := path, distance := distance, algorithm_used := .bfs,
          visited_nodes_count := st.visited.length,
          visited_nodes := if include_visited then some st.visited_order else none,
          «exists» := decide (target ∈ st.visited) }

end BFSAlgorithm

/-- The dict comprehension `{node: float('inf') for node in self.graph.nodes}`
(also used for `g_score` / `f_score` in A*). -/
def init_inf (nodes : List String) : Dict (WithTop ℚ) :=
  nodes.foldl (fun d n => d.set n ⊤) Dict.empty

/-- The dict comprehension `{node: None for node in self.graph.nodes}`. -/
def init_previous (nodes : List String) : Dict (Option String) :=
  nodes.foldl (fun d n => d.set n none) Dict.empty

namespace DijkstraAlgorithm

/-- The local variables of `DijkstraAlgorithm.find_shortest_path`. -/
structure State where
  distances : Dict (WithTop ℚ)
  previous : Dict (Option String)
  visited : List String
  visited_order : List String
  pq : List (ℚ × String)

/-- Lexicographic key of a Dijkstra heap entry `(distance, node)`. -/
def entryKey (e : ℚ × String) : ℚ ×ₗ String := toLex e

/-- The `for neighbor, weight in self.adjacency_list[current_node]`
relaxation loop of Dijkstra. -/
def relax (current_dist : ℚ) (current_node : String) :
    List (String × ℚ) → State → Except String State
  | [], st => .ok st
  | (neighbor, weight) :: rest, st =>
    if neighbor ∈ st.visited then relax current_dist current_node rest st
    else
      let new_distance := current_dist + weight
      match st.distances neighbor with
      | none => .error neighbor
      | some old =>
        if (new_distance : WithTop ℚ) < old then
          relax current_dist current_node rest
            { st with
              distances := st.distances.set neighbor ((new_distance : ℚ) : WithTop ℚ)
              previous := st.previous.set neighbor (some current_node)
              pq := st.pq ++ [(new_distance, neighbor)] }
        else relax current_dist current_node rest st

/-- The `while pq` loop of `DijkstraAlgorithm.find_shortest_path`, with lazy
deletion of stale entries and early termination on popping the target. -/
def loop (adj : Dict (List (String × ℚ))) (target : String)
    (include_visited : Bool) : ℕ → State → Except String State
  | 0, st => if st.pq.isEmpty then .ok st else .error "fuel"
  | fuel + 1, st =>
    match popMinKey entryKey st.pq with
    | none => .ok st
    | some ((current_dist, current_node), pq') =>
      if current_node ∈ st.visited then
        loop adj target include_visited fuel { st with pq := pq' }
      else
        let st' : State :=
          { st with
            pq := pq'
            visited := st.visited ++ [current_node]
            visited_order :=
              if include_visited then st.visited_order ++ [current_node]
              else st.visited_order }
        if current_node = target then .ok st'
        else
          match adj current_node with
          | none => .error current_node
          | some neighbors => do
            let st'' ← relax current_dist current_node neighbors st'
            loop adj target include_visited fuel st''

/-- `DijkstraAlgorithm.find_shortest_path` (building the adjacency list
first, as `DijkstraAlgorithm.__init__` does). -/
def find_shortest_path (g : Graph) (source target : String)
    (include_visited : Bool) : Except String PathResult := do
  let adjacency_list ← build_adjacency_list g
  let st0 : State :=
    { distances := (init_inf g.nodes).set source ((0 : ℚ) : WithTop ℚ)
      previous := init_previous g.nodes
      visited := []
      visited_order := []
      pq := [((0 : ℚ), source)] }
  let st ← loop adjacency_list target include_visited (search_fuel g) st0
  match st.distances target with
  | none => .error target
  | some dt =>
    let path ←
      if dt ≠ ⊤ then do
        let p ← reconstruct_path st.previous (reconstruct_fuel g) target
        pure p.reverse
      else pure ([] : List String)
    .ok { path := path, distance := dt, algorithm_used := .dijkstra,
          visited_nodes_count := st.visited.length,
          visited_nodes := if include_visited then some st.visited_order else none,
          «exists» := decide (dt ≠ ⊤) }

end DijkstraAlgorithm

namespace AStarAlgorithm

/-- The local variables of `AStarAlgorithm.find_shortest_path`.  Heap
entries are `(f_score, g_score, node)` triples; the pushed scores are always
finite in any run, but the model keeps them in `WithTop ℚ` so that the state
is total. -/
structure State where
  g_score : Dict (WithTop ℚ)
  f_score : Dict (WithTop ℚ)
  previous : Dict (Option String)
  open_set : List (WithTop ℚ × WithTop ℚ × String)
  open_set_nodes : List String
  closed_set : List String
  visited_order : List String

/-- Lexicographic key of an A* heap entry `(f_score, g_score, node)`. -/
def entryKey (e : WithTop ℚ × WithTop ℚ × String) :
    WithTop ℚ ×ₗ (WithTop ℚ ×ₗ String) := toLex (e.1, toLex e.2)

/-- The heuristic of the source is `AStarAlgorithm._euclidean_distance`,
which reads `node_coordinates` (all `(0.0, 0.0)` after
`_extract_coordinates`, partially overwritten by `set_node_coordinates`) and
takes a Euclidean square root.  The model abstracts it as an arbitrary
function `String → String → ℚ`; `default_heuristic` below is its value when
no coordinates have been injected. -/
abbrev Heuristic := String → String → ℚ

/-- `AStarAlgorithm._euclidean_distance` when every node has the default
coordinates `(0.0, 0.0)` assigned by `_extract_coordinates`:
`sqrt((0-0)^2 + (0-0)^2) = 0` for every pair of nodes. -/
def default_heuristic : Heuristic := fun _ _ => 0

/-- The relaxation loop of A*: a strictly improving neighbor is re-keyed,
but re-pushed only when it is not already in `open_set_nodes`. -/
def relax (h : Heuristic) (target current_node : String) :
    List (String × ℚ) → State → Except String State
  | [], st => .ok st
  | (neighbor, weight) :: rest, st =>
    if neighbor ∈ st.closed_set then relax h target current_node rest st
    else
      match st.g_score current_node with
      | none => .error current_node
      | some gcur =>
        let tentative_g_score := gcur + ((weight : ℚ) : WithTop ℚ)
        match st.g_score neighbor with
        | none => .error neighbor
        | some gn =>
          if tentative_g_score < gn then
            let f_new := tentative_g_score + ((h neighbor target : ℚ) : WithTop ℚ)
            let st' : State :=
              { st with
                previous := st.previous.set neighbor (some current_node)
                g_score := st.g_score.set neighbor tentative_g_score
                f_score := st.f_score.set neighbor f_new }
            if neighbor ∈ st'.open_set_nodes then relax h target current_node rest st'
            else
              relax h target current_node rest
                { st' with
                  open_set := st'.open_set ++ [(f_new, tentative_g_score, neighbor)]
                  open_set_nodes := st'.open_set_nodes ++ [neighbor] }
          else relax h target current_node rest st

/-- The `while open_set` loop of `AStarAlgorithm.find_shortest_path`. -/
def loop (adj : Dict (List (String × ℚ))) (h : Heuristic) (target : String)
    (include_visited : Bool) : ℕ → State → Except String State
  | 0, st => if st.open_set.isEmpty then .ok st else .error "fuel"
  | fuel + 1, st =>
    match popMinKey entryKey st.open_set with
    | none => .ok st
    | some ((_, _, current_node), open') =>
      let st :=
        { st with
          open_set := open'
          open_set_nodes := st.open_set_nodes.erase current_node }
      if current_node ∈ st.closed_set then
        loop adj h target include_visited fuel st
      else
        let st' : State :=
          { st with
            closed_set := st.closed_set ++ [current_node]
            visited_order :=
              if include_visited then st.visited_order ++ [current_node]
              else st.visited_order }
        if current_node = target then .ok st'
        else
          match adj current_node with
          | none => .error current_node
          | some neighbors => do
            let st'' ← relax h target current_node neighbors st'
            loop adj h target include_visited fuel st''

/-- `AStarAlgorithm.find_shortest_path` (building the adjacency list first,
as `AStarAlgorithm.__init__` does). -/
def find_shortest_path (g : Graph) (h : Heuristic) (source target : String)
    (include_visited : Bool) : Except String PathResult := do
  let adjacency_list ← build_adjacency_list g
  if source = target then
    .ok { path := [source], distance := (0 : WithTop ℚ), algorithm_used := .astar,
          visited_nodes_count := 1,
          visited_nodes := if include_visited then some [source] else none,
          «exists» := true }
  else
    let st0 : State :=
      { g_score := (init_inf g.nodes).set source ((0 : ℚ) : WithTop ℚ)
        f_score := (init_inf g.nodes).set source ((h source target : ℚ) : WithTop ℚ)
        previous := init_previous g.nodes
        open_set := [(((h source target : ℚ) : WithTop ℚ), ((0 : ℚ) : WithTop ℚ), source)]
        open_set_nodes := [source]
        closed_set := []
        visited_order := [] }
    let st ← loop adjacency_list h target include_visited (search_fuel g) st0
    match st.g_score target with
    | none => .error target
    | some gt =>
      let path ←
        if gt ≠ ⊤ then do
          let p ← reconstruct_path st.previous (reconstruct_fuel g) target
          pure p.reverse
        else pure ([] : List String)
      .ok { path := path, distance := gt, algorithm_used := .astar,
            visited_nodes_count := st.closed_set.length,
            visited_nodes := if include_visited then some st.visited_order else none,
            «exists» := decide (gt ≠ ⊤) }

/-- `AStarAlgorithm.is_admissible_heuristic`: compare the heuristic value
against the distance reported by an exact Dijkstra run. -/
def is_admissible_heuristic (g : Graph) (h : Heuristic) (node1 node2 : String) :
    Except String Bool := do
  let heuristic_distance := h node1 node2
  let result ← DijkstraAlgorithm.find_shortest_path g node1 node2 false
  let actual_distance := result.distance
  .ok (decide ((heuristic_distance : WithTop ℚ) ≤ actual_distance) || !result.«exists»)

end AStarAlgorithm

/-- The `validate_node_ids` validator of `PathQuery` (`models/path.py`):
reject empty / all-whitespace identifiers, strip surrounding whitespace. -/
def validate_node_id (v : String) : Except String String :=
  if v.trim = "" then .error "Node identifiers must be non-empty strings"
  else .ok v.trim

/-- Construction of a `PathQuery`, running its pydantic validators. -/
def mkPathQuery (source target : String) (algorithm : AlgorithmType)
    (include_visited : Bool) : Except String PathQuery := do
  let s ← validate_node_id source
  let t ← validate_node_id target
  .ok { source := s, target := t, algorithm := algorithm,
        include_visited := include_visited }

namespace AlgorithmFactory

/-- `AlgorithmFactory._validate_algorithm_choice`: advisory only, but the
BFS branch instantiates `BFSAlgorithm(graph)`, which builds the adjacency
list and can raise `KeyError`; the suitability check itself only logs. -/
def validate_algorithm_choice (g : Graph) (algorithm : AlgorithmType) :
    Except String Unit :=
  match algorithm with
  | .bfs => do
    let _ ← BFSAlgorithm.bfs_build_adjacency_list g
    .ok ()
  | _ => .ok ()

/-- `AlgorithmFactory.calculate_shortest_path`.  The A* coordinate
injection is reflected in the heuristic argument `h` (see
`AStarAlgorithm.Heuristic`). -/
def calculate_shortest_path (g : Graph) (q : PathQuery)
    (h : AStarAlgorithm.Heuristic) : Except String PathResult := do
  validate_algorithm_choice g q.algorithm
  match q.algorithm with
  | .dijkstra => DijkstraAlgorithm.find_shortest_path g q.source q.target q.include_visited
  | .bfs => BFSAlgorithm.find_shortest_path g q.source q.target q.include_visited
  | .astar => AStarAlgorithm.find_shortest_path g h q.source q.target q.include_visited

/-- One benchmark attempt: build the query and run the chosen algorithm;
any raised exception surfaces as `Except.error`. -/
def benchmark_attempt (g : Graph) (source target : String)
    (h : AStarAlgorithm.Heuristic) (algo_type : AlgorithmType) :
    Except String PathResult := do
  let query ← mkPathQuery source target algo_type false
  calculate_shortest_path g query h

/-- `AlgorithmFactory.benchmark_algorithms`: run all three algorithms on
the same query, catching and dropping any per-algorithm exception.  (The
trailing fastest-algorithm logging has no effect on the returned map.) -/
def benchmark_algorithms (g : Graph) (source target : String)
    (h : AStarAlgorithm.Heuristic) : List (String × PathResult) :=
  [AlgorithmType.dijkstra, AlgorithmType.bfs, AlgorithmType.astar].foldl
    (fun results algo_type =>
      match benchmark_attempt g source target h algo_type with
      | .ok result => results ++ [(algo_type.value, result)]
      | .error _ => results)
    []

end AlgorithmFactory

/-! Specification-side notions: the graph's data-model invariants and
walks in the graph, used to state the claims. -/

/-- The data-model invariant of `Graph` (`spec.md` §3, enforced upstream by
`GraphInput.validate_edges_reference_nodes`): every edge endpoint is a
member of the node set. -/
def Graph.validEdges (g : Graph) : Prop :=
  ∀ e ∈ g.edges, e.from_node ∈ g.nodes ∧ e.to_node ∈ g.nodes

/-- The data-model invariant that edge weights are strictly positive
(pydantic `weight: float = Field(1.0, gt=0)`). -/
def Graph.posWeights (g : Graph) : Prop :=
  ∀ e ∈ g.edges, 0 < e.weight

instance (g : Graph) : Decidable g.validEdges :=
  inferInstanceAs
    (Decidable (∀ e ∈ g.edges, e.from_node ∈ g.nodes ∧ e.to_node ∈ g.nodes))

instance (g : Graph) : Decidable g.posWeights :=
  inferInstanceAs (Decidable (∀ e ∈ g.edges, 0 < e.weight))

/-- All edge weights equal `1.0` (claim C7's hypothesis). -/
def Graph.unitWeights (g : Graph) : Prop :=
  ∀ e ∈ g.edges, e.weight = 1

instance (g : Graph) : Decidable g.unitWeights :=
  inferInstanceAs (Decidable (∀ e ∈ g.edges, e.weight = 1))

/-- `g.adjRel u v w`: the edge table joins `u` to `v` with weight `w` in the
traversed direction (either direction when the graph is undirected). -/
def Graph.adjRel (g : Graph) (u v : String) (w : ℚ) : Prop :=
  ∃ e ∈ g.edges,
    (e.from_node = u ∧ e.to_node = v ∨
      g.directed = false ∧ e.from_node = v ∧ e.to_node = u) ∧
    e.weight = w

/-- `g.Adj u v`: some edge joins `u` to `v`. -/
def Graph.Adj (g : Graph) (u v : String) : Prop :=
  ∃ w, g.adjRel u v w

/-- A walk in the graph presented as the list of its vertices; the claims
call these "paths". -/
def Graph.IsWalkFrom (g : Graph) (s t : String) (p : List String) : Prop :=
  p.head? = some s ∧ p.getLast? = some t ∧ List.Chain' g.Adj p

/-- `g.ChainCost p c`: the consecutive elements of `p` can be joined by
edges of the edge table whose weights sum to `c`. -/
inductive Graph.ChainCost (g : Graph) : List String → ℚ → Prop
  | single (v : String) : Graph.ChainCost g [v] 0
  | cons {u v : String} {rest : List String} {w c : ℚ} :
      g.adjRel u v w → Graph.ChainCost g (v :: rest) c →
      Graph.ChainCost g (u :: v :: rest) (w + c)

/-- Reachability along edges of the edge table. -/
def Graph.Reachable (g : Graph) (s t : String) : Prop :=
  ∃ p, g.IsWalkFrom s t p

/-! Auxiliary definitions used by the proofs: a generic form of the two
adjacency-list builders, loop potentials for the fuel bounds, and the
concrete graphs appearing in counterexamples and witnesses. -/

/-- Common generalisation of the two adjacency-list builders: fold over the
edges, appending `v₁ e` at key `e.from_node` and, when undirected, `v₂ e`
at key `e.to_node`. -/
def genBuild {α : Type} (directed : Bool) (v₁ v₂ : Edge → α) (edges : List Edge)
    (d0 : Dict (List α)) : Except String (Dict (List α)) :=
  edges.foldlM
    (fun adj e => do
      let adj ← dictAppend adj e.from_node (v₁ e)
      if directed then pure adj
      else dictAppend adj e.to_node (v₂ e))
    d0

/-- Total number of adjacency entries over a node list. -/
def sumDeg {α : Type} (N : List String) (d : Dict (List α)) : ℕ :=
  N.toFinset.sum (fun k => ((d k).getD []).length)

/-- Loop potential for BFS: strictly decreases at every iteration of
`BFSAlgorithm.loop`. -/
def bfsPotential (g : Graph) (adj : Dict (List String)) (st : BFSAlgorithm.State) : ℕ :=
  st.queue.length +
    ((g.nodes.toFinset \ st.visited.toFinset).sum fun v => 1 + ((adj v).getD []).length)

/-- Loop potential for Dijkstra: strictly decreases at every iteration of
`DijkstraAlgorithm.loop`. -/
def dijkstraPotential (g : Graph) (adj : Dict (List (String × ℚ)))
    (st : DijkstraAlgorithm.State) : ℕ :=
  st.pq.length +
    ((g.nodes.toFinset \ st.visited.toFinset).sum fun v => 1 + ((adj v).getD []).length)

/-- Loop potential for A*: strictly decreases at every iteration of
`AStarAlgorithm.loop`. -/
def astarPotential (g : Graph) (adj : Dict (List (String × ℚ)))
    (st : AStarAlgorithm.State) : ℕ :=
  st.open_set.length +
    ((g.nodes.toFinset \ st.closed_set.toFinset).sum fun v => 1 + ((adj v).getD []).length)

namespace Examples

/-- Counterexample graph for claim C1: a directed graph with positive
weights on which A* (with the default all-zero heuristic) and Dijkstra
disagree, because A* does not re-push a node whose g-score improves while
it sits in the open set. -/
def G1 : Graph :=
  ⟨true, ["s", "x", "u", "y"],
    [⟨"s", "x", 10⟩, ⟨"s", "u", 5⟩, ⟨"s", "y", 1⟩, ⟨"y", "x", 2⟩, ⟨"x", "u", 1⟩]⟩

/-- Counterexample graph for claim C2: a single node `a` and no edges, so
`b` is an unknown node. -/
def G2 : Graph := ⟨true, ["a"], []⟩

/-- Counterexample graph for claim C5: a single directed edge of weight 2,
so BFS reports hop count 1 while the summed edge weight is 2. -/
def G5 : Graph := ⟨true, ["a", "b"], [⟨"a", "b", 2⟩]⟩

/-- Scenario 1 of the spec: the undirected unit-weight line A - B - C. -/
def Line : Graph := ⟨false, ["A", "B", "C"], [⟨"A", "B", 1⟩, ⟨"B", "C", 1⟩]⟩

/-- Scenario 2 of the spec: directed weighted triangle. -/
def S2 : Graph := ⟨true, ["A", "B", "C"], [⟨"A", "B", 5⟩, ⟨"A", "C", 2⟩, ⟨"C", "B", 1⟩]⟩

end Examples

namespace DijkstraAlgorithm

/-- Loop invariant of `DijkstraAlgorithm.loop`, at loop entry.  `rkd`-style
finite distances are written `some (d : WithTop ℚ)` with `d : ℚ`. -/
structure Inv (g : Graph) (source : String) (inc : Bool) (st : State) : Prop where
  distDom : ∀ k, (st.distances k).isSome ↔ (k ∈ g.nodes ∨ k = source)
  sourceDist : st.distances source = some 0
  distNonneg : ∀ v : String, ∀ dv : ℚ, st.distances v = some (dv : WithTop ℚ) → 0 ≤ dv
  prevDom : ∀ k, (st.previous k).isSome ↔ k ∈ g.nodes
  prevSource : source ∈ g.nodes → st.previous source = some none
  visitedNodup : st.visited.Nodup
  visitedMem : ∀ v ∈ st.visited, v ∈ g.nodes
  orderEq : st.visited_order = (if inc then st.visited else [])
  pqMem : ∀ e ∈ st.pq, e.2 ∈ g.nodes
  pqUB : ∀ e ∈ st.pq, ∃ de : ℚ, st.distances e.2 = some (de : WithTop ℚ) ∧ de ≤ e.1
  frontier : ∀ v, v ∉ st.visited → ∀ dv : ℚ,
      st.distances v = some (dv : WithTop ℚ) → (dv, v) ∈ st.pq
  finLink : ∀ v, v ≠ source → ∀ dv : ℚ, st.distances v = some (dv : WithTop ℚ) →
      ∃ u w du, g.adjRel u v w ∧ st.previous v = some (some u) ∧
        st.distances u = some (du : WithTop ℚ) ∧ dv = du + w ∧ u ∈ st.visited
  settledFin : ∀ u ∈ st.visited, ∃ du : ℚ, st.distances u = some (du : WithTop ℚ)
  settledOpt : ∀ u ∈ st.visited, ∀ du : ℚ, st.distances u = some (du : WithTop ℚ) →
      ∀ p c, g.ChainCost p c → p.head? = some source → p.getLast? = some u → du ≤ c
  relaxClosed : ∀ u ∈ st.visited, ∀ du : ℚ, st.distances u = some (du : WithTop ℚ) →
      ∀ v w, g.adjRel u v w →
      ∃ dv : ℚ, st.distances v = some (dv : WithTop ℚ) ∧ dv ≤ du + w
  visitedLePq : ∀ u ∈ st.visited, ∀ du : ℚ, st.distances u = some (du : WithTop ℚ) →
      ∀ e ∈ st.pq, du ≤ e.1

/-- The part of the invariant exported at both loop exits (the break exit
does not relax the target, so `relaxClosed` and the heap bookkeeping are
dropped). -/
structure Post (g : Graph) (source : String) (inc : Bool) (st : State) : Prop where
  distDom : ∀ k, (st.distances k).isSome ↔ (k ∈ g.nodes ∨ k = source)
  sourceDist : st.distances source = some 0
  distNonneg : ∀ v : String, ∀ dv : ℚ, st.distances v = some (dv : WithTop ℚ) → 0 ≤ dv
  prevDom : ∀ k, (st.previous k).isSome ↔ k ∈ g.nodes
  prevSource : source ∈ g.nodes → st.previous source = some none
  visitedNodup : st.visited.Nodup
  visitedMem : ∀ v ∈ st.visited, v ∈ g.nodes
  orderEq : st.visited_order = (if inc then st.visited else [])
  finLink : ∀ v, v ≠ source → ∀ dv : ℚ, st.distances v = some (dv : WithTop ℚ) →
      ∃ u w du, g.adjRel u v w ∧ st.previous v = some (some u) ∧
        st.distances u = some (du : WithTop ℚ) ∧ dv = du + w ∧ u ∈ st.visited
  settledFin : ∀ u ∈ st.visited, ∃ du : ℚ, st.distances u = some (du : WithTop ℚ)
  settledOpt : ∀ u ∈ st.visited, ∀ du : ℚ, st.distances u = some (du : WithTop ℚ) →
      ∀ p c, g.ChainCost p c → p.head? = some source → p.getLast? = some u → du ≤ c

/-- Invariant carried through the relaxation loop of the node `u` being
settled at distance `d`. -/
structure RInv (g : Graph) (source : String) (inc : Bool) (u : String) (d : ℚ)
    (st : State) : Prop where
  distDom : ∀ k, (st.distances k).isSome ↔ (k ∈ g.nodes ∨ k = source)
  sourceDist : st.distances source = some 0
  distNonneg : ∀ v : String, ∀ dv : ℚ, st.distances v = some (dv : WithTop ℚ) → 0 ≤ dv
  prevDom : ∀ k, (st.previous k).isSome ↔ k ∈ g.nodes
  prevSource : source ∈ g.nodes → st.previous source = some none
  visitedNodup : st.visited.Nodup
  visitedMem : ∀ v ∈ st.visited, v ∈ g.nodes
  orderEq : st.visited_order = (if inc then st.visited else [])
  pqMem : ∀ e ∈ st.pq, e.2 ∈ g.nodes
  pqUB : ∀ e ∈ st.pq, ∃ de : ℚ, st.distances e.2 = some (de : WithTop ℚ) ∧ de ≤ e.1
  frontier : ∀ v, v ∉ st.visited → ∀ dv : ℚ,
      st.distances v = some (dv : WithTop ℚ) → (dv, v) ∈ st.pq
  finLink : ∀ v, v ≠ source → ∀ dv : ℚ, st.distances v = some (dv : WithTop ℚ) →
      ∃ u' w du, g.adjRel u' v w ∧ st.previous v = some (some u') ∧
        st.distances u' = some (du : WithTop ℚ) ∧ dv = du + w ∧ u' ∈ st.visited
  settledFin : ∀ u' ∈ st.visited, ∃ du : ℚ, st.distances u' = some (du : WithTop ℚ)
  settledOpt : ∀ u' ∈ st.visited, ∀ du : ℚ, st.distances u' = some (du : WithTop ℚ) →
      ∀ p c, g.ChainCost p c → p.head? = some source → p.getLast? = some u' → du ≤ c
  uVisited : u ∈ st.visited
  uDist : st.distances u = some (d : WithTop ℚ)
  visitedLeD : ∀ u' ∈ st.visited, ∀ du' : ℚ,
      st.distances u' = some (du' : WithTop ℚ) → du' ≤ d
  visitedLePq : ∀ u' ∈ st.visited, ∀ du' : ℚ,
      st.distances u' = some (du' : WithTop ℚ) → ∀ e ∈ st.pq, du' ≤ e.1
  relaxOld : ∀ u' ∈ st.visited, u' ≠ u → ∀ du' : ℚ,
      st.distances u' = some (du' : WithTop ℚ) → ∀ v w, g.adjRel u' v w →
      ∃ dv : ℚ, st.distances v = some (dv : WithTop ℚ) ∧ dv ≤ du' + w

end DijkstraAlgorithm

namespace BFSAlgorithm

/-- The hop count recorded for `v` (0 when `v` has no entry yet). -/
def rkd (st : State) (v : String) : ℕ := (st.distances v).getD 0

/-- Every walk from `source` that ends outside `V` has more than `n` hops
(at least `n + 2` vertices). -/
def WalkLB (g : Graph) (source : String) (V : List String) (n : ℕ) : Prop :=
  ∀ v, v ∉ V → ∀ p, List.Chain' g.Adj p → p.head? = some source →
    p.getLast? = some v → n + 2 ≤ p.length

/-- The fields of the BFS loop invariant that hold at every point of the
search, including states produced by the mid-scan break. -/
structure SPost (g : Graph) (source target : String) (inc : Bool)
    (st : State) : Prop where
  distDom : ∀ k, (st.distances k).isSome ↔ k ∈ st.visited
  prevDom : ∀ k, (st.previous k).isSome ↔ k ∈ st.visited
  sourceVis : source ∈ st.visited
  sourceDist : st.distances source = some 0
  prevSource : st.previous source = some none
  visitedNodup : st.visited.Nodup
  visitedMem : ∀ v ∈ st.visited, v ∈ g.nodes ∨ v = source
  visitedReach : ∀ v ∈ st.visited, g.Reachable source v
  orderEq : st.visited_order = (if inc then st.visited else [])
  queueSub : ∀ v ∈ st.queue, v ∈ st.visited
  queueNodup : st.queue.Nodup
  queueSorted : st.queue.Pairwise (fun a b => rkd st a ≤ rkd st b)
  finLink : ∀ v ∈ st.visited, v ≠ source → ∃ u, st.previous v = some (some u) ∧
      u ∈ st.visited ∧ g.Adj u v ∧ rkd st v = rkd st u + 1
  minimal : ∀ v ∈ st.visited, ∀ p, List.Chain' g.Adj p → p.head? = some source →
      p.getLast? = some v → rkd st v + 1 ≤ p.length

/-- Loop invariant of `BFSAlgorithm.loop`, at loop entry.  The fields that
the mid-scan break may violate are guarded by `path_found = false`; the loop
stops as soon as `path_found` is set, so they are only consumed from
states that continue the search. -/
structure Inv (g : Graph) (source target : String) (inc : Bool)
    (st : State) : Prop where
  base : SPost g source target inc st
  queueSpread : ∀ a ∈ st.queue, ∀ b ∈ st.queue, rkd st b ≤ rkd st a + 1
  procLe : st.path_found = false → ∀ v ∈ st.visited, v ∉ st.queue →
      ∀ a ∈ st.queue, rkd st v ≤ rkd st a
  procRelax : st.path_found = false → ∀ u ∈ st.visited, u ∉ st.queue →
      ∀ v, g.Adj u v → v ∈ st.visited ∧ rkd st v ≤ rkd st u + 1
  frontierLB : st.path_found = false → ∀ a, st.queue.head? = some a →
      WalkLB g source st.visited (rkd st a)
  targetIff : target ∈ st.visited ↔ st.path_found = true

/-- The state facts carried through the scan of the neighbors of the
dequeued node `u`, whose recorded hop count is `du` (the part that is
indifferent to the mid-scan break). -/
structure SCore (g : Graph) (source target : String) (inc : Bool)
    (u : String) (du : ℕ) (st : State) : Prop where
  base : SPost g source target inc st
  uVisited : u ∈ st.visited
  uDist : st.distances u = some du
  uNotQueue : u ∉ st.queue
  queueLB : ∀ a ∈ st.queue, du ≤ rkd st a
  queueUB : ∀ a ∈ st.queue, rkd st a ≤ du + 1
  procLe : ∀ v ∈ st.visited, v ∉ st.queue → v ≠ u → rkd st v ≤ du
  procRelax : ∀ w ∈ st.visited, w ∉ st.queue → w ≠ u → ∀ v, g.Adj w v →
      v ∈ st.visited ∧ rkd st v ≤ rkd st w + 1
  startLB : WalkLB g source st.visited du

/-- Invariant at entry of `BFSAlgorithm.scan`. -/
structure SInv (g : Graph) (source target : String) (inc : Bool)
    (u : String) (du : ℕ) (st : State) : Prop where
  core : SCore g source target inc u du st
  pfFalse : st.path_found = false
  targetNotVis : target ∉ st.visited

/-- What one call of `BFSAlgorithm.scan` guarantees about its result, in
terms of the list `news` of newly discovered nodes. -/
structure ScanOut (g : Graph) (source target : String) (inc : Bool)
    (u : String) (du : ℕ) (news : List String) (st st' : State) : Prop where
  queueEq : st'.queue = st.queue ++ news
  visEq : st'.visited = st.visited ++ news
  newsNodes : ∀ x ∈ news, x ∈ g.nodes
  newsFresh : ∀ x ∈ news, x ∉ st.visited
  newsDist : ∀ x ∈ news, st'.distances x = some (du + 1)
  oldDist : ∀ x, x ∉ news → st'.distances x = st.distances x
  core : SCore g source target inc u du st'

/-- The part of the BFS invariant exported at the loop exits. -/
structure Post (g : Graph) (source target : String) (inc : Bool)
    (st : State) : Prop where
  base : SPost g source target inc st
  targetIff : target ∈ st.visited ↔ st.path_found = true
  complete : st.path_found = false → ∀ v, g.Reachable source v → v ∈ st.visited

end BFSAlgorithm

namespace AStarAlgorithm

/-- Loop invariant of `AStarAlgorithm.loop` (no optimality bookkeeping:
the claims about A* proved below do not assert optimality). -/
structure Inv (g : Graph) (source : String) (inc : Bool) (st : State) : Prop where
  gDom : ∀ k, (st.g_score k).isSome ↔ (k ∈ g.nodes ∨ k = source)
  sourceG : st.g_score source = some ((0 : ℚ) : WithTop ℚ)
  gNonneg : ∀ v : String, ∀ gv : ℚ, st.g_score v = some ((gv : ℚ) : WithTop ℚ) → 0 ≤ gv
  prevDom : ∀ k, (st.previous k).isSome ↔ k ∈ g.nodes
  prevSource : source ∈ g.nodes → st.previous source = some none
  closedNodup : st.closed_set.Nodup
  closedMem : ∀ v ∈ st.closed_set, v ∈ g.nodes
  orderEq : st.visited_order = (if inc then st.closed_set else [])
  openMem : ∀ e ∈ st.open_set, e.2.2 ∈ g.nodes
  openFin : ∀ e ∈ st.open_set, ∃ ge : ℚ, st.g_score e.2.2 = some ((ge : ℚ) : WithTop ℚ)
  finLink : ∀ v, v ≠ source → ∀ gv : ℚ, st.g_score v = some ((gv : ℚ) : WithTop ℚ) →
      ∃ u w gu, g.adjRel u v w ∧ st.previous v = some (some u) ∧
        st.g_score u = some ((gu : ℚ) : WithTop ℚ) ∧ gv = gu + w ∧ u ∈ st.closed_set
  closedFin : ∀ u ∈ st.closed_set, ∃ gu : ℚ, st.g_score u = some ((gu : ℚ) : WithTop ℚ)

end AStarAlgorithm

/-! From here on: theorems.  We start with basic lemmas about the dict and
heap models, then characterise the adjacency builders, then prove the three
search loops correct, and finally settle the claims. -/

namespace Dict

theorem set_self {α : Type} (d : Dict α) (k : String) (v : α) :
    d.set k v k = some v := by
  simp [Dict.set]

theorem set_ne {α : Type} (d : Dict α) {k x : String} (v : α) (h : x ≠ k) :
    d.set k v x = d x := by
  simp [Dict.set, h]

theorem set_eq_ite {α : Type} (d : Dict α) (k x : String) (v : α) :
    d.set k v x = if x = k then some v else d x := rfl

end Dict

theorem foldl_set_const {α : Type} (c : α) :
    ∀ (nodes : List String) (d : Dict α) (k : String),
      (nodes.foldl (fun d n => d.set n c) d) k = if k ∈ nodes then some c else d k
  | [], d, k => by simp
  | n :: rest, d, k => by
    rw [List.foldl_cons, foldl_set_const c rest]
    by_cases hk : k ∈ rest
    · simp [hk]
    · by_cases hkn : k = n
      · subst hkn
        simp [hk, Dict.set_self]
      · simp [hk, hkn, Dict.set_ne _ _ hkn]

theorem initAdj_eq {α : Type} (nodes : List String) (k : String) :
    (initAdj (α := α) nodes) k = if k ∈ nodes then some [] else none := by
  simpa [initAdj, Dict.empty] using foldl_set_const ([] : List α) nodes Dict.empty k

theorem init_inf_eq (nodes : List String) (k : String) :
    (init_inf nodes) k = if k ∈ nodes then some ⊤ else none := by
  simpa [init_inf, Dict.empty] using foldl_set_const (⊤ : WithTop ℚ) nodes Dict.empty k

theorem init_previous_eq (nodes : List String) (k : String) :
    (init_previous nodes) k = if k ∈ nodes then some none else none := by
  simpa [init_previous, Dict.empty] using
    foldl_set_const (none : Option String) nodes Dict.empty k

theorem dictAppend_ok {α : Type} {d : Dict (List α)} {k : String} {v : α}
    {d' : Dict (List α)} (h : dictAppend d k v = .ok d') :
    ∃ l, d k = some l ∧ d' = d.set k (l ++ [v]) := by
  unfold dictAppend at h
  cases hk : d k with
  | none => rw [hk] at h; exact absurd h (by simp)
  | some l =>
    rw [hk] at h
    exact ⟨l, rfl, by cases h; rfl⟩

theorem dictAppend_isSome {α : Type} {d : Dict (List α)} {k : String} {v : α}
    (h : (d k).isSome) : ∃ d', dictAppend d k v = .ok d' := by
  unfold dictAppend
  cases hk : d k with
  | none => rw [hk] at h; simp at h
  | some l => exact ⟨_, rfl⟩

theorem findMinKey_mem {α κ : Type} [LinearOrder κ] (key : α → κ) :
    ∀ (m : α) (l : List α), findMinKey key m l ∈ m :: l
  | m, [] => by simp [findMinKey]
  | m, x :: xs => by
    rw [findMinKey]
    by_cases hle : key m ≤ key x
    · rw [if_pos hle]
      rcases List.mem_cons.mp (findMinKey_mem key m xs) with h | h
      · simp [h]
      · simp [h]
    · rw [if_neg hle]
      rcases List.mem_cons.mp (findMinKey_mem key x xs) with h | h
      · simp [h]
      · simp [h]

theorem findMinKey_le {α κ : Type} [LinearOrder κ] (key : α → κ) :
    ∀ (m : α) (l : List α), ∀ y ∈ m :: l, key (findMinKey key m l) ≤ key y
  | m, [] => by
    intro y hy
    rcases List.mem_cons.mp hy with h | h
    · subst h; simp [findMinKey]
    · simp at h
  | m, x :: xs => by
    intro y hy
    rw [findMinKey]
    by_cases hle : key m ≤ key x
    · rw [if_pos hle]
      rcases List.mem_cons.mp hy with h | h
      · rw [h]
        exact findMinKey_le key m xs m (List.mem_cons_self _ _)
      · rcases List.mem_cons.mp h with h' | h'
        · rw [h']
          exact le_trans (findMinKey_le key m xs m (List.mem_cons_self _ _)) hle
        · exact findMinKey_le key m xs y (List.mem_cons_of_mem _ h')
    · rw [if_neg hle]
      rcases List.mem_cons.mp hy with h | h
      · rw [h]
        exact le_trans (findMinKey_le key x xs x (List.mem_cons_self _ _))
          (le_of_not_le hle)
      · rcases List.mem_cons.mp h with h' | h'
        · rw [h']
          exact findMinKey_le key x xs x (List.mem_cons_self _ _)
        · exact findMinKey_le key x xs y (List.mem_cons_of_mem _ h')

theorem popMinKey_none {α κ : Type} [DecidableEq α] [LinearOrder κ] (key : α → κ)
    {l : List α} : popMinKey key l = none ↔ l = [] := by
  cases l with
  | nil => simp [popMinKey]
  | cons x xs => simp [popMinKey]

theorem popMinKey_some {α κ : Type} [DecidableEq α] [LinearOrder κ] (key : α → κ)
    {l : List α} {m : α} {rest : List α} (h : popMinKey key l = some (m, rest)) :
    m ∈ l ∧ rest = l.erase m ∧ (∀ y ∈ l, key m ≤ key y) := by
  cases l with
  | nil => simp [popMinKey] at h
  | cons x xs =>
    simp only [popMinKey, Option.some.injEq, Prod.mk.injEq] at h
    obtain ⟨hm, hrest⟩ := h
    subst hm
    exact ⟨findMinKey_mem key x xs, hrest.symm,
      fun y hy => findMinKey_le key x xs y hy⟩

theorem popMinKey_length {α κ : Type} [DecidableEq α] [LinearOrder κ] (key : α → κ)
    {l : List α} {m : α} {rest : List α} (h : popMinKey key l = some (m, rest)) :
    rest.length + 1 = l.length := by
  obtain ⟨hm, hrest, -⟩ := popMinKey_some key h
  subst hrest
  rw [List.length_erase_of_mem hm]
  exact Nat.succ_pred_eq_of_pos (List.length_pos.mpr (List.ne_nil_of_mem hm))

theorem popMinKey_subset {α κ : Type} [DecidableEq α] [LinearOrder κ] (key : α → κ)
    {l : List α} {m : α} {rest : List α} (h : popMinKey key l = some (m, rest)) :
    ∀ y ∈ rest, y ∈ l := by
  obtain ⟨-, hrest, -⟩ := popMinKey_some key h
  subst hrest
  exact fun y hy => List.mem_of_mem_erase hy

theorem popMinKey_mem_rest {α κ : Type} [DecidableEq α] [LinearOrder κ] (key : α → κ)
    {l : List α} {m : α} {rest : List α} (h : popMinKey key l = some (m, rest))
    {y : α} (hy : y ∈ l) (hne : y ≠ m) : y ∈ rest := by
  obtain ⟨-, hrest, -⟩ := popMinKey_some key h
  subst hrest
  exact (List.mem_erase_of_ne hne).mpr hy

/-! Characterisation of the adjacency-list builders. -/

theorem dictAppend_dom {α : Type} {d d' : Dict (List α)} {k0 : String} {v : α}
    (h : dictAppend d k0 v = .ok d') (k : String) :
    (d' k).isSome ↔ (d k).isSome := by
  obtain ⟨l, hl, rfl⟩ := dictAppend_ok h
  by_cases hk : k = k0
  · subst hk
    simp [Dict.set_self, hl]
  · simp [Dict.set_ne _ _ hk]

theorem ok_bind {ε α β : Type} (a : α) (f : α → Except ε β) :
    (Except.ok (ε := ε) a >>= f) = f a := rfl

theorem error_bind {ε α β : Type} (e : ε) (f : α → Except ε β) :
    (Except.error (α := α) e >>= f) = .error e := rfl

theorem dictAppend_mem {α : Type} {d d' : Dict (List α)} {k0 : String} {v : α}
    (h : dictAppend d k0 v = .ok d') (k : String) (a : α) :
    (∃ l, d' k = some l ∧ a ∈ l) ↔
      ((∃ l, d k = some l ∧ a ∈ l) ∨ (k = k0 ∧ a = v)) := by
  obtain ⟨l0, hl0, rfl⟩ := dictAppend_ok h
  by_cases hk : k = k0
  · subst hk
    rw [Dict.set_self]
    constructor
    · rintro ⟨l, hl, ha⟩
      obtain rfl : l0 ++ [v] = l := by injection hl
      rcases List.mem_append.mp ha with h' | h'
      · exact .inl ⟨l0, hl0, h'⟩
      · refine .inr ⟨rfl, ?_⟩
        simpa using h'
    · rintro (⟨l, hl, ha⟩ | ⟨-, hv⟩)
      · obtain rfl : l0 = l := by rw [hl0] at hl; injection hl
        exact ⟨l0 ++ [v], rfl, List.mem_append.mpr (.inl ha)⟩
      · exact ⟨l0 ++ [v], rfl, List.mem_append.mpr (.inr (by simp [hv]))⟩
  · rw [Dict.set_ne _ _ hk]
    simp [hk]

theorem genBuild_ok {α : Type} (directed : Bool) (v₁ v₂ : Edge → α) (N : List String) :
    ∀ (edges : List Edge) (d0 : Dict (List α)),
      (∀ e ∈ edges, e.from_node ∈ N ∧ e.to_node ∈ N) →
      (∀ k, (d0 k).isSome ↔ k ∈ N) →
      ∃ adj, genBuild directed v₁ v₂ edges d0 = .ok adj ∧
        (∀ k, (adj k).isSome ↔ k ∈ N) ∧
        (∀ k a, (∃ l, adj k = some l ∧ a ∈ l) ↔
          ((∃ l, d0 k = some l ∧ a ∈ l) ∨
           (∃ e ∈ edges, (e.from_node = k ∧ a = v₁ e) ∨
             (directed = false ∧ e.to_node = k ∧ a = v₂ e))))
  | [], d0, _, hdom => ⟨d0, rfl, hdom, by simp⟩
  | e :: rest, d0, hval, hdom => by
    obtain ⟨d1, hd1⟩ := dictAppend_isSome (v := v₁ e)
      ((hdom e.from_node).mpr (hval e (by simp)).1)
    have hdom1 : ∀ k, (d1 k).isSome ↔ k ∈ N := fun k =>
      (dictAppend_dom hd1 k).trans (hdom k)
    cases hdir : directed with
    | true =>
      obtain ⟨adj, hadj, hadjdom, hadjmem⟩ :=
        genBuild_ok true v₁ v₂ N rest d1 (fun e' he' => hval e' (by simp [he'])) hdom1
      refine ⟨adj, ?_, hadjdom, ?_⟩
      · simp only [genBuild, List.foldlM_cons]
        rw [hd1, ok_bind, if_pos trivial, pure_bind]
        simpa [genBuild] using hadj
      · intro k a
        rw [hadjmem k a, dictAppend_mem hd1 k a]
        constructor
        · rintro ((h | ⟨rfl, rfl⟩) | h)
          · exact .inl h
          · exact .inr ⟨e, by simp⟩
          · obtain ⟨e', he', hcase⟩ := h
            rcases hcase with hc | hc
            · exact .inr ⟨e', by simp [he'], .inl hc⟩
            · simp at hc
        · rintro (h | ⟨e', he', hcase⟩)
          · exact .inl (.inl h)
          · rcases List.mem_cons.mp he' with rfl | he''
            · rcases hcase with ⟨hf, ha⟩ | ⟨hfalse, -⟩
              · exact .inl (.inr ⟨hf.symm, ha⟩)
              · simp at hfalse
            · rcases hcase with hc | ⟨hfalse, -⟩
              · exact .inr ⟨e', he'', .inl hc⟩
              · simp at hfalse
    | false =>
      obtain ⟨d2, hd2⟩ := dictAppend_isSome (v := v₂ e)
        ((hdom1 e.to_node).mpr (hval e (by simp)).2)
      have hdom2 : ∀ k, (d2 k).isSome ↔ k ∈ N := fun k =>
        (dictAppend_dom hd2 k).trans (hdom1 k)
      obtain ⟨adj, hadj, hadjdom, hadjmem⟩ :=
        genBuild_ok false v₁ v₂ N rest d2 (fun e' he' => hval e' (by simp [he'])) hdom2
      refine ⟨adj, ?_, hadjdom, ?_⟩
      · simp only [genBuild, List.foldlM_cons]
        rw [hd1, ok_bind, if_neg (show ¬(false = true) by decide), hd2, ok_bind]
        simpa [genBuild] using hadj
      · intro k a
        rw [hadjmem k a, dictAppend_mem hd2 k a, dictAppend_mem hd1 k a]
        constructor
        · rintro (((h | ⟨rfl, rfl⟩) | ⟨rfl, rfl⟩) | h)
          · exact .inl h
          · exact .inr ⟨e, by simp⟩
          · exact .inr ⟨e, by simp⟩
          · obtain ⟨e', he', hcase⟩ := h
            exact .inr ⟨e', by simp [he'], hcase⟩
        · rintro (h | ⟨e', he', hcase⟩)
          · exact .inl (.inl (.inl h))
          · rcases List.mem_cons.mp he' with rfl | he''
            · rcases hcase with ⟨hf, ha⟩ | ⟨-, ht, ha⟩
              · exact .inl (.inl (.inr ⟨hf.symm, ha⟩))
              · exact .inl (.inr ⟨ht.symm, ha⟩)
            · exact .inr ⟨e', he'', hcase⟩

theorem initAdj_dom {α : Type} (nodes : List String) (k : String) :
    ((initAdj (α := α) nodes) k).isSome ↔ k ∈ nodes := by
  rw [initAdj_eq]
  by_cases h : k ∈ nodes <;> simp [h]

theorem initAdj_mem {α : Type} (nodes : List String) (k : String) (a : α) :
    ¬ ∃ l, (initAdj (α := α) nodes) k = some l ∧ a ∈ l := by
  rw [initAdj_eq]
  by_cases h : k ∈ nodes <;> simp [h]

theorem build_adjacency_list_ok (g : Graph) (hval : g.validEdges) :
    ∃ adj, build_adjacency_list g = .ok adj ∧
      (∀ k, (adj k).isSome ↔ k ∈ g.nodes) ∧
      ∀ u v w, (∃ l, adj u = some l ∧ (v, w) ∈ l) ↔ g.adjRel u v w := by
  obtain ⟨adj, hok, hdom, hmem⟩ :=
    genBuild_ok g.directed (fun e => (e.to_node, e.weight))
      (fun e => (e.from_node, e.weight)) g.nodes g.edges (initAdj g.nodes)
      hval (initAdj_dom g.nodes)
  refine ⟨adj, hok, hdom, ?_⟩
  intro u v w
  rw [hmem u (v, w)]
  constructor
  · rintro (h | ⟨e, he, hcase⟩)
    · exact absurd h (initAdj_mem _ _ _)
    · rcases hcase with ⟨hf, hvw⟩ | ⟨hdir, ht, hvw⟩
      · rw [Prod.ext_iff] at hvw
        exact ⟨e, he, .inl ⟨hf, hvw.1.symm⟩, hvw.2.symm⟩
      · rw [Prod.ext_iff] at hvw
        exact ⟨e, he, .inr ⟨hdir, hvw.1.symm, ht⟩, hvw.2.symm⟩
  · rintro ⟨e, he, hcase, hw⟩
    rcases hcase with ⟨hf, ht⟩ | ⟨hdir, hf, ht⟩
    · exact .inr ⟨e, he, .inl ⟨hf, by rw [Prod.ext_iff]; exact ⟨ht.symm, hw.symm⟩⟩⟩
    · exact .inr ⟨e, he, .inr ⟨hdir, ht, by rw [Prod.ext_iff]; exact ⟨hf.symm, hw.symm⟩⟩⟩

theorem bfs_build_adjacency_list_ok (g : Graph) (hval : g.validEdges) :
    ∃ adj, BFSAlgorithm.bfs_build_adjacency_list g = .ok adj ∧
      (∀ k, (adj k).isSome ↔ k ∈ g.nodes) ∧
      ∀ u v, (∃ l, adj u = some l ∧ v ∈ l) ↔ g.Adj u v := by
  obtain ⟨adj, hok, hdom, hmem⟩ :=
    genBuild_ok g.directed (fun e => e.to_node) (fun e => e.from_node)
      g.nodes g.edges (initAdj g.nodes) hval (initAdj_dom g.nodes)
  refine ⟨adj, hok, hdom, ?_⟩
  intro u v
  rw [hmem u v]
  constructor
  · rintro (h | ⟨e, he, hcase⟩)
    · exact absurd h (initAdj_mem _ _ _)
    · rcases hcase with ⟨hf, hv⟩ | ⟨hdir, ht, hv⟩
      · exact ⟨e.weight, e, he, .inl ⟨hf, hv.symm⟩, rfl⟩
      · exact ⟨e.weight, e, he, .inr ⟨hdir, hv.symm, ht⟩, rfl⟩
  · rintro ⟨w, e, he, hcase, -⟩
    rcases hcase with ⟨hf, ht⟩ | ⟨hdir, hf, ht⟩
    · exact .inr ⟨e, he, .inl ⟨hf, ht.symm⟩⟩
    · exact .inr ⟨e, he, .inr ⟨hdir, ht, hf.symm⟩⟩

theorem sumDeg_set_le {α : Type} (N : List String) (d : Dict (List α)) {k0 : String}
    {l : List α} (v : α) (hk : d k0 = some l) :
    sumDeg N (d.set k0 (l ++ [v])) ≤ sumDeg N d + 1 := by
  unfold sumDeg
  calc N.toFinset.sum (fun k => (((d.set k0 (l ++ [v])) k).getD []).length)
      ≤ N.toFinset.sum (fun k => ((d k).getD []).length + if k = k0 then 1 else 0) := by
        apply Finset.sum_le_sum
        intro k _
        by_cases h : k = k0
        · subst h
          simp [Dict.set_self, hk]
        · simp [Dict.set_ne _ _ h, h]
    _ = N.toFinset.sum (fun k => ((d k).getD []).length) +
          N.toFinset.sum (fun k => if k = k0 then 1 else 0) := Finset.sum_add_distrib
    _ ≤ N.toFinset.sum (fun k => ((d k).getD []).length) + 1 := by
        have : (N.toFinset.sum fun k => if k = k0 then 1 else 0) ≤ 1 := by
          rw [Finset.sum_ite_eq' N.toFinset k0 (fun _ => 1)]
          by_cases h : k0 ∈ N.toFinset <;> simp [h]
        omega

theorem dictAppend_sumDeg {α : Type} (N : List String) {d d' : Dict (List α)}
    {k0 : String} {v : α} (h : dictAppend d k0 v = .ok d') :
    sumDeg N d' ≤ sumDeg N d + 1 := by
  obtain ⟨l, hl, rfl⟩ := dictAppend_ok h
  exact sumDeg_set_le N d v hl

theorem genBuild_sumDeg {α : Type} (directed : Bool) (v₁ v₂ : Edge → α) (N : List String) :
    ∀ (edges : List Edge) (d0 adj : Dict (List α)),
      genBuild directed v₁ v₂ edges d0 = .ok adj →
      sumDeg N adj ≤ sumDeg N d0 + 2 * edges.length
  | [], d0, adj, h => by
    obtain rfl : d0 = adj := by
      have h' : Except.ok (ε := String) d0 = Except.ok adj := h
      injection h'
    simp
  | e :: rest, d0, adj, h => by
    simp only [genBuild, List.foldlM_cons] at h
    cases hd1 : dictAppend d0 e.from_node (v₁ e) with
    | error err =>
      rw [hd1, error_bind] at h
      exact Except.noConfusion h
    | ok d1 =>
      rw [hd1, ok_bind] at h
      cases hdir : directed with
      | true =>
        rw [hdir] at h
        rw [if_pos rfl, pure_bind] at h
        have := genBuild_sumDeg directed v₁ v₂ N rest d1 adj (by rw [hdir]; exact h)
        have h1 := dictAppend_sumDeg N hd1
        simp only [List.length_cons]
        omega
      | false =>
        rw [hdir] at h
        rw [if_neg (show ¬(false = true) by decide)] at h
        cases hd2 : dictAppend d1 e.to_node (v₂ e) with
        | error err =>
          rw [hd2, error_bind] at h
          exact Except.noConfusion h
        | ok d2 =>
          rw [hd2, ok_bind] at h
          have := genBuild_sumDeg directed v₁ v₂ N rest d2 adj (by rw [hdir]; exact h)
          have h1 := dictAppend_sumDeg N hd1
          have h2 := dictAppend_sumDeg N hd2
          simp only [List.length_cons]
          omega

theorem sumDeg_initAdj {α : Type} (N nodes : List String) :
    sumDeg (α := α) N (initAdj nodes) = 0 := by
  unfold sumDeg
  apply Finset.sum_eq_zero
  intro k _
  rw [initAdj_eq]
  by_cases h : k ∈ nodes <;> simp [h]

/-! Claim C1 (code bug) and the concrete counterexamples for claims C2 and
C5.  These are closed computations of the embedded algorithms. -/

/-- Claim C1 states that with only default (all-zero) coordinates, A* and
Dijkstra report the same distance on every graph with valid edges and
strictly positive weights.  The code violates this: on `Examples.G1`
(valid edges, positive weights, source `s` and target `u` in the node set,
heuristic identically zero) Dijkstra reports distance 4 but A* reports 5,
because A* refuses to re-push node `x` into the open set when `x`'s g-score
improves from 10 to 3 while `x` is still in `open_set_nodes`, so `u` is
settled via the weight-5 edge before `x` is expanded.  The spec's intent
(§8 equivalence property, §4.4 "lazy-deletion ... mirror Dijkstra") is
standard A*, so this is a bug in the code's `open_set_nodes` guard. -/
theorem claim_C1_astar_dijkstra_divergence :
    (DijkstraAlgorithm.find_shortest_path Examples.G1 "s" "u" false).map
        PathResult.distance = .ok (((4 : ℚ) : WithTop ℚ)) ∧
    (AStarAlgorithm.find_shortest_path Examples.G1 AStarAlgorithm.default_heuristic
        "s" "u" false).map PathResult.distance = .ok (((5 : ℚ) : WithTop ℚ)) ∧
    Examples.G1.validEdges ∧ Examples.G1.posWeights ∧
    "s" ∈ Examples.G1.nodes ∧ "u" ∈ Examples.G1.nodes := by
  refine ⟨?_, ?_, ?_, ?_, ?_, ?_⟩
  · with_unfolding_all rfl
  · with_unfolding_all rfl
  · intro e he
    fin_cases he <;> simp [Examples.G1]
  · intro e he
    fin_cases he <;> norm_num
  · simp [Examples.G1]
  · simp [Examples.G1]

/-- Claim C2 states that on a query whose source or target is missing from
the node set no algorithm crashes, uniformly across the three algorithms.
The code violates this: on `Examples.G2` (node set `{a}`), a missing
target makes Dijkstra and A* raise `KeyError 'b'` (reading
`distances[target]` resp. `g_score[target]`) while BFS returns
`exists=false`, and a missing source makes all three raise `KeyError`. -/
theorem claim_C2_counterexample :
    DijkstraAlgorithm.find_shortest_path Examples.G2 "a" "b" false = .error "b" ∧
    AStarAlgorithm.find_shortest_path Examples.G2 AStarAlgorithm.default_heuristic
      "a" "b" false = .error "b" ∧
    (BFSAlgorithm.find_shortest_path Examples.G2 "a" "b" false).map
      PathResult.«exists» = .ok false ∧
    BFSAlgorithm.find_shortest_path Examples.G2 "b" "a" false = .error "b" :=
  ⟨rfl, rfl, rfl, rfl⟩

/-- Claim C5 states (among other things) that for each of the three
algorithms the summed weights of the edges joining consecutive path
elements equal the reported distance.  BFS violates this on any graph with
a non-unit weight: on `Examples.G5` it returns path `[a, b]` with distance
1 (the hop count) although the only joining edge has weight 2. -/
theorem claim_C5_counterexample :
    ∃ r, BFSAlgorithm.find_shortest_path Examples.G5 "a" "b" false = .ok r ∧
      r.path = ["a", "b"] ∧ r.distance = ((1 : ℚ) : WithTop ℚ) ∧
      ¬ ∃ c : ℚ, Examples.G5.ChainCost r.path c ∧ r.distance = ((c : ℚ) : WithTop ℚ) := by
  refine ⟨⟨["a", "b"], ((1 : ℚ) : WithTop ℚ), .bfs, 2, none, true⟩, rfl, rfl, rfl, ?_⟩
  rintro ⟨c, hc, hdist⟩
  cases hc with
  | cons hadj hrest =>
    cases hrest with
    | single =>
      obtain ⟨e, he, hcase, hw⟩ := hadj
      have he' : e = ⟨"a", "b", 2⟩ := by
        simpa [Examples.G5] using he
      subst he'
      rcases hcase with ⟨-, -⟩ | ⟨hdir, -, -⟩
      · rw [← hw] at hdist
        norm_num at hdist
      · simp [Examples.G5] at hdir


/-! Claim C3 (reflexivity) and claim C9 (benchmark partial results). -/

theorem popMinKey_singleton {α κ : Type} [DecidableEq α] [LinearOrder κ]
    (key : α → κ) (x : α) : popMinKey key [x] = some (x, []) := by
  simp [popMinKey, findMinKey]

theorem bfs_reflexive (g : Graph) (x : String) (inc : Bool) (hval : g.validEdges) :
    BFSAlgorithm.find_shortest_path g x x inc =
      .ok { path := [x], distance := (0 : WithTop ℚ), algorithm_used := .bfs,
            visited_nodes_count := 1,
            visited_nodes := if inc then some [x] else none, «exists» := true } := by
  obtain ⟨adj, hok, -, -⟩ := bfs_build_adjacency_list_ok g hval
  unfold BFSAlgorithm.find_shortest_path
  rw [hok, ok_bind, if_pos rfl]

theorem astar_reflexive (g : Graph) (h : AStarAlgorithm.Heuristic) (x : String)
    (inc : Bool) (hval : g.validEdges) :
    AStarAlgorithm.find_shortest_path g h x x inc =
      .ok { path := [x], distance := (0 : WithTop ℚ), algorithm_used := .astar,
            visited_nodes_count := 1,
            visited_nodes := if inc then some [x] else none, «exists» := true } := by
  obtain ⟨adj, hok, -, -⟩ := build_adjacency_list_ok g hval
  unfold AStarAlgorithm.find_shortest_path
  rw [hok, ok_bind, if_pos rfl]

theorem search_fuel_succ (g : Graph) :
    search_fuel g = (g.nodes.length + 2 * g.edges.length + 1) + 1 := rfl

theorem reconstruct_fuel_succ (g : Graph) :
    reconstruct_fuel g = (g.nodes.length + 2 * g.edges.length + 1) + 1 := rfl

theorem dijkstra_reflexive (g : Graph) (x : String) (inc : Bool) (hval : g.validEdges)
    (hx : x ∈ g.nodes) :
    DijkstraAlgorithm.find_shortest_path g x x inc =
      .ok { path := [x], distance := (0 : WithTop ℚ), algorithm_used := .dijkstra,
            visited_nodes_count := 1,
            visited_nodes := if inc then some [x] else none, «exists» := true } := by
  obtain ⟨adj, hok, -, -⟩ := build_adjacency_list_ok g hval
  unfold DijkstraAlgorithm.find_shortest_path
  rw [hok, ok_bind]
  have hloop :
      DijkstraAlgorithm.loop adj x inc (search_fuel g)
        { distances := (init_inf g.nodes).set x (0 : WithTop ℚ)
          previous := init_previous g.nodes
          visited := []
          visited_order := []
          pq := [((0 : ℚ), x)] } =
      .ok { distances := (init_inf g.nodes).set x (0 : WithTop ℚ)
            previous := init_previous g.nodes
            visited := [x]
            visited_order := if inc then [x] else []
            pq := [] } := by
    rw [search_fuel_succ]
    simp [DijkstraAlgorithm.loop, popMinKey_singleton]
  have hdx : ((init_inf g.nodes).set x (0 : WithTop ℚ)) x = some 0 :=
    Dict.set_self _ _ _
  have hrec : reconstruct_path (init_previous g.nodes) (reconstruct_fuel g) x =
      .ok [x] := by
    rw [reconstruct_fuel_succ]
    unfold reconstruct_path
    rw [init_previous_eq, if_pos hx]
  simp [hloop, ok_bind, hdx, hrec, WithTop.coe_ne_top]
  cases inc <;> simp

/-- Claim C3: for every graph (with the data-model edge invariant) and
every node `x` of the graph, each of the three algorithms returns
`path=[x]`, `distance=0`, `exists=true`, `visited_nodes_count=1` on the
query `(x, x)` — including Dijkstra, which has no explicit
`source == target` branch. -/
theorem claim_C3_reflexivity (g : Graph) (x : String) (inc : Bool)
    (hval : g.validEdges) (hx : x ∈ g.nodes) :
    (∃ r, BFSAlgorithm.find_shortest_path g x x inc = .ok r ∧ r.path = [x] ∧
      r.distance = 0 ∧ r.«exists» = true ∧ r.visited_nodes_count = 1) ∧
    (∃ r, DijkstraAlgorithm.find_shortest_path g x x inc = .ok r ∧ r.path = [x] ∧
      r.distance = 0 ∧ r.«exists» = true ∧ r.visited_nodes_count = 1) ∧
    (∀ h : AStarAlgorithm.Heuristic, ∃ r,
      AStarAlgorithm.find_shortest_path g h x x inc = .ok r ∧ r.path = [x] ∧
      r.distance = 0 ∧ r.«exists» = true ∧ r.visited_nodes_count = 1) :=
  ⟨⟨_, bfs_reflexive g x inc hval, rfl, rfl, rfl, rfl⟩,
   ⟨_, dijkstra_reflexive g x inc hval hx, rfl, rfl, rfl, rfl⟩,
   fun h => ⟨_, astar_reflexive g h x inc hval, rfl, rfl, rfl, rfl⟩⟩

/-- Witness for claim C3 at the concrete spec scenario graph. -/
theorem claim_C3_reflexivity_witness :
    Examples.Line.validEdges ∧ "A" ∈ Examples.Line.nodes ∧
    (∃ r, BFSAlgorithm.find_shortest_path Examples.Line "A" "A" false = .ok r ∧
      r.path = ["A"] ∧ r.distance = 0 ∧ r.«exists» = true ∧
      r.visited_nodes_count = 1) :=
  ⟨by decide, by decide,
    (claim_C3_reflexivity Examples.Line "A" false (by decide) (by decide)).1⟩

/-- Claim C9: the benchmark runner attempts all three algorithms on the
same query and the result map consists of exactly the `(name, result)`
pairs of the attempts that did not raise; a raised attempt is skipped
without aborting the run. -/
theorem claim_C9_benchmark_partial_results (g : Graph) (source target : String)
    (h : AStarAlgorithm.Heuristic) :
    AlgorithmFactory.benchmark_algorithms g source target h =
      [AlgorithmType.dijkstra, AlgorithmType.bfs, AlgorithmType.astar].filterMap
        (fun a => (AlgorithmFactory.benchmark_attempt g source target h a).toOption.map
          (fun r => (a.value, r))) := by
  unfold AlgorithmFactory.benchmark_algorithms
  cases hd : AlgorithmFactory.benchmark_attempt g source target h .dijkstra <;>
    cases hb : AlgorithmFactory.benchmark_attempt g source target h .bfs <;>
      cases ha : AlgorithmFactory.benchmark_attempt g source target h .astar <;>
        simp [hd, hb, ha, Except.toOption]


/-! Lemmas about walks and chain costs. -/

theorem adjRel_pos {g : Graph} (hpos : g.posWeights) {u v : String} {w : ℚ}
    (h : g.adjRel u v w) : 0 < w := by
  obtain ⟨e, he, -, hw⟩ := h
  exact hw ▸ hpos e he

theorem adjRel_mem_nodes {g : Graph} (hval : g.validEdges) {u v : String} {w : ℚ}
    (h : g.adjRel u v w) : u ∈ g.nodes ∧ v ∈ g.nodes := by
  obtain ⟨e, he, hc, -⟩ := h
  obtain ⟨h1, h2⟩ := hval e he
  rcases hc with ⟨rfl, rfl⟩ | ⟨-, rfl, rfl⟩
  · exact ⟨h1, h2⟩
  · exact ⟨h2, h1⟩

theorem chainCost_ne_nil {g : Graph} {p : List String} {c : ℚ}
    (h : g.ChainCost p c) : p ≠ [] := by
  cases h <;> simp

theorem chainCost_nonneg {g : Graph} (hpos : g.posWeights) {p : List String} {c : ℚ}
    (h : g.ChainCost p c) : 0 ≤ c := by
  induction h with
  | single v => exact le_refl 0
  | cons hadj hrest ih =>
    have := adjRel_pos hpos hadj
    linarith

theorem chainCost_single_inv {g : Graph} {v : String} {c : ℚ}
    (h : g.ChainCost [v] c) : c = 0 := by
  cases h
  rfl

theorem chainCost_snoc {g : Graph} {p : List String} {c : ℚ} {u v : String} {w : ℚ}
    (h : g.ChainCost p c) (hlast : p.getLast? = some u) (hadj : g.adjRel u v w) :
    g.ChainCost (p ++ [v]) (c + w) := by
  induction h with
  | single a =>
    have hau : a = u := by simpa using hlast
    rw [hau]
    simpa using Graph.ChainCost.cons hadj (Graph.ChainCost.single v)
  | @cons a b rest w' c' hadj' hrest ih =>
    have hlast' : (b :: rest).getLast? = some u := by
      simpa [List.getLast?_cons_cons] using hlast
    have := Graph.ChainCost.cons hadj' (ih hlast')
    simpa [add_assoc] using this

theorem chainCost_snoc_inv {g : Graph} :
    ∀ {q : List String} {x : String} {c : ℚ}, g.ChainCost (q ++ [x]) c → q ≠ [] →
      ∃ y w c₀, q.getLast? = some y ∧ g.adjRel y x w ∧ g.ChainCost q c₀ ∧ c = c₀ + w
  | [], x, c, _, hne => absurd rfl hne
  | [y], x, c, h, _ => by
    cases h with
    | cons hadj hrest =>
      have h0 := chainCost_single_inv hrest
      exact ⟨y, _, 0, rfl, hadj, Graph.ChainCost.single y, by rw [h0]; ring⟩
  | a :: b :: q, x, c, h, _ => by
    cases h with
    | cons hadj hrest =>
      obtain ⟨y, w', c₀, hy, hadj', hq, hc⟩ :=
        chainCost_snoc_inv (q := b :: q) hrest (by simp)
      refine ⟨y, w', _, ?_, hadj', Graph.ChainCost.cons hadj hq, by rw [hc]; ring⟩
      simpa [List.getLast?_cons_cons] using hy

/-- Along a walk every vertex is an edge endpoint or the start, so with
valid edges the whole walk stays inside the node set once it starts there. -/
theorem chainCost_mem_nodes {g : Graph} (hval : g.validEdges) :
    ∀ {p : List String} {c : ℚ}, g.ChainCost p c →
      ∀ a, p.head? = some a → a ∈ g.nodes → ∀ v ∈ p, v ∈ g.nodes := by
  intro p c h
  induction h with
  | single u =>
    intro a ha hmem v hv
    have hua : u = a := by simpa using ha
    have hvu : v = u := by simpa using hv
    rw [hvu, hua]
    exact hmem
  | @cons u v' rest w c' hadj hrest ih =>
    intro a ha hmem x hx
    have hua : u = a := by simpa using ha
    rcases List.mem_cons.mp hx with rfl | hx'
    · rw [hua]
      exact hmem
    · exact ih v' rfl (adjRel_mem_nodes hval hadj).2 x hx'

/-- First exit of a walk out of a vertex set `S`: a prefix-walk of no larger
cost ending at a vertex outside `S` whose earlier vertices all lie in `S`. -/
theorem chainCost_first_exit {g : Graph} (hpos : g.posWeights) (S : List String) :
    ∀ {p : List String} {c : ℚ}, g.ChainCost p c → ∀ {s u : String},
      p.head? = some s → p.getLast? = some u → u ∉ S →
      ∃ q x c₁, g.ChainCost q c₁ ∧ q.head? = some s ∧ q.getLast? = some x ∧
        x ∉ S ∧ (∀ y ∈ q.dropLast, y ∈ S) ∧ c₁ ≤ c := by
  intro p c h
  induction h with
  | single v =>
    intro s u hs hu hns
    have hvu : v = u := by simpa using hu
    refine ⟨[v], v, 0, Graph.ChainCost.single v, hs, rfl, ?_, by simp, le_refl 0⟩
    rw [hvu]
    exact hns
  | @cons a b rest w c' hadj hrest ih =>
    intro s u hs hu hns
    have has : a = s := by simpa using hs
    by_cases hsS : a ∈ S
    · obtain ⟨q', x, c₁', hq', hh', hl', hx', hdrop', hle'⟩ :=
        ih rfl (by simpa [List.getLast?_cons_cons] using hu) hns
      obtain ⟨q'', rfl⟩ : ∃ q'', q' = b :: q'' := by
        cases q' with
        | nil => simp at hh'
        | cons z zs =>
          have hzb : z = b := by simpa using hh'
          exact ⟨zs, by rw [hzb]⟩
      refine ⟨a :: b :: q'', x, w + c₁', Graph.ChainCost.cons hadj hq', ?_, ?_, hx',
        ?_, ?_⟩
      · simpa using has
      · simpa [List.getLast?_cons_cons] using hl'
      · intro y hy
        have hdl : (a :: b :: q'').dropLast = a :: (b :: q'').dropLast := rfl
        rw [hdl] at hy
        rcases List.mem_cons.mp hy with rfl | hy'
        · exact hsS
        · exact hdrop' y hy'
      · have := adjRel_pos hpos hadj
        linarith
    · refine ⟨[a], a, 0, Graph.ChainCost.single a, ?_, rfl, hsS, by simp, ?_⟩
      · simpa using has
      · have h1 := adjRel_pos hpos hadj
        have h2 := chainCost_nonneg hpos hrest
        linarith

/-- Turn a chain of steps that each follow an edge and increase a rank by
the edge weight into a costed walk of total cost `rk b - rk a`. -/
theorem chainCost_of_rank_chain {g : Graph} (rk : String → ℚ) :
    ∀ (q : List String) (a : String),
      List.Chain' (fun x y => ∃ w, g.adjRel x y w ∧ rk y = rk x + w) (a :: q) →
      ∀ b, (a :: q).getLast? = some b →
      g.ChainCost (a :: q) (rk b - rk a)
  | [], a, _, b, hb => by
    have hab : a = b := by simpa using hb
    rw [← hab]
    simpa using Graph.ChainCost.single a
  | y :: rest, a, hchain, b, hb => by
    rw [List.chain'_cons] at hchain
    obtain ⟨⟨w, hadj, hrk⟩, hchain'⟩ := hchain
    have ih := chainCost_of_rank_chain rk rest y hchain' b
      (by simpa [List.getLast?_cons_cons] using hb)
    have heq : w + (rk b - rk y) = rk b - rk a := by rw [hrk]; ring
    exact heq ▸ Graph.ChainCost.cons hadj ih

/-- Hop-count version: a chain of steps that each follow an edge and
increase a natural-number rank by one. -/
theorem hop_chain_length {g : Graph} (rkn : String → ℕ) :
    ∀ (q : List String) (a : String),
      List.Chain' (fun x y => g.Adj x y ∧ rkn y = rkn x + 1) (a :: q) →
      ∀ b, (a :: q).getLast? = some b →
      rkn b + 1 = rkn a + (a :: q).length ∧ List.Chain' g.Adj (a :: q)
  | [], a, _, b, hb => by
    have hab : a = b := by simpa using hb
    rw [← hab]
    simp
  | y :: rest, a, hchain, b, hb => by
    rw [List.chain'_cons] at hchain
    obtain ⟨⟨hadj, hrk⟩, hchain'⟩ := hchain
    obtain ⟨ih1, ih2⟩ := hop_chain_length rkn rest y hchain' b
      (by simpa [List.getLast?_cons_cons] using hb)
    constructor
    · simp only [List.length_cons] at ih1 ⊢
      omega
    · exact List.chain'_cons.mpr ⟨hadj, ih2⟩

theorem reconstruct_path_root (prev : Dict (Option String)) (fuel : ℕ)
    {cur : String} (h : prev cur = some none) :
    reconstruct_path prev (fuel + 1) cur = .ok [cur] := by
  simp [reconstruct_path, h]

theorem reconstruct_path_step (prev : Dict (Option String)) (fuel : ℕ)
    {cur u : String} (h : prev cur = some (some u)) :
    reconstruct_path prev (fuel + 1) cur =
      (reconstruct_path prev fuel u) >>= (fun rest => .ok (cur :: rest)) := by
  simp [reconstruct_path, h]

/-- Generic specification of `reconstruct_path`: if every node in `Q`
other than `source` has a recorded predecessor in `Q` of strictly smaller
rank joined by a step, the reconstruction terminates and returns the
predecessor chain from `v` down to `source`. -/
theorem reconstruct_path_spec {κ : Type} [LinearOrder κ]
    (prev : Dict (Option String)) (source : String) (Q : String → Prop)
    (StepP : String → String → Prop) (rk : String → κ) (VS : Finset String)
    (hQVS : ∀ v, Q v → v ∈ VS)
    (hsrc : prev source = some none)
    (hstep : ∀ v, Q v → v ≠ source →
      ∃ u, prev v = some (some u) ∧ Q u ∧ StepP u v ∧ rk u < rk v) :
    ∀ (fuel : ℕ) (v : String), Q v →
      (VS.filter (fun u => rk u < rk v)).card < fuel →
      ∃ p, reconstruct_path prev fuel v = .ok p ∧ p.head? = some v ∧
        p.getLast? = some source ∧ List.Chain' (fun a b => StepP b a) p := by
  intro fuel
  induction fuel with
  | zero =>
    intro v _ hcard
    exact absurd hcard (by simp)
  | succ fuel ih =>
    intro v hv hcard
    by_cases hvs : v = source
    · refine ⟨[v], ?_, rfl, by simp [hvs], by simp⟩
      rw [hvs]
      exact reconstruct_path_root prev fuel hsrc
    · obtain ⟨u, hprev, hQu, hstepP, hlt⟩ := hstep v hv hvs
      have hmono : (VS.filter (fun z => rk z < rk u)).card <
          (VS.filter (fun z => rk z < rk v)).card := by
        apply Finset.card_lt_card
        constructor
        · intro z hz
          simp only [Finset.mem_filter] at hz ⊢
          exact ⟨hz.1, lt_trans hz.2 hlt⟩
        · intro hsub
          have hu : u ∈ VS.filter (fun z => rk z < rk v) := by
            simp only [Finset.mem_filter]
            exact ⟨hQVS u hQu, hlt⟩
          have := hsub hu
          simp only [Finset.mem_filter] at this
          exact absurd this.2 (lt_irrefl _)
      obtain ⟨p, hrec, hhead, hlast, hchain⟩ := ih u hQu (by omega)
      refine ⟨v :: p, ?_, rfl, ?_, ?_⟩
      · rw [reconstruct_path_step prev fuel hprev, hrec, ok_bind]
      · cases p with
        | nil => simp at hhead
        | cons z zs => simpa [List.getLast?_cons_cons] using hlast
      · cases p with
        | nil => simp at hhead
        | cons z zs =>
          have hzu : z = u := by simpa using hhead
          refine List.chain'_cons.mpr ⟨?_, hchain⟩
          rw [hzu]
          exact hstepP


/-! Dijkstra: loop correctness. -/

namespace DijkstraAlgorithm

/-- Any walk from the source whose inner vertices are all settled already
has its endpoint discovered at a distance no larger than the walk cost. -/
theorem settled_walk_bound {g : Graph} (st : State) (source : String)
    (hsrc0 : st.distances source = some 0)
    (hrelax : ∀ u ∈ st.visited, ∀ du : ℚ,
      st.distances u = some (du : WithTop ℚ) → ∀ v w, g.adjRel u v w →
      ∃ dv : ℚ, st.distances v = some (dv : WithTop ℚ) ∧ dv ≤ du + w) :
    ∀ q : List String, ∀ c : ℚ, ∀ x : String, g.ChainCost q c →
      q.head? = some source → q.getLast? = some x →
      (∀ y ∈ q.dropLast, y ∈ st.visited) →
      ∃ dx : ℚ, st.distances x = some (dx : WithTop ℚ) ∧ dx ≤ c := by
  intro q
  induction q using List.reverseRecOn with
  | nil =>
    intro c x hc
    exact absurd rfl (chainCost_ne_nil hc)
  | append_singleton q₀ z ih =>
    intro c x hc hh hl hdrop
    have hxz : z = x := by simpa using hl
    by_cases hq0 : q₀ = []
    · subst hq0
      have hzs : z = source := by simpa using hh
      have hc0 : c = 0 := chainCost_single_inv (by simpa using hc)
      refine ⟨0, ?_, by rw [hc0]⟩
      rw [← hxz, hzs]
      exact hsrc0
    · obtain ⟨y, w, c₀, hy, hadj, hq, hcsum⟩ := chainCost_snoc_inv hc hq0
      have hyvis : y ∈ st.visited := by
        apply hdrop
        rw [List.dropLast_concat]
        exact List.mem_of_mem_getLast? hy
      have hh₀ : q₀.head? = some source := by
        cases q₀ with
        | nil => exact absurd rfl hq0
        | cons a q₁ => simpa using hh
      have hdrop₀ : ∀ y' ∈ q₀.dropLast, y' ∈ st.visited := by
        intro y' hy'
        apply hdrop
        rw [List.dropLast_concat]
        exact List.dropLast_subset _ hy'
      obtain ⟨dy, hdy, hdyle⟩ := ih c₀ y hq hh₀ hy hdrop₀
      obtain ⟨dz, hdz, hdzle⟩ := hrelax y hyvis dy hdy z w hadj
      refine ⟨dz, by rw [← hxz]; exact hdz, ?_⟩
      rw [hcsum]
      linarith


/-- Master lemma for the relaxation loop: it never raises, preserves the
relaxation invariant, and leaves every neighbor of the settled node with a
discovered distance at most `d + w`. -/
theorem dijkstra_relax_master {g : Graph} {source : String} {inc : Bool}
    (hval : g.validEdges) (hpos : g.posWeights) (u : String) (d : ℚ) :
    ∀ (neighbors : List (String × ℚ)) (st : State),
      RInv g source inc u d st →
      (∀ v w, (v, w) ∈ neighbors → g.adjRel u v w) →
      ∃ st', relax d u neighbors st = .ok st' ∧ RInv g source inc u d st' ∧
        (∀ v w, (v, w) ∈ neighbors →
          ∃ dv : ℚ, st'.distances v = some (dv : WithTop ℚ) ∧ dv ≤ d + w) ∧
        st'.visited = st.visited ∧
        st'.visited_order = st.visited_order ∧
        st'.pq.length ≤ st.pq.length + neighbors.length ∧
        (∀ v (dv₀ : ℚ), st.distances v = some (dv₀ : WithTop ℚ) →
          ∃ dv : ℚ, st'.distances v = some (dv : WithTop ℚ) ∧ dv ≤ dv₀)
  | [], st, hR, hnb =>
    ⟨st, rfl, hR, by simp, rfl, rfl, by simp,
      fun v dv₀ h => ⟨dv₀, h, le_refl _⟩⟩
  | (v, w) :: rest, st, hR, hnb => by
    have hadjvw : g.adjRel u v w := hnb v w (by simp)
    have hwpos : 0 < w := adjRel_pos hpos hadjvw
    have hvnodes : v ∈ g.nodes := (adjRel_mem_nodes hval hadjvw).2
    have hd0 : 0 ≤ d := hR.distNonneg u d hR.uDist
    by_cases hvis : v ∈ st.visited
    · have heq : relax d u ((v, w) :: rest) st = relax d u rest st := by
        conv_lhs => rw [relax]
        rw [if_pos hvis]
      obtain ⟨st', hok, hR', hbounds, hvis', hord', hlen', hmono'⟩ :=
        dijkstra_relax_master hval hpos u d rest st hR (fun v' w' h => hnb v' w' (by simp [h]))
      refine ⟨st', heq ▸ hok, hR', ?_, hvis', hord', by simpa using Nat.le_succ_of_le hlen', hmono'⟩
      intro v' w' hmem
      rcases List.mem_cons.mp hmem with hhd | htl
      · have hv' : v' = v := congrArg Prod.fst hhd
        have hw' : w' = w := congrArg Prod.snd hhd
        obtain ⟨dv, hdvv⟩ := hR.settledFin v hvis
        have hle : dv ≤ d := hR.visitedLeD v hvis dv hdvv
        obtain ⟨dv', hdv', hdvle'⟩ := hmono' v dv hdvv
        refine ⟨dv', by rw [hv']; exact hdv', ?_⟩
        rw [hw']
        linarith
      · exact hbounds v' w' htl
    · have hvneu : v ≠ u := fun h => hvis (h ▸ hR.uVisited)
      obtain ⟨old, hdv⟩ : ∃ old, st.distances v = some old :=
        Option.isSome_iff_exists.mp ((hR.distDom v).mpr (Or.inl hvnodes))
      by_cases hlt : ((d + w : ℚ) : WithTop ℚ) < old
      · have hnotsrc : v ≠ source := by
          intro h
          rw [h, hR.sourceDist] at hdv
          obtain rfl : old = (0 : WithTop ℚ) := (Option.some.inj hdv).symm
          rw [show ((0 : WithTop ℚ)) = ((0 : ℚ) : WithTop ℚ) from rfl] at hlt
          rw [WithTop.coe_lt_coe] at hlt
          linarith
        have heq : relax d u ((v, w) :: rest) st = relax d u rest
            { st with
              distances := st.distances.set v (((d + w : ℚ) : ℚ) : WithTop ℚ)
              previous := st.previous.set v (some u)
              pq := st.pq ++ [((d + w : ℚ), v)] } := by
          conv_lhs => rw [relax]
          rw [if_neg hvis]
          simp only [hdv]
          rw [if_pos hlt]
        set st₁ : State :=
          { st with
            distances := st.distances.set v (((d + w : ℚ) : ℚ) : WithTop ℚ)
            previous := st.previous.set v (some u)
            pq := st.pq ++ [((d + w : ℚ), v)] } with hst₁
        have hd₁ : ∀ x, st₁.distances x = if x = v then some ((d + w : ℚ) : WithTop ℚ)
            else st.distances x := fun x => rfl
        have hp₁ : ∀ x, st₁.previous x = if x = v then some (some u)
            else st.previous x := fun x => rfl
        have hfin₁ : ∀ x (dx : ℚ), st₁.distances x = some (dx : WithTop ℚ) →
            (x = v ∧ dx = d + w) ∨ (x ≠ v ∧ st.distances x = some (dx : WithTop ℚ)) := by
          intro x dx hx
          rw [hd₁] at hx
          by_cases hxv : x = v
          · rw [if_pos hxv] at hx
            left
            refine ⟨hxv, ?_⟩
            have := Option.some.inj hx
            exact_mod_cast this.symm
          · rw [if_neg hxv] at hx
            exact Or.inr ⟨hxv, hx⟩
        have hvisEq : st₁.visited = st.visited := rfl
        have hR₁ : RInv g source inc u d st₁ := by
          refine
            { distDom := ?_, sourceDist := ?_, distNonneg := ?_, prevDom := ?_
              prevSource := ?_, visitedNodup := hR.visitedNodup
              visitedMem := hR.visitedMem, orderEq := hR.orderEq
              pqMem := ?_, pqUB := ?_, frontier := ?_, finLink := ?_
              settledFin := ?_, settledOpt := ?_, uVisited := hR.uVisited
              uDist := ?_, visitedLeD := ?_, visitedLePq := ?_, relaxOld := ?_ }
          · intro k
            rw [hd₁]
            by_cases hk : k = v
            · simp [hk, hvnodes]
            · simp only [if_neg hk]
              exact hR.distDom k
          · rw [hd₁, if_neg (Ne.symm hnotsrc)]
            exact hR.sourceDist
          · intro x dx hx
            rcases hfin₁ x dx hx with ⟨-, rfl⟩ | ⟨-, hx'⟩
            · linarith
            · exact hR.distNonneg x dx hx'
          · intro k
            rw [hp₁]
            by_cases hk : k = v
            · simp [hk, hvnodes]
            · simp only [if_neg hk]
              exact hR.prevDom k
          · intro hsn
            rw [hp₁, if_neg (Ne.symm hnotsrc)]
            exact hR.prevSource hsn
          · intro e he
            rcases List.mem_append.mp he with he' | he'
            · exact hR.pqMem e he'
            · obtain rfl : e = ((d + w : ℚ), v) := by simpa using he'
              exact hvnodes
          · intro e he
            rcases List.mem_append.mp he with he' | he'
            · obtain ⟨de, hde, hdele⟩ := hR.pqUB e he'
              by_cases hev : e.2 = v
              · refine ⟨d + w, ?_, ?_⟩
                · rw [hd₁, if_pos hev]
                · rw [hev, hdv] at hde
                  obtain rfl : old = ((de : ℚ) : WithTop ℚ) := Option.some.inj hde
                  rw [WithTop.coe_lt_coe] at hlt
                  linarith
              · exact ⟨de, by rw [hd₁, if_neg hev]; exact hde, hdele⟩
            · obtain rfl : e = ((d + w : ℚ), v) := by simpa using he'
              exact ⟨d + w, by rw [hd₁]; simp, le_refl _⟩
          · intro x hx dx hdx
            rcases hfin₁ x dx hdx with ⟨rfl, rfl⟩ | ⟨hxv, hdx'⟩
            · exact List.mem_append.mpr (Or.inr (by simp))
            · exact List.mem_append.mpr (Or.inl (hR.frontier x hx dx hdx'))
          · intro x hxs dx hdx
            rcases hfin₁ x dx hdx with ⟨rfl, rfl⟩ | ⟨hxv, hdx'⟩
            · refine ⟨u, w, d, hadjvw, by rw [hp₁]; simp, ?_, rfl, hR.uVisited⟩
              rw [hd₁, if_neg (Ne.symm hvneu)]
              exact hR.uDist
            · obtain ⟨u', w', du', hadj', hprev', hdu', hsum', hu'⟩ :=
                hR.finLink x hxs dx hdx'
              have hu'v : u' ≠ v := fun h => hvis (h ▸ hu')
              refine ⟨u', w', du', hadj', ?_, ?_, hsum', hu'⟩
              · rw [hp₁, if_neg hxv]
                exact hprev'
              · rw [hd₁, if_neg hu'v]
                exact hdu'
          · intro u' hu'
            obtain ⟨du', hdu'⟩ := hR.settledFin u' hu'
            have hu'v : u' ≠ v := fun h => hvis (h ▸ hu')
            exact ⟨du', by rw [hd₁, if_neg hu'v]; exact hdu'⟩
          · intro u' hu' du' hdu' p c hc hh hl
            have hu'v : u' ≠ v := fun h => hvis (h ▸ hu')
            rw [hd₁, if_neg hu'v] at hdu'
            exact hR.settledOpt u' hu' du' hdu' p c hc hh hl
          · rw [hd₁, if_neg (Ne.symm hvneu)]
            exact hR.uDist
          · intro u' hu' du' hdu'
            have hu'v : u' ≠ v := fun h => hvis (h ▸ hu')
            rw [hd₁, if_neg hu'v] at hdu'
            exact hR.visitedLeD u' hu' du' hdu'
          · intro u' hu' du' hdu' e he
            have hu'v : u' ≠ v := fun h => hvis (h ▸ hu')
            rw [hd₁, if_neg hu'v] at hdu'
            rcases List.mem_append.mp he with he' | he'
            · exact hR.visitedLePq u' hu' du' hdu' e he'
            · obtain rfl : e = ((d + w : ℚ), v) := by simpa using he'
              have := hR.visitedLeD u' hu' du' hdu'
              simp only []
              linarith
          · intro u' hu' hne du' hdu' v' w' hadj'
            have hu'v : u' ≠ v := fun h => hvis (h ▸ hu')
            rw [hd₁, if_neg hu'v] at hdu'
            obtain ⟨dv', hdv', hdvle'⟩ := hR.relaxOld u' hu' hne du' hdu' v' w' hadj'
            by_cases hv'v : v' = v
            · refine ⟨d + w, by rw [hd₁, if_pos hv'v], ?_⟩
              rw [hv'v, hdv] at hdv'
              obtain rfl : old = ((dv' : ℚ) : WithTop ℚ) := Option.some.inj hdv'
              rw [WithTop.coe_lt_coe] at hlt
              linarith
            · exact ⟨dv', by rw [hd₁, if_neg hv'v]; exact hdv', hdvle'⟩
        obtain ⟨st', hok, hR', hbounds, hvis', hord', hlen', hmono'⟩ :=
          dijkstra_relax_master hval hpos u d rest st₁ hR₁
            (fun v' w' h => hnb v' w' (by simp [h]))
        refine ⟨st', heq ▸ hok, hR', ?_, hvis', hord', ?_, ?_⟩
        · intro v' w' hmem
          rcases List.mem_cons.mp hmem with hhd | htl
          · have hv' : v' = v := congrArg Prod.fst hhd
            have hw' : w' = w := congrArg Prod.snd hhd
            have hst₁v : st₁.distances v = some ((d + w : ℚ) : WithTop ℚ) := by
              rw [hd₁]
              simp
            obtain ⟨dv', hdv', hdvle'⟩ := hmono' v (d + w) hst₁v
            refine ⟨dv', by rw [hv']; exact hdv', ?_⟩
            rw [hw']
            exact hdvle'
          · exact hbounds v' w' htl
        · have hlen₁ : st₁.pq.length = st.pq.length + 1 := by
            simp [hst₁]
          simp only [List.length_cons]
          omega
        · intro x dx₀ hx
          by_cases hxv : x = v
          · have hst₁v : st₁.distances x = some ((d + w : ℚ) : WithTop ℚ) := by
              rw [hd₁, if_pos hxv]
            obtain ⟨dv', hdv', hdvle'⟩ := hmono' x (d + w) hst₁v
            refine ⟨dv', hdv', ?_⟩
            rw [hxv, hdv] at hx
            obtain rfl : old = ((dx₀ : ℚ) : WithTop ℚ) := Option.some.inj hx
            rw [WithTop.coe_lt_coe] at hlt
            linarith
          · have hst₁x : st₁.distances x = some ((dx₀ : ℚ) : WithTop ℚ) := by
              rw [hd₁, if_neg hxv]
              exact hx
            exact hmono' x dx₀ hst₁x
      · have hold_le : old ≤ ((d + w : ℚ) : WithTop ℚ) := le_of_not_lt hlt
        obtain ⟨dold, rfl⟩ : ∃ dold : ℚ, old = ((dold : ℚ) : WithTop ℚ) := by
          cases old with
          | top => exact absurd hold_le (by simp [top_le_iff])
          | coe q => exact ⟨q, rfl⟩
        have hdoldle : dold ≤ d + w := by exact_mod_cast hold_le
        have heq : relax d u ((v, w) :: rest) st = relax d u rest st := by
          conv_lhs => rw [relax]
          rw [if_neg hvis]
          simp only [hdv]
          rw [if_neg hlt]
        obtain ⟨st', hok, hR', hbounds, hvis', hord', hlen', hmono'⟩ :=
          dijkstra_relax_master hval hpos u d rest st hR
            (fun v' w' h => hnb v' w' (by simp [h]))
        refine ⟨st', heq ▸ hok, hR', ?_, hvis', hord',
          by simpa using Nat.le_succ_of_le hlen', hmono'⟩
        intro v' w' hmem
        rcases List.mem_cons.mp hmem with hhd | htl
        · have hv' : v' = v := congrArg Prod.fst hhd
          have hw' : w' = w := congrArg Prod.snd hhd
          obtain ⟨dv', hdv', hdvle'⟩ := hmono' v dold hdv
          refine ⟨dv', by rw [hv']; exact hdv', ?_⟩
          rw [hw']
          linarith
        · exact hbounds v' w' htl


/-- A popped minimum dominates in the first coordinate. -/
theorem entryKey_le_fst {a b : ℚ × String} (h : entryKey a ≤ entryKey b) :
    a.1 ≤ b.1 := by
  rcases (Prod.Lex.le_iff a b).mp h with h' | ⟨h', -⟩
  · exact le_of_lt h'
  · exact le_of_eq h'

/-- Master lemma for the Dijkstra search loop: with enough fuel it returns
without error, the exported invariant holds, and the loop has either
settled the target or exhausted the heap. -/
theorem dijkstra_loop_master {g : Graph} {source target : String} {inc : Bool}
    (adj : Dict (List (String × ℚ)))
    (hval : g.validEdges) (hpos : g.posWeights) (hsrc : source ∈ g.nodes)
    (hdom : ∀ k, (adj k).isSome ↔ k ∈ g.nodes)
    (hmem : ∀ u v w, (∃ l, adj u = some l ∧ (v, w) ∈ l) ↔ g.adjRel u v w) :
    ∀ (fuel : ℕ) (st : State), Inv g source inc st →
      dijkstraPotential g adj st < fuel →
      ∃ st', loop adj target inc fuel st = .ok st' ∧ Post g source inc st' ∧
        (target ∈ st'.visited ∨ (st'.pq = [] ∧ Inv g source inc st')) := by
  intro fuel
  induction fuel with
  | zero =>
    intro st _ hpot
    exact absurd hpot (Nat.not_lt_zero _)
  | succ fuel ih =>
    intro st hI hpot
    cases hpop : popMinKey entryKey st.pq with
    | none =>
      have heq : loop adj target inc (fuel + 1) st = .ok st := by
        simp only [loop, hpop]
      refine ⟨st, heq, ?_, Or.inr ⟨(popMinKey_none entryKey).mp hpop, hI⟩⟩
      exact { distDom := hI.distDom, sourceDist := hI.sourceDist
              distNonneg := hI.distNonneg, prevDom := hI.prevDom
              prevSource := hI.prevSource, visitedNodup := hI.visitedNodup
              visitedMem := hI.visitedMem, orderEq := hI.orderEq
              finLink := hI.finLink, settledFin := hI.settledFin
              settledOpt := hI.settledOpt }
    | some pe =>
      obtain ⟨⟨d, u⟩, pq'⟩ := pe
      obtain ⟨hmemu, hrest, hmin⟩ := popMinKey_some entryKey hpop
      have hlen : pq'.length + 1 = st.pq.length := popMinKey_length entryKey hpop
      by_cases hu : u ∈ st.visited
      · have heq : loop adj target inc (fuel + 1) st =
            loop adj target inc fuel { st with pq := pq' } := by
          simp only [loop, hpop, if_pos hu]
        have hI₂ : Inv g source inc { st with pq := pq' } :=
          { distDom := hI.distDom, sourceDist := hI.sourceDist
            distNonneg := hI.distNonneg, prevDom := hI.prevDom
            prevSource := hI.prevSource, visitedNodup := hI.visitedNodup
            visitedMem := hI.visitedMem, orderEq := hI.orderEq
            pqMem := fun e he => hI.pqMem e (popMinKey_subset entryKey hpop e he)
            pqUB := fun e he => hI.pqUB e (popMinKey_subset entryKey hpop e he)
            frontier := by
              intro v hv dv hdv
              have hvu : v ≠ u := fun h => hv (h ▸ hu)
              exact popMinKey_mem_rest entryKey hpop (hI.frontier v hv dv hdv)
                (by simp [hvu])
            finLink := hI.finLink, settledFin := hI.settledFin
            settledOpt := hI.settledOpt, relaxClosed := hI.relaxClosed
            visitedLePq := fun u' hu' du' hdu' e he =>
              hI.visitedLePq u' hu' du' hdu' e (popMinKey_subset entryKey hpop e he) }
        have hpot₂ : dijkstraPotential g adj { st with pq := pq' } < fuel := by
          unfold dijkstraPotential at hpot ⊢
          simp only at hpot ⊢
          omega
        obtain ⟨st', hok, hPost, hdisj⟩ := ih { st with pq := pq' } hI₂ hpot₂
        exact ⟨st', heq ▸ hok, hPost, hdisj⟩
      · obtain ⟨du, hdu0, hdule⟩ := hI.pqUB (d, u) hmemu
        have hfront : ((du : ℚ), u) ∈ st.pq := hI.frontier u hu du hdu0
        have hdled : d ≤ du := by
          simpa using entryKey_le_fst (hmin _ hfront)
        have hdueq : du = d := le_antisymm hdule hdled
        have hdu : st.distances u = some ((d : ℚ) : WithTop ℚ) := by
          rw [← hdueq]
          exact hdu0
        have hunodes : u ∈ g.nodes := by
          simpa using hI.pqMem (d, u) hmemu
        have hopt : ∀ p c, g.ChainCost p c → p.head? = some source →
            p.getLast? = some u → d ≤ c := by
          intro p c hc hh hl
          obtain ⟨q, x, c₁, hq, hqh, hql, hx, hdrop, hc₁le⟩ :=
            chainCost_first_exit hpos st.visited hc hh hl hu
          obtain ⟨dx, hdx, hdxle⟩ :=
            settled_walk_bound st source hI.sourceDist hI.relaxClosed q c₁ x hq hqh hql hdrop
          have hfx : ((dx : ℚ), x) ∈ st.pq := hI.frontier x hx dx hdx
          have : d ≤ dx := by
            simpa using entryKey_le_fst (hmin _ hfx)
          linarith
        set stS : State :=
          { st with
            pq := pq'
            visited := st.visited ++ [u]
            visited_order :=
              if inc then st.visited_order ++ [u] else st.visited_order } with hstS
        have hnodupS : stS.visited.Nodup := by
          rw [hstS]
          simp only [List.nodup_append]
          exact ⟨hI.visitedNodup, List.nodup_singleton u,
            fun a ha hb => hu ((by simpa using hb) ▸ ha)⟩
        have hmemS : ∀ v ∈ stS.visited, v ∈ g.nodes := by
          intro v hv
          rcases List.mem_append.mp hv with hv' | hv'
          · exact hI.visitedMem v hv'
          · simpa using (by simpa using hv') ▸ hunodes
        have horderS : stS.visited_order = (if inc then stS.visited else []) := by
          rw [hstS]
          cases inc <;> simp [hI.orderEq]
        have hfinS : ∀ u' ∈ stS.visited, ∃ du' : ℚ,
            stS.distances u' = some (du' : WithTop ℚ) := by
          intro u' hu'
          rcases List.mem_append.mp hu' with hv' | hv'
          · exact hI.settledFin u' hv'
          · obtain rfl : u' = u := by simpa using hv'
            exact ⟨d, hdu⟩
        have hoptS : ∀ u' ∈ stS.visited, ∀ du' : ℚ,
            stS.distances u' = some (du' : WithTop ℚ) →
            ∀ p c, g.ChainCost p c → p.head? = some source →
              p.getLast? = some u' → du' ≤ c := by
          intro u' hu' du' hdu' p c hc hh hl
          rcases List.mem_append.mp hu' with hv' | hv'
          · exact hI.settledOpt u' hv' du' hdu' p c hc hh hl
          · obtain rfl : u' = u := by simpa using hv'
            obtain rfl : du' = d := by
              have := hdu'.symm.trans hdu
              exact_mod_cast Option.some.inj this
            exact hopt p c hc hh hl
        have hPostS : Post g source inc stS :=
          { distDom := hI.distDom, sourceDist := hI.sourceDist
            distNonneg := hI.distNonneg, prevDom := hI.prevDom
            prevSource := hI.prevSource, visitedNodup := hnodupS
            visitedMem := hmemS, orderEq := horderS
            finLink := by
              intro v hv dv hdv
              obtain ⟨u', w, du', h1, h2, h3, h4, h5⟩ := hI.finLink v hv dv hdv
              exact ⟨u', w, du', h1, h2, h3, h4, List.mem_append.mpr (Or.inl h5)⟩
            settledFin := hfinS, settledOpt := hoptS }
        by_cases hut : u = target
        · have heq : loop adj target inc (fuel + 1) st = .ok stS := by
            simp only [loop, hpop, if_neg hu, if_pos hut]
          refine ⟨stS, heq, hPostS, Or.inl ?_⟩
          rw [hstS, ← hut]
          simp
        · obtain ⟨neighbors, hadjeq⟩ : ∃ l, adj u = some l :=
            Option.isSome_iff_exists.mp ((hdom u).mpr hunodes)
          have hnb : ∀ v w, (v, w) ∈ neighbors → g.adjRel u v w := by
            intro v w hvw
            exact (hmem u v w).mp ⟨neighbors, hadjeq, hvw⟩
          have hRS : RInv g source inc u d stS :=
            { distDom := hI.distDom, sourceDist := hI.sourceDist
              distNonneg := hI.distNonneg, prevDom := hI.prevDom
              prevSource := hI.prevSource, visitedNodup := hnodupS
              visitedMem := hmemS, orderEq := horderS
              pqMem := fun e he => hI.pqMem e (popMinKey_subset entryKey hpop e he)
              pqUB := fun e he => hI.pqUB e (popMinKey_subset entryKey hpop e he)
              frontier := by
                intro v hv dv hdv
                have hvu : v ≠ u := by
                  intro h
                  exact hv (by rw [hstS, h]; simp)
                have hvold : v ∉ st.visited := by
                  intro h
                  exact hv (by rw [hstS]; exact List.mem_append.mpr (Or.inl h))
                exact popMinKey_mem_rest entryKey hpop
                  (hI.frontier v hvold dv hdv) (by simp [hvu])
              finLink := by
                intro v hv dv hdv
                obtain ⟨u', w, du', h1, h2, h3, h4, h5⟩ := hI.finLink v hv dv hdv
                exact ⟨u', w, du', h1, h2, h3, h4, List.mem_append.mpr (Or.inl h5)⟩
              settledFin := hfinS, settledOpt := hoptS
              uVisited := by rw [hstS]; simp
              uDist := hdu
              visitedLeD := by
                intro u' hu' du' hdu'
                rcases List.mem_append.mp hu' with hv' | hv'
                · exact hI.visitedLePq u' hv' du' hdu' (d, u) hmemu
                · obtain rfl : u' = u := by simpa using hv'
                  have := hdu'.symm.trans hdu
                  have h := Option.some.inj this
                  exact le_of_eq (by exact_mod_cast h)
              visitedLePq := by
                intro u' hu' du' hdu' e he
                rcases List.mem_append.mp hu' with hv' | hv'
                · exact hI.visitedLePq u' hv' du' hdu' e
                    (popMinKey_subset entryKey hpop e he)
                · obtain rfl : u' = u := by simpa using hv'
                  obtain rfl : du' = d := by
                    have := hdu'.symm.trans hdu
                    exact_mod_cast Option.some.inj this
                  exact entryKey_le_fst (hmin e (popMinKey_subset entryKey hpop e he))
              relaxOld := by
                intro u' hu' hneu du' hdu' v w hadj
                rcases List.mem_append.mp hu' with hv' | hv'
                · exact hI.relaxClosed u' hv' du' hdu' v w hadj
                · exact absurd (by simpa using hv') hneu }
          obtain ⟨st'', hokR, hR'', hbounds, hvisR, hordR, hlenR, hmonoR⟩ :=
            dijkstra_relax_master hval hpos u d neighbors stS hRS hnb
          have heq : loop adj target inc (fuel + 1) st =
              loop adj target inc fuel st'' := by
            simp only [loop, hpop, if_neg hu, if_neg hut, hadjeq, hokR, ok_bind]
          have hI'' : Inv g source inc st'' :=
            { distDom := hR''.distDom, sourceDist := hR''.sourceDist
              distNonneg := hR''.distNonneg, prevDom := hR''.prevDom
              prevSource := hR''.prevSource, visitedNodup := hR''.visitedNodup
              visitedMem := hR''.visitedMem, orderEq := hR''.orderEq
              pqMem := hR''.pqMem, pqUB := hR''.pqUB, frontier := hR''.frontier
              finLink := hR''.finLink, settledFin := hR''.settledFin
              settledOpt := hR''.settledOpt
              relaxClosed := by
                intro u' hu' du' hdu' v w hadj
                by_cases hneu : u' = u
                · obtain ⟨l, hl, hvw⟩ := (hmem u v w).mpr (hneu ▸ hadj)
                  obtain rfl : l = neighbors := by
                    rw [hadjeq] at hl
                    exact (Option.some.inj hl).symm
                  obtain ⟨dv, hdv, hdvle⟩ := hbounds v w hvw
                  refine ⟨dv, hdv, ?_⟩
                  obtain rfl : du' = d := by
                    rw [hneu] at hdu'
                    have := hdu'.symm.trans hR''.uDist
                    exact_mod_cast Option.some.inj this
                  exact hdvle
                · exact hR''.relaxOld u' hu' hneu du' hdu' v w hadj
              visitedLePq := hR''.visitedLePq }
          have hpot'' : dijkstraPotential g adj st'' < fuel := by
            have hsum : ((g.nodes.toFinset \ stS.visited.toFinset).sum
                  fun v => 1 + ((adj v).getD []).length) + (1 + neighbors.length) =
                ((g.nodes.toFinset \ st.visited.toFinset).sum
                  fun v => 1 + ((adj v).getD []).length) := by
              have hVS : stS.visited.toFinset = insert u st.visited.toFinset := by
                rw [hstS]
                simp [List.toFinset_append]
                ext a
                simp [or_comm]
              rw [hVS, Finset.sdiff_insert]
              have humem : u ∈ g.nodes.toFinset \ st.visited.toFinset := by
                simp only [Finset.mem_sdiff, List.mem_toFinset]
                exact ⟨hunodes, hu⟩
              have := Finset.sum_erase_add
                (g.nodes.toFinset \ st.visited.toFinset)
                (fun v => 1 + ((adj v).getD []).length) humem
              rw [← this]
              simp [hadjeq]
            have hvis'' : st''.visited.toFinset = stS.visited.toFinset := by
              rw [hvisR]
            unfold dijkstraPotential at hpot ⊢
            rw [hvis'']
            have h1 : st''.pq.length ≤ stS.pq.length + neighbors.length := hlenR
            have h2 : stS.pq.length = pq'.length := by rw [hstS]
            omega
          obtain ⟨st', hok, hPost, hdisj⟩ := ih st'' hI'' hpot''
          exact ⟨st', heq ▸ hok, hPost, hdisj⟩


end DijkstraAlgorithm

/-! Bridging reachability (chains of edges) and costed walks. -/

theorem chain'_adj_chainCost {g : Graph} :
    ∀ (p : List String) (a : String), List.Chain' g.Adj (a :: p) →
      ∃ c, g.ChainCost (a :: p) c
  | [], a, _ => ⟨0, Graph.ChainCost.single a⟩
  | y :: rest, a, hchain => by
    rw [List.chain'_cons] at hchain
    obtain ⟨⟨w, hadj⟩, hchain'⟩ := hchain
    obtain ⟨c, hc⟩ := chain'_adj_chainCost rest y hchain'
    exact ⟨w + c, Graph.ChainCost.cons hadj hc⟩

theorem chainCost_chain' {g : Graph} {p : List String} {c : ℚ}
    (h : g.ChainCost p c) : List.Chain' g.Adj p := by
  induction h with
  | single v => simp
  | @cons u v t w c' hadj hrest ih =>
    refine List.chain'_cons'.mpr ⟨?_, ih⟩
    intro y hy
    have hyv : v = y := by simpa using hy
    rw [← hyv]
    exact ⟨w, hadj⟩

theorem reachable_iff_chainCost (g : Graph) (s t : String) :
    g.Reachable s t ↔
      ∃ p c, g.ChainCost p c ∧ p.head? = some s ∧ p.getLast? = some t := by
  constructor
  · rintro ⟨p, hh, hl, hchain⟩
    cases p with
    | nil => simp at hh
    | cons a q =>
      obtain ⟨c, hc⟩ := chain'_adj_chainCost q a hchain
      exact ⟨a :: q, c, hc, hh, hl⟩
  · rintro ⟨p, c, hc, hh, hl⟩
    exact ⟨p, hh, hl, chainCost_chain' hc⟩

namespace DijkstraAlgorithm


/-- Running the main loop from the initial state of
`DijkstraAlgorithm.find_shortest_path`: the loop terminates without an
exception and its final state satisfies the loop postcondition, with either
the target settled or the frontier exhausted. -/
theorem dijkstra_loop_run (g : Graph) (source target : String) (inc : Bool)
    (hval : g.validEdges) (hpos : g.posWeights) (hsrc : source ∈ g.nodes) :
    ∃ adj st', build_adjacency_list g = .ok adj ∧
      loop adj target inc (search_fuel g)
        { distances := (init_inf g.nodes).set source ((0 : ℚ) : WithTop ℚ)
          previous := init_previous g.nodes
          visited := []
          visited_order := []
          pq := [((0 : ℚ), source)] } = .ok st' ∧
      Post g source inc st' ∧
      (target ∈ st'.visited ∨ (st'.pq = [] ∧ Inv g source inc st')) := by
  obtain ⟨adj, hok, hdom, hmem⟩ := build_adjacency_list_ok g hval
  set st0 : State :=
    { distances := (init_inf g.nodes).set source ((0 : ℚ) : WithTop ℚ)
      previous := init_previous g.nodes
      visited := []
      visited_order := []
      pq := [((0 : ℚ), source)] } with hst0
  have hd0 : ∀ k, st0.distances k =
      if k = source then some ((0 : ℚ) : WithTop ℚ)
      else if k ∈ g.nodes then some ⊤ else none := by
    intro k
    by_cases hk : k = source
    · rw [hst0]
      show ((init_inf g.nodes).set source _) k = _
      rw [if_pos hk, hk, Dict.set_self]
    · rw [hst0]
      show ((init_inf g.nodes).set source _) k = _
      rw [if_neg hk, Dict.set_ne _ _ hk, init_inf_eq]
  have hI0 : Inv g source inc st0 := by
    refine
      { distDom := ?_, sourceDist := ?_, distNonneg := ?_, prevDom := ?_
        prevSource := ?_, visitedNodup := List.nodup_nil
        visitedMem := by intro v hv; rw [hst0] at hv; simp at hv
        orderEq := by cases inc <;> simp [hst0]
        pqMem := ?_, pqUB := ?_, frontier := ?_, finLink := ?_
        settledFin := by intro u hu; rw [hst0] at hu; simp at hu
        settledOpt := by intro u hu; rw [hst0] at hu; simp at hu
        relaxClosed := by intro u hu; rw [hst0] at hu; simp at hu
        visitedLePq := by intro u hu; rw [hst0] at hu; simp at hu }
    · intro k
      rw [hd0 k]
      by_cases hk : k = source
      · simp [hk]
      · by_cases hkn : k ∈ g.nodes <;> simp [hk, hkn]
    · rw [hd0 source, if_pos rfl]
      rfl
    · intro v dv hv
      rw [hd0 v] at hv
      by_cases hk : v = source
      · rw [if_pos hk] at hv
        have h0 : dv = 0 := by exact_mod_cast (Option.some.inj hv).symm
        rw [h0]
      · rw [if_neg hk] at hv
        by_cases hkn : v ∈ g.nodes
        · rw [if_pos hkn] at hv
          exact absurd (Option.some.inj hv).symm (by simp)
        · rw [if_neg hkn] at hv
          exact absurd hv (by simp)
    · intro k
      rw [hst0]
      show ((init_previous g.nodes) k).isSome ↔ _
      rw [init_previous_eq]
      by_cases hk : k ∈ g.nodes <;> simp [hk]
    · intro hsn
      rw [hst0]
      show (init_previous g.nodes) source = some none
      rw [init_previous_eq, if_pos hsn]
    · intro e he
      rw [hst0] at he
      obtain rfl : e = ((0 : ℚ), source) := by simpa using he
      exact hsrc
    · intro e he
      rw [hst0] at he
      obtain rfl : e = ((0 : ℚ), source) := by simpa using he
      refine ⟨0, ?_, le_refl 0⟩
      rw [hd0, if_pos rfl]
    · intro v hv dv hdv
      rw [hd0 v] at hdv
      by_cases hk : v = source
      · rw [if_pos hk] at hdv
        have h0 : dv = 0 := by exact_mod_cast (Option.some.inj hdv).symm
        rw [hst0, hk, h0]
        simp
      · rw [if_neg hk] at hdv
        by_cases hkn : v ∈ g.nodes
        · rw [if_pos hkn] at hdv
          exact absurd (Option.some.inj hdv).symm (by simp)
        · rw [if_neg hkn] at hdv
          exact absurd hdv (by simp)
    · intro v hvs dv hdv
      rw [hd0 v, if_neg hvs] at hdv
      by_cases hkn : v ∈ g.nodes
      · rw [if_pos hkn] at hdv
        exact absurd (Option.some.inj hdv).symm (by simp)
      · rw [if_neg hkn] at hdv
        exact absurd hdv (by simp)
  have hpot0 : dijkstraPotential g adj st0 < search_fuel g := by
    have hsum : ((g.nodes.toFinset \ st0.visited.toFinset).sum
        fun v => 1 + ((adj v).getD []).length) =
        g.nodes.toFinset.card + sumDeg g.nodes adj := by
      rw [hst0]
      simp only [List.toFinset_nil, Finset.sdiff_empty]
      rw [Finset.sum_add_distrib]
      simp [sumDeg]
    have hdeg : sumDeg g.nodes adj ≤ 0 + 2 * g.edges.length := by
      have := genBuild_sumDeg g.directed
        (fun e => (e.to_node, e.weight)) (fun e => (e.from_node, e.weight))
        g.nodes g.edges (initAdj g.nodes) adj hok
      simpa [sumDeg_initAdj] using this
    have hcard : g.nodes.toFinset.card ≤ g.nodes.length := g.nodes.toFinset_card_le
    have hpq : st0.pq.length = 1 := by rw [hst0]; rfl
    unfold dijkstraPotential
    rw [hsum]
    unfold search_fuel
    omega
  obtain ⟨st', hloopok, hPost, hdisj⟩ :=
    dijkstra_loop_master adj hval hpos hsrc hdom hmem (search_fuel g) st0 hI0 hpot0
  exact ⟨adj, st', hok, hst0 ▸ hloopok, hPost, hdisj⟩

/-- Full specification of `DijkstraAlgorithm.find_shortest_path` for
queries whose endpoints are in the node set. -/
theorem dijkstra_find_spec (g : Graph) (source target : String) (inc : Bool)
    (hval : g.validEdges) (hpos : g.posWeights)
    (hsrc : source ∈ g.nodes) (htgt : target ∈ g.nodes) :
    ∃ r, find_shortest_path g source target inc = .ok r ∧
      r.algorithm_used = .dijkstra ∧
      (r.«exists» = true ↔ g.Reachable source target) ∧
      (r.«exists» = false → r.path = [] ∧ r.distance = ⊤) ∧
      (r.«exists» = true →
        ∃ c : ℚ, r.distance = (c : WithTop ℚ) ∧
          g.ChainCost r.path c ∧ r.path.head? = some source ∧
          r.path.getLast? = some target ∧
          (∀ p c', g.ChainCost p c' → p.head? = some source →
            p.getLast? = some target → c ≤ c')) ∧
      (r.visited_nodes = none ↔ inc = false) ∧
      (∀ vl, r.visited_nodes = some vl →
        vl.Nodup ∧ vl.length = r.visited_nodes_count) := by
  obtain ⟨adj, st', hok, hloopok, hPost, hdisj⟩ :=
    dijkstra_loop_run g source target inc hval hpos hsrc
  obtain ⟨dt, hdt⟩ : ∃ dt, st'.distances target = some dt :=
    Option.isSome_iff_exists.mp ((hPost.distDom target).mpr (Or.inl htgt))
  have hvisC10 : ((if inc then some st'.visited_order else none) = none ↔ inc = false) ∧
      ∀ vl, (if inc then some st'.visited_order else none) = some vl →
        vl.Nodup ∧ vl.length = st'.visited.length := by
    constructor
    · cases inc <;> simp
    · intro vl hvl
      cases hinc : inc
      · rw [hinc] at hvl
        simp at hvl
      · rw [hinc] at hvl
        have hord := hPost.orderEq
        rw [hinc] at hord
        have hord' : st'.visited_order = st'.visited := by simpa using hord
        have hvl' : st'.visited_order = vl := by simpa using hvl
        have hvleq : vl = st'.visited := by rw [← hvl', hord']
        rw [hvleq]
        exact ⟨hPost.visitedNodup, rfl⟩
  cases dt with
  | top =>
    have htnv : target ∉ st'.visited := by
      intro hmem'
      obtain ⟨du, hdu⟩ := hPost.settledFin target hmem'
      rw [hdt] at hdu
      exact absurd (Option.some.inj hdu) (by simp)
    have hexh : st'.pq = [] ∧ Inv g source inc st' := by
      rcases hdisj with h | h
      · exact absurd h htnv
      · exact h
    have hnreach : ¬ g.Reachable source target := by
      intro hr
      obtain ⟨p, c, hc, hh, hl⟩ := (reachable_iff_chainCost g source target).mp hr
      obtain ⟨q, x, c₁, hq, hqh, hql, hx, hdrop, -⟩ :=
        chainCost_first_exit hpos st'.visited hc hh hl htnv
      obtain ⟨dx, hdx, -⟩ :=
        settled_walk_bound st' source hexh.2.sourceDist hexh.2.relaxClosed
          q c₁ x hq hqh hql hdrop
      have := hexh.2.frontier x hx dx hdx
      rw [hexh.1] at this
      simp at this
    have hfind : find_shortest_path g source target inc =
        .ok { path := [], distance := ⊤, algorithm_used := .dijkstra,
              visited_nodes_count := st'.visited.length,
              visited_nodes := if inc then some st'.visited_order else none,
              «exists» := false } := by
      unfold find_shortest_path
      rw [hok, ok_bind]
      simp only [hloopok, ok_bind, hdt]
      simp
    refine ⟨_, hfind, rfl, ?_, ?_, ?_, hvisC10.1, hvisC10.2⟩
    · constructor
      · intro h
        exact absurd h (by simp)
      · intro h
        exact absurd h hnreach
    · intro _
      exact ⟨rfl, rfl⟩
    · intro h
      exact absurd h (by simp)
  | coe c =>
    have htv : target ∈ st'.visited := by
      rcases hdisj with h | h
      · exact h
      · by_cases htnv : target ∈ st'.visited
        · exact htnv
        · exfalso
          have hfr := h.2.frontier target htnv c hdt
          rw [h.1] at hfr
          simp at hfr
    set rk : String → ℚ := fun v => WithTop.untop' 0 ((st'.distances v).getD ⊤)
      with hrk
    have hrkval : ∀ v (dv : ℚ), st'.distances v = some (dv : WithTop ℚ) →
        rk v = dv := by
      intro v dv h
      rw [hrk]
      simp only [h, Option.getD_some]
      exact WithTop.untop'_coe 0 dv
    have hstep : ∀ v, (∃ dv : ℚ, st'.distances v = some (dv : WithTop ℚ)) →
        v ≠ source → ∃ u, st'.previous v = some (some u) ∧
          (∃ du : ℚ, st'.distances u = some (du : WithTop ℚ)) ∧
          (∃ w, g.adjRel u v w ∧ rk v = rk u + w) ∧ rk u < rk v := by
      rintro v ⟨dv, hdv⟩ hvs
      obtain ⟨u, w, du, hadj, hprev, hdu, hsum, huvis⟩ :=
        hPost.finLink v hvs dv hdv
      obtain ⟨duQ, hduQ⟩ := hPost.settledFin u huvis
      have hdue : du = (duQ : WithTop ℚ) := by
        rw [hdu] at hduQ
        exact Option.some.inj hduQ
      have hsumQ : dv = duQ + w := by
        rw [hdue] at hsum
        exact_mod_cast hsum
      refine ⟨u, hprev, ⟨duQ, hduQ⟩, ⟨w, hadj, ?_⟩, ?_⟩
      · rw [hrkval v dv hdv, hrkval u duQ hduQ]
        exact hsumQ
      · rw [hrkval v dv hdv, hrkval u duQ hduQ]
        have := adjRel_pos hpos hadj
        linarith
    have hQVS : ∀ v, (∃ dv : ℚ, st'.distances v = some (dv : WithTop ℚ)) →
        v ∈ insert source g.nodes.toFinset := by
      rintro v ⟨dv, hdv⟩
      have : v ∈ g.nodes ∨ v = source :=
        (hPost.distDom v).mp (by rw [hdv]; rfl)
      rcases this with h | h
      · exact Finset.mem_insert.mpr (Or.inr (List.mem_toFinset.mpr h))
      · exact Finset.mem_insert.mpr (Or.inl h)
    have hcardf : ((insert source g.nodes.toFinset).filter
        (fun u => rk u < rk target)).card < reconstruct_fuel g := by
      have h1 : ((insert source g.nodes.toFinset).filter
          (fun u => rk u < rk target)).card ≤ (insert source g.nodes.toFinset).card :=
        Finset.card_filter_le _ _
      have h2 : (insert source g.nodes.toFinset).card ≤ g.nodes.toFinset.card + 1 :=
        Finset.card_insert_le _ _
      have h3 : g.nodes.toFinset.card ≤ g.nodes.length := g.nodes.toFinset_card_le
      unfold reconstruct_fuel
      omega
    obtain ⟨p, hrec, hph, hpl, hpchain⟩ :=
      reconstruct_path_spec st'.previous source
        (fun v => ∃ dv : ℚ, st'.distances v = some (dv : WithTop ℚ))
        (fun a b => ∃ w, g.adjRel a b w ∧ rk b = rk a + w) rk
        (insert source g.nodes.toFinset) hQVS (hPost.prevSource hsrc) hstep
        (reconstruct_fuel g) target ⟨c, hdt⟩ hcardf
    have hrev_head : p.reverse.head? = some source := by
      rw [List.head?_reverse]
      exact hpl
    have hrev_last : p.reverse.getLast? = some target := by
      rw [List.getLast?_reverse]
      exact hph
    have hrev_chain : List.Chain'
        (fun a b => ∃ w, g.adjRel a b w ∧ rk b = rk a + w) p.reverse := by
      rw [List.chain'_reverse]
      exact hpchain
    obtain ⟨a, q, hpq⟩ : ∃ a q, p.reverse = a :: q := by
      cases hp : p.reverse with
      | nil =>
        rw [hp] at hrev_head
        simp at hrev_head
      | cons a q => exact ⟨a, q, rfl⟩
    have ha : a = source := by
      rw [hpq] at hrev_head
      simpa using hrev_head
    have hrksrc : rk source = 0 := hrkval source 0 hPost.sourceDist
    have hrkt : rk target = c := hrkval target c hdt
    have hchaincost : g.ChainCost p.reverse c := by
      have := chainCost_of_rank_chain rk q a (hpq ▸ hrev_chain) target
        (hpq ▸ hrev_last)
      rw [hpq]
      have heq : rk target - rk a = c := by
        rw [hrkt, ha, hrksrc]
        ring
      rw [← heq]
      exact this
    have hfind : find_shortest_path g source target inc =
        .ok { path := p.reverse, distance := ((c : ℚ) : WithTop ℚ),
              algorithm_used := .dijkstra,
              visited_nodes_count := st'.visited.length,
              visited_nodes := if inc then some st'.visited_order else none,
              «exists» := true } := by
      unfold find_shortest_path
      rw [hok, ok_bind]
      simp only [hloopok, ok_bind, hdt]
      simp [hrec, ok_bind]
    refine ⟨_, hfind, rfl, ?_, ?_, ?_, hvisC10.1, hvisC10.2⟩
    · constructor
      · intro _
        exact (reachable_iff_chainCost g source target).mpr
          ⟨p.reverse, c, hchaincost, hrev_head, hrev_last⟩
      · intro _
        rfl
    · intro h
      exact absurd h (by simp)
    · intro _
      exact ⟨c, rfl, hchaincost, hrev_head, hrev_last,
        fun p' c' hc' hh' hl' => hPost.settledOpt target htv c hdt p' c' hc' hh' hl'⟩

end DijkstraAlgorithm

/-- Claim C8: for nodes `a`, `b` of a graph satisfying the data-model
invariants, `AStarAlgorithm.is_admissible_heuristic a b` succeeds and
returns `true` exactly when the heuristic value `h a b` is bounded by the
cost of every walk from `a` to `b` (equivalently, by the exact shortest
distance, which Dijkstra computes), or no walk from `a` to `b` exists. -/
theorem claim_C8_admissibility_check (g : Graph) (h : AStarAlgorithm.Heuristic)
    (a b : String) (hval : g.validEdges) (hpos : g.posWeights)
    (ha : a ∈ g.nodes) (hb : b ∈ g.nodes) :
    ∃ ans, AStarAlgorithm.is_admissible_heuristic g h a b = .ok ans ∧
      (ans = true ↔
        ((∀ p c, g.ChainCost p c → p.head? = some a → p.getLast? = some b →
            h a b ≤ c) ∨ ¬ g.Reachable a b)) := by
  obtain ⟨r, hfind, -, hreach, hfalse, htrue, -, -⟩ :=
    DijkstraAlgorithm.dijkstra_find_spec g a b false hval hpos ha hb
  refine ⟨decide ((h a b : WithTop ℚ) ≤ r.distance) || !r.«exists», ?_, ?_⟩
  · simp only [AStarAlgorithm.is_admissible_heuristic, hfind, ok_bind]
  · cases hex : r.«exists»
    · have hnr : ¬ g.Reachable a b := by
        intro hr
        rw [hreach.mpr hr] at hex
        exact Bool.noConfusion hex
      simp [hex, hnr]
    · obtain ⟨c, hdist, hcc, hhd, hlast, hopt⟩ := htrue hex
      have hr : g.Reachable a b := hreach.mp hex
      rw [hdist]
      simp only [Bool.not_true, Bool.or_false, decide_eq_true_eq]
      constructor
      · intro hle
        refine Or.inl ?_
        intro p c' hcc' hh' hl'
        have h1 : h a b ≤ c := by exact_mod_cast hle
        exact le_trans h1 (hopt p c' hcc' hh' hl')
      · rintro (hall | hnr)
        · have h1 : h a b ≤ c := hall r.path c hcc hhd hlast
          exact_mod_cast h1
        · exact absurd hr hnr

/-- Witness for claim C8: the admissibility check on the spec scenario
line graph with the all-zero default heuristic. -/
theorem claim_C8_admissibility_check_witness :
    Examples.Line.validEdges ∧ Examples.Line.posWeights ∧
    "A" ∈ Examples.Line.nodes ∧ "B" ∈ Examples.Line.nodes ∧
    (∃ ans, AStarAlgorithm.is_admissible_heuristic Examples.Line
        AStarAlgorithm.default_heuristic "A" "B" = .ok ans ∧
      (ans = true ↔
        ((∀ p c, Examples.Line.ChainCost p c → p.head? = some "A" →
            p.getLast? = some "B" → AStarAlgorithm.default_heuristic "A" "B" ≤ c) ∨
          ¬ Examples.Line.Reachable "A" "B"))) :=
  ⟨by decide, by decide, by decide, by decide,
   claim_C8_admissibility_check Examples.Line AStarAlgorithm.default_heuristic
     "A" "B" (by decide) (by decide) (by decide) (by decide)⟩

/-- A query whose source is not a node: Dijkstra pops the source, looks up
its adjacency list, and raises `KeyError(source)`. -/
theorem dijkstra_missing_source (g : Graph) (source target : String) (inc : Bool)
    (hval : g.validEdges) (hsrc : source ∉ g.nodes) (hne : source ≠ target) :
    DijkstraAlgorithm.find_shortest_path g source target inc = .error source := by
  obtain ⟨adj, hok, hdom, -⟩ := build_adjacency_list_ok g hval
  have hadjnone : adj source = none := by
    cases h : adj source with
    | none => rfl
    | some l => exact absurd ((hdom source).mp (by rw [h]; rfl)) hsrc
  have hloop : DijkstraAlgorithm.loop adj target inc (search_fuel g)
      { distances := (init_inf g.nodes).set source ((0 : ℚ) : WithTop ℚ)
        previous := init_previous g.nodes
        visited := []
        visited_order := []
        pq := [((0 : ℚ), source)] } = .error source := by
    rw [search_fuel_succ]
    simp [DijkstraAlgorithm.loop, popMinKey_singleton, hne, hadjnone]
  unfold DijkstraAlgorithm.find_shortest_path
  rw [hok, ok_bind]
  simp only [hloop, error_bind]

/-- A query whose target is not a node (and differs from the source): the
Dijkstra loop exhausts the frontier and the final `distances[target]` lookup
raises `KeyError(target)`. -/
theorem dijkstra_missing_target (g : Graph) (source target : String) (inc : Bool)
    (hval : g.validEdges) (hpos : g.posWeights) (hsrc : source ∈ g.nodes)
    (htgt : target ∉ g.nodes) (hne : target ≠ source) :
    DijkstraAlgorithm.find_shortest_path g source target inc = .error target := by
  obtain ⟨adj, st', hok, hloopok, hPost, -⟩ :=
    DijkstraAlgorithm.dijkstra_loop_run g source target inc hval hpos hsrc
  have hdt : st'.distances target = none := by
    cases h : st'.distances target with
    | none => rfl
    | some d =>
      rcases (hPost.distDom target).mp (by rw [h]; rfl) with h1 | h1
      · exact absurd h1 htgt
      · exact absurd h1 hne
  unfold DijkstraAlgorithm.find_shortest_path
  rw [hok, ok_bind]
  simp only [hloopok, ok_bind, hdt]

/-- A query whose source is not a node: A* pops the source, looks up its
adjacency list, and raises `KeyError(source)`. -/
theorem astar_missing_source (g : Graph) (h : AStarAlgorithm.Heuristic)
    (source target : String) (inc : Bool)
    (hval : g.validEdges) (hsrc : source ∉ g.nodes) (hne : source ≠ target) :
    AStarAlgorithm.find_shortest_path g h source target inc = .error source := by
  obtain ⟨adj, hok, hdom, -⟩ := build_adjacency_list_ok g hval
  have hadjnone : adj source = none := by
    cases hc : adj source with
    | none => rfl
    | some l => exact absurd ((hdom source).mp (by rw [hc]; rfl)) hsrc
  have hloop : AStarAlgorithm.loop adj h target inc (search_fuel g)
      { g_score := (init_inf g.nodes).set source ((0 : ℚ) : WithTop ℚ)
        f_score := (init_inf g.nodes).set source ((h source target : ℚ) : WithTop ℚ)
        previous := init_previous g.nodes
        open_set := [(((h source target : ℚ) : WithTop ℚ), ((0 : ℚ) : WithTop ℚ), source)]
        open_set_nodes := [source]
        closed_set := []
        visited_order := [] } = .error source := by
    rw [search_fuel_succ]
    simp [AStarAlgorithm.loop, popMinKey_singleton, hne, hadjnone]
  unfold AStarAlgorithm.find_shortest_path
  rw [hok, ok_bind, if_neg hne]
  simp only [hloop, error_bind]

/-- A query whose source is not a node: BFS dequeues the source, looks up
its adjacency list, and raises `KeyError(source)`. -/
theorem bfs_missing_source (g : Graph) (source target : String) (inc : Bool)
    (hval : g.validEdges) (hsrc : source ∉ g.nodes) (hne : source ≠ target) :
    BFSAlgorithm.find_shortest_path g source target inc = .error source := by
  obtain ⟨adj, hok, hdom, -⟩ := bfs_build_adjacency_list_ok g hval
  have hadjnone : adj source = none := by
    cases hc : adj source with
    | none => rfl
    | some l => exact absurd ((hdom source).mp (by rw [hc]; rfl)) hsrc
  have hloop : BFSAlgorithm.loop adj target inc (search_fuel g)
      { queue := [source], visited := [source],
        previous := Dict.empty.set source none,
        distances := Dict.empty.set source 0,
        visited_order := if inc then [source] else [],
        path_found := false } = .error source := by
    rw [search_fuel_succ]
    simp [BFSAlgorithm.loop, hadjnone]
  unfold BFSAlgorithm.find_shortest_path
  rw [hok, ok_bind, if_neg hne]
  simp only [hloop, error_bind]

/-! Helper lemmas about plain (uncosted) walks, used by the BFS proof. -/

theorem walk_snoc_decomp {g : Graph} {p : List String} {v : String}
    (hlast : p.getLast? = some v) (hlen : 2 ≤ p.length) :
    ∃ q z, p = q ++ [v] ∧ q.getLast? = some z ∧ q.length + 1 = p.length ∧
      (List.Chain' g.Adj p → g.Adj z v ∧ List.Chain' g.Adj q) ∧
      p.head? = q.head? := by
  have hne : p ≠ [] := by
    intro h
    rw [h] at hlast
    simp at hlast
  have hv : p.getLast hne = v := by
    rw [List.getLast?_eq_getLast p hne] at hlast
    exact Option.some.inj hlast
  refine ⟨p.dropLast, ?_⟩
  have hqp : p.dropLast ++ [v] = p := by
    rw [← hv]
    exact List.dropLast_append_getLast hne
  have hqlen : p.dropLast.length + 1 = p.length := by
    rw [List.length_dropLast]
    omega
  have hqne : p.dropLast ≠ [] := by
    intro h
    rw [h] at hqlen
    simp at hqlen
    omega
  have hz : p.dropLast.getLast? = some (p.dropLast.getLast hqne) :=
    List.getLast?_eq_getLast _ hqne
  refine ⟨p.dropLast.getLast hqne, hqp.symm, hz, hqlen, ?_, ?_⟩
  · intro hc
    rw [← hqp] at hc
    rw [List.chain'_append] at hc
    obtain ⟨hc1, -, hc3⟩ := hc
    exact ⟨hc3 _ hz v rfl, hc1⟩
  · obtain ⟨a, q', hq'⟩ := List.exists_cons_of_ne_nil hqne
    have hp : p = a :: (q' ++ [v]) := by
      rw [← hqp, hq']
      simp
    rw [hq', hp]
    simp

theorem reachable_extend {g : Graph} {s u v : String}
    (hr : g.Reachable s u) (hadj : g.Adj u v) : g.Reachable s v := by
  obtain ⟨p, hh, hl, hc⟩ := hr
  have hne : p ≠ [] := by
    intro h
    rw [h] at hh
    simp at hh
  refine ⟨p ++ [v], ?_, ?_, ?_⟩
  · obtain ⟨a, q', rfl⟩ := List.exists_cons_of_ne_nil hne
    simpa using hh
  · simp
  · rw [List.chain'_append]
    refine ⟨hc, by simp, ?_⟩
    intro x hx y hy
    have hxu : x = u := by
      rw [hl] at hx
      exact (Option.some.inj hx).symm
    have hyv : v = y := by simpa using hy
    rw [hxu, ← hyv]
    exact hadj

theorem walk_closure {g : Graph} {V : List String}
    (hcl : ∀ u ∈ V, ∀ v, g.Adj u v → v ∈ V) :
    ∀ (p : List String) (s : String), s ∈ V → List.Chain' g.Adj p →
      p.head? = some s → ∀ v, p.getLast? = some v → v ∈ V
  | [], s, _, _, hh, v, hl => by simp at hh
  | [x], s, hs, _, hh, v, hl => by
    have hx : x = s := by simpa using hh
    have hv : v = x := by
      have : x = v := by simpa using hl
      exact this.symm
    rw [hv, hx]
    exact hs
  | x :: y :: rest, s, hs, hc, hh, v, hl => by
    have hx : x = s := by simpa using hh
    rw [List.chain'_cons] at hc
    obtain ⟨hadj, hc'⟩ := hc
    have hy : y ∈ V := hcl s hs y (hx ▸ hadj)
    exact walk_closure hcl (y :: rest) y hy hc' rfl v
      (by simpa [List.getLast?_cons_cons] using hl)

namespace BFSAlgorithm

theorem rkd_congr {st st' : State} {v : String}
    (h : st'.distances v = st.distances v) : rkd st' v = rkd st v := by
  simp [rkd, h]

theorem rkd_eq {st : State} {v : String} {n : ℕ}
    (h : st.distances v = some n) : rkd st v = n := by
  simp [rkd, h]

theorem loop_path_found (adj : Dict (List String)) (target : String) (inc : Bool)
    {st : State} (h : st.path_found = true) :
    ∀ fuel, loop adj target inc fuel st = .ok st
  | 0 => by simp [loop, h]
  | fuel + 1 => by simp [loop, h]

/-- Every visited node sits at most one level below the node being
scanned. -/
theorem visitedUB {g : Graph} {source target : String} {inc : Bool}
    {u : String} {du : ℕ} {st : State}
    (hS : SCore g source target inc u du st) :
    ∀ v ∈ st.visited, rkd st v ≤ du + 1 := by
  intro v hv
  by_cases hq : v ∈ st.queue
  · exact hS.queueUB v hq
  · by_cases hu : v = u
    · rw [hu, rkd_eq hS.uDist]
      omega
    · have := hS.procLe v hv hq hu
      omega

/-- `SPost` does not mention `path_found`, so it transports across setting
that flag. -/
theorem spost_set_pf {g : Graph} {source target : String} {inc : Bool}
    {st : State} (b : Bool) (h : SPost g source target inc st) :
    SPost g source target inc { st with path_found := b } :=
  { distDom := h.distDom, prevDom := h.prevDom, sourceVis := h.sourceVis
    sourceDist := h.sourceDist, prevSource := h.prevSource
    visitedNodup := h.visitedNodup, visitedMem := h.visitedMem
    visitedReach := h.visitedReach, orderEq := h.orderEq
    queueSub := h.queueSub, queueNodup := h.queueNodup
    queueSorted := h.queueSorted, finLink := h.finLink, minimal := h.minimal }

/-- `SCore` does not mention `path_found` either. -/
theorem score_set_pf {g : Graph} {source target : String} {inc : Bool}
    {u : String} {du : ℕ} {st : State} (b : Bool)
    (h : SCore g source target inc u du st) :
    SCore g source target inc u du { st with path_found := b } :=
  { base := spost_set_pf b h.base, uVisited := h.uVisited, uDist := h.uDist
    uNotQueue := h.uNotQueue, queueLB := h.queueLB, queueUB := h.queueUB
    procLe := h.procLe, procRelax := h.procRelax, startLB := h.startLB }

/-- Discovering the unvisited `neighbor` from `u` preserves the scan
invariant core. -/
theorem scan_insert {g : Graph} {source target : String} {inc : Bool}
    {u neighbor : String} {du : ℕ} {st : State} (hval : g.validEdges)
    (hC : SCore g source target inc u du st)
    (hv : neighbor ∉ st.visited) (hadjn : g.Adj u neighbor) :
    SCore g source target inc u du
      { queue := st.queue ++ [neighbor]
        visited := st.visited ++ [neighbor]
        previous := st.previous.set neighbor (some u)
        distances := st.distances.set neighbor (du + 1)
        visited_order := if inc then st.visited_order ++ [neighbor]
          else st.visited_order
        path_found := st.path_found } := by
  set stA : State :=
    { queue := st.queue ++ [neighbor]
      visited := st.visited ++ [neighbor]
      previous := st.previous.set neighbor (some u)
      distances := st.distances.set neighbor (du + 1)
      visited_order := if inc then st.visited_order ++ [neighbor]
        else st.visited_order
      path_found := st.path_found } with hstA
  have hnu : neighbor ≠ u := by
    intro h
    exact hv (by rw [h]; exact hC.uVisited)
  have hns : neighbor ≠ source := by
    intro h
    exact hv (by rw [h]; exact hC.base.sourceVis)
  have hnq : neighbor ∉ st.queue := fun h => hv (hC.base.queueSub neighbor h)
  have hnn : neighbor ∈ g.nodes := by
    obtain ⟨w, hw⟩ := hadjn
    exact (adjRel_mem_nodes hval hw).2
  have dA : ∀ x, x ≠ neighbor → stA.distances x = st.distances x := by
    intro x hx
    rw [hstA]
    exact Dict.set_ne _ _ hx
  have rA : ∀ x, x ≠ neighbor → rkd stA x = rkd st x := fun x hx => rkd_congr (dA x hx)
  have rAn : rkd stA neighbor = du + 1 := by
    rw [hstA]
    exact rkd_eq (Dict.set_self _ _ _)
  have rAu : rkd stA u = du := by
    rw [rA u (fun h => hnu h.symm)]
    exact rkd_eq hC.uDist
  have hvisA : ∀ x, x ∈ stA.visited ↔ x ∈ st.visited ∨ x = neighbor := by
    intro x
    rw [hstA]
    simp
  refine
    { base := ?_, uVisited := ?_, uDist := ?_, uNotQueue := ?_, queueLB := ?_
      queueUB := ?_, procLe := ?_, procRelax := ?_, startLB := ?_ }
  · refine
      { distDom := ?_, prevDom := ?_, sourceVis := ?_, sourceDist := ?_
        prevSource := ?_, visitedNodup := ?_, visitedMem := ?_
        visitedReach := ?_, orderEq := ?_, queueSub := ?_, queueNodup := ?_
        queueSorted := ?_, finLink := ?_, minimal := ?_ }
    · intro k
      rw [hvisA k]
      by_cases hk : k = neighbor
      · rw [hstA]
        show ((st.distances.set neighbor (du + 1)) k).isSome ↔ _
        rw [hk, Dict.set_self]
        simp
      · rw [hstA]
        show ((st.distances.set neighbor (du + 1)) k).isSome ↔ _
        rw [Dict.set_ne _ _ hk, hC.base.distDom k]
        simp [hk]
    · intro k
      rw [hvisA k]
      by_cases hk : k = neighbor
      · rw [hstA]
        show ((st.previous.set neighbor (some u)) k).isSome ↔ _
        rw [hk, Dict.set_self]
        simp
      · rw [hstA]
        show ((st.previous.set neighbor (some u)) k).isSome ↔ _
        rw [Dict.set_ne _ _ hk, hC.base.prevDom k]
        simp [hk]
    · rw [hvisA]
      exact Or.inl hC.base.sourceVis
    · rw [hstA]
      show (st.distances.set neighbor (du + 1)) source = some 0
      rw [Dict.set_ne _ _ (Ne.symm hns)]
      exact hC.base.sourceDist
    · rw [hstA]
      show (st.previous.set neighbor (some u)) source = some none
      rw [Dict.set_ne _ _ (Ne.symm hns)]
      exact hC.base.prevSource
    · rw [hstA]
      simp only [List.nodup_append]
      exact ⟨hC.base.visitedNodup, List.nodup_singleton _,
        fun a ha hb => hv ((by simpa using hb) ▸ ha)⟩
    · intro v hvv
      rcases (hvisA v).mp hvv with h | h
      · exact hC.base.visitedMem v h
      · exact Or.inl (h ▸ hnn)
    · intro v hvv
      rcases (hvisA v).mp hvv with h | h
      · exact hC.base.visitedReach v h
      · rw [h]
        exact reachable_extend (hC.base.visitedReach u hC.uVisited) hadjn
    · rw [hstA]
      cases inc <;> simp [hC.base.orderEq]
    · intro v hvv
      rw [hstA] at hvv ⊢
      rcases List.mem_append.mp hvv with h | h
      · exact List.mem_append.mpr (Or.inl (hC.base.queueSub v h))
      · exact List.mem_append.mpr (Or.inr h)
    · rw [hstA]
      simp only [List.nodup_append]
      exact ⟨hC.base.queueNodup, List.nodup_singleton _,
        fun a ha hb => hnq ((by simpa using hb) ▸ ha)⟩
    · rw [hstA]
      show (st.queue ++ [neighbor]).Pairwise (fun a b => rkd stA a ≤ rkd stA b)
      rw [List.pairwise_append]
      refine ⟨?_, List.pairwise_singleton _ _, ?_⟩
      · refine List.Pairwise.imp_of_mem ?_ hC.base.queueSorted
        intro a b ha hb hab
        have hane : a ≠ neighbor := fun h => hnq (h ▸ ha)
        have hbne : b ≠ neighbor := fun h => hnq (h ▸ hb)
        rw [rA a hane, rA b hbne]
        exact hab
      · intro a ha b hb
        have hbn : b = neighbor := by simpa using hb
        have hane : a ≠ neighbor := fun h => hnq (h ▸ ha)
        rw [hbn, rAn, rA a hane]
        have := hC.queueUB a ha
        omega
    · intro v hvv hvs
      rcases (hvisA v).mp hvv with h | h
      · obtain ⟨u', hprev, hu'vis, hadj', hrk⟩ := hC.base.finLink v h hvs
        have hvne : v ≠ neighbor := fun hh => hv (hh ▸ h)
        have hu'ne : u' ≠ neighbor := fun hh => hv (hh ▸ hu'vis)
        refine ⟨u', ?_, (hvisA u').mpr (Or.inl hu'vis), hadj', ?_⟩
        · rw [hstA]
          show (st.previous.set neighbor (some u)) v = some (some u')
          rw [Dict.set_ne _ _ hvne]
          exact hprev
        · rw [rA v hvne, rA u' hu'ne]
          exact hrk
      · refine ⟨u, ?_, (hvisA u).mpr (Or.inl hC.uVisited), h ▸ hadjn, ?_⟩
        · rw [hstA]
          show (st.previous.set neighbor (some u)) v = some (some u)
          rw [h, Dict.set_self]
        · rw [h, rAn, rAu]
    · intro v hvv p hc hh hl
      rcases (hvisA v).mp hvv with h | h
      · have hvne : v ≠ neighbor := fun hh => hv (hh ▸ h)
        rw [rA v hvne]
        exact hC.base.minimal v h p hc hh hl
      · rw [h, rAn]
        have := hC.startLB v (h ▸ hv) p hc hh hl
        omega
  · rw [hvisA]
    exact Or.inl hC.uVisited
  · rw [dA u (fun h => hnu h.symm)]
    exact hC.uDist
  · rw [hstA]
    intro h
    rcases List.mem_append.mp h with h' | h'
    · exact hC.uNotQueue h'
    · have h'' : u = neighbor := by simpa using h'
      exact hnu h''.symm
  · intro a ha
    rw [hstA] at ha
    rcases List.mem_append.mp ha with h | h
    · rw [rA a (fun hh => hnq (hh ▸ h))]
      exact hC.queueLB a h
    · obtain rfl : a = neighbor := by simpa using h
      rw [rAn]
      omega
  · intro a ha
    rw [hstA] at ha
    rcases List.mem_append.mp ha with h | h
    · rw [rA a (fun hh => hnq (hh ▸ h))]
      exact hC.queueUB a h
    · obtain rfl : a = neighbor := by simpa using h
      rw [rAn]
  · intro v hvv hvq hvu
    have hvqueue : v ∉ st.queue := by
      intro h
      exact hvq (by rw [hstA]; exact List.mem_append.mpr (Or.inl h))
    have hvne : v ≠ neighbor := by
      intro h
      exact hvq (by rw [hstA, h]; simp)
    rcases (hvisA v).mp hvv with h | h
    · rw [rA v hvne]
      exact hC.procLe v h hvqueue hvu
    · exact absurd h hvne
  · intro w hwv hwq hwu v hadj'
    have hwqueue : w ∉ st.queue := by
      intro h
      exact hwq (by rw [hstA]; exact List.mem_append.mpr (Or.inl h))
    have hwne : w ≠ neighbor := by
      intro h
      exact hwq (by rw [hstA, h]; simp)
    rcases (hvisA w).mp hwv with h | h
    · obtain ⟨h1, h2⟩ := hC.procRelax w h hwqueue hwu v hadj'
      have hvne : v ≠ neighbor := fun hh => hv (hh ▸ h1)
      refine ⟨(hvisA v).mpr (Or.inl h1), ?_⟩
      rw [rA v hvne, rA w hwne]
      exact h2
    · exact absurd h hwne
  · intro v hvv p hc hh hl
    have hvold : v ∉ st.visited := fun h => hvv ((hvisA v).mpr (Or.inl h))
    exact hC.startLB v hvold p hc hh hl

/-- One unfolding of `BFSAlgorithm.scan` on an unvisited neighbor. -/
theorem scan_cons_unvisited (target : String) (inc : Bool) (u neighbor : String)
    (rest : List String) (st : State) (du : ℕ)
    (hv : neighbor ∉ st.visited) (hdu : st.distances u = some du) :
    scan target inc u (neighbor :: rest) st =
      (if neighbor = target then
        .ok { queue := st.queue ++ [neighbor]
              visited := st.visited ++ [neighbor]
              previous := st.previous.set neighbor (some u)
              distances := st.distances.set neighbor (du + 1)
              visited_order := if inc then st.visited_order ++ [neighbor]
                else st.visited_order
              path_found := true }
      else scan target inc u rest
        { queue := st.queue ++ [neighbor]
          visited := st.visited ++ [neighbor]
          previous := st.previous.set neighbor (some u)
          distances := st.distances.set neighbor (du + 1)
          visited_order := if inc then st.visited_order ++ [neighbor]
            else st.visited_order
          path_found := st.path_found }) := by
  by_cases ht : neighbor = target
  · subst ht
    simp [scan, hv, hdu]
  · simp [scan, hv, hdu, ht]

/-- Full specification of one `BFSAlgorithm.scan` call: it never raises,
discovers the fresh neighbors of `u` (stopping early when it discovers the
target), and preserves the scan invariant core. -/
theorem scan_master {g : Graph} {source target : String} {inc : Bool}
    (hval : g.validEdges) (u : String) (du : ℕ) :
    ∀ (neighbors : List String) (st : State),
      SInv g source target inc u du st →
      (∀ v ∈ neighbors, g.Adj u v) →
      ∃ st' news, scan target inc u neighbors st = .ok st' ∧
        ScanOut g source target inc u du news st st' ∧
        ((st'.path_found = true ∧ target ∈ st'.visited) ∨
         (st'.path_found = false ∧ target ∉ st'.visited ∧
          ∀ v ∈ neighbors, v ∈ st'.visited ∧ rkd st' v ≤ du + 1))
  | [], st, hS, _ => by
    refine ⟨st, [], rfl, ?_, Or.inr ⟨hS.pfFalse, hS.targetNotVis, by simp⟩⟩
    exact { queueEq := by simp, visEq := by simp, newsNodes := by simp
            newsFresh := by simp, newsDist := by simp
            oldDist := fun x _ => rfl, core := hS.core }
  | neighbor :: rest, st, hS, hadj => by
    have hadjrest : ∀ v ∈ rest, g.Adj u v :=
      fun v hv => hadj v (List.mem_cons_of_mem _ hv)
    by_cases hv : neighbor ∈ st.visited
    · have heq : scan target inc u (neighbor :: rest) st =
          scan target inc u rest st := by
        simp [scan, hv]
      obtain ⟨st', news, hok, hout, hdisj⟩ :=
        scan_master hval u du rest st hS hadjrest
      refine ⟨st', news, heq.trans hok, hout, ?_⟩
      rcases hdisj with h | ⟨h1, h2, h3⟩
      · exact Or.inl h
      · refine Or.inr ⟨h1, h2, ?_⟩
        intro v hv'
        rcases List.mem_cons.mp hv' with h | h
        · subst h
          refine ⟨?_, ?_⟩
          · rw [hout.visEq]
            exact List.mem_append.mpr (Or.inl hv)
          · have hfresh : v ∉ news := fun hh => hout.newsFresh v hh hv
            rw [rkd_congr (hout.oldDist v hfresh)]
            exact visitedUB hS.core v hv
        · exact h3 v h
    · have hadjn : g.Adj u neighbor := hadj neighbor (List.mem_cons_self _ _)
      obtain ⟨w0, hw0⟩ := hadjn
      have hnn : neighbor ∈ g.nodes := (adjRel_mem_nodes hval hw0).2
      have hCA := scan_insert hval hS.core hv ⟨w0, hw0⟩
      set stA : State :=
        { queue := st.queue ++ [neighbor]
          visited := st.visited ++ [neighbor]
          previous := st.previous.set neighbor (some u)
          distances := st.distances.set neighbor (du + 1)
          visited_order := if inc then st.visited_order ++ [neighbor]
            else st.visited_order
          path_found := st.path_found } with hstA
      have hvisAn : neighbor ∈ stA.visited := by rw [hstA]; simp
      have hdAn : stA.distances neighbor = some (du + 1) := by
        rw [hstA]
        exact Dict.set_self _ _ _
      have hdAold : ∀ x, x ≠ neighbor → stA.distances x = st.distances x := by
        intro x hx
        rw [hstA]
        exact Dict.set_ne _ _ hx
      by_cases ht : neighbor = target
      · have heq : scan target inc u (neighbor :: rest) st =
            .ok { stA with path_found := true } := by
          rw [scan_cons_unvisited target inc u neighbor rest st du hv
            hS.core.uDist, if_pos ht, hstA]
        refine ⟨{ stA with path_found := true }, [neighbor], heq, ?_, Or.inl ⟨rfl, ?_⟩⟩
        · refine { queueEq := ?_, visEq := ?_, newsNodes := ?_, newsFresh := ?_
                   newsDist := ?_, oldDist := ?_, core := score_set_pf true hCA }
          · rw [hstA]
          · rw [hstA]
          · intro x hx
            obtain rfl : x = neighbor := by simpa using hx
            exact hnn
          · intro x hx
            obtain rfl : x = neighbor := by simpa using hx
            exact hv
          · intro x hx
            obtain rfl : x = neighbor := by simpa using hx
            exact hdAn
          · intro x hx
            have hx2 : x ≠ neighbor := by simpa using hx
            exact hdAold x hx2
        · show target ∈ stA.visited
          rw [← ht]
          exact hvisAn
      · have heq : scan target inc u (neighbor :: rest) st =
            scan target inc u rest stA := by
          rw [scan_cons_unvisited target inc u neighbor rest st du hv
            hS.core.uDist, if_neg ht, hstA]
        have hSA : SInv g source target inc u du stA :=
          { core := hCA
            pfFalse := by rw [hstA]; exact hS.pfFalse
            targetNotVis := by
              rw [hstA]
              intro h
              rcases List.mem_append.mp h with h' | h'
              · exact hS.targetNotVis h'
              · have h'' : target = neighbor := by simpa using h'
                exact ht h''.symm }
        obtain ⟨st', news, hok, hout, hdisj⟩ :=
          scan_master hval u du rest stA hSA hadjrest
        refine ⟨st', neighbor :: news, heq.trans hok, ?_, ?_⟩
        · refine { queueEq := ?_, visEq := ?_, newsNodes := ?_, newsFresh := ?_
                   newsDist := ?_, oldDist := ?_, core := hout.core }
          · rw [hout.queueEq, hstA]
            simp
          · rw [hout.visEq, hstA]
            simp
          · intro x hx
            rcases List.mem_cons.mp hx with h | h
            · subst h
              exact hnn
            · exact hout.newsNodes x h
          · intro x hx
            rcases List.mem_cons.mp hx with h | h
            · subst h
              exact hv
            · intro hxv
              exact hout.newsFresh x h
                (by rw [hstA]; exact List.mem_append.mpr (Or.inl hxv))
          · intro x hx
            rcases List.mem_cons.mp hx with h | h
            · subst h
              have hfresh : x ∉ news := fun hh => hout.newsFresh x hh hvisAn
              rw [hout.oldDist x hfresh]
              exact hdAn
            · exact hout.newsDist x h
          · intro x hx
            have hx1 : x ∉ news := fun hh => hx (List.mem_cons_of_mem _ hh)
            have hx2 : x ≠ neighbor := fun hh => hx (hh ▸ List.mem_cons_self _ _)
            rw [hout.oldDist x hx1]
            exact hdAold x hx2
        · rcases hdisj with h | ⟨h1, h2, h3⟩
          · exact Or.inl h
          · refine Or.inr ⟨h1, h2, ?_⟩
            intro v hv'
            rcases List.mem_cons.mp hv' with h | h
            · subst h
              refine ⟨?_, ?_⟩
              · rw [hout.visEq]
                exact List.mem_append.mpr (Or.inl hvisAn)
              · have hfresh : v ∉ news := fun hh => hout.newsFresh v hh hvisAn
                rw [rkd_congr (hout.oldDist v hfresh), rkd_eq hdAn]
            · exact h3 v h

/-- Full specification of `BFSAlgorithm.loop`: with enough fuel it
terminates without an exception in a state satisfying the exported
postcondition, either with the target found or with the queue exhausted. -/
theorem bfs_loop_master {g : Graph} {source target : String} {inc : Bool}
    (adj : Dict (List String)) (hval : g.validEdges) (hsrcm : source ∈ g.nodes)
    (hdom : ∀ k, (adj k).isSome ↔ k ∈ g.nodes)
    (hmem : ∀ u v, (∃ l, adj u = some l ∧ v ∈ l) ↔ g.Adj u v) :
    ∀ (fuel : ℕ) (st : State), Inv g source target inc st →
      bfsPotential g adj st < fuel →
      ∃ st', loop adj target inc fuel st = .ok st' ∧
        Post g source target inc st' ∧
        (st'.path_found = true ∨ (st'.queue = [] ∧ st'.path_found = false)) := by
  intro fuel
  induction fuel with
  | zero =>
    intro st _ hpot
    exact absurd hpot (by omega)
  | succ fuel ih =>
    intro st hI hpot
    by_cases hpf : st.path_found = true
    · refine ⟨st, by simp [loop, hpf], ?_, Or.inl hpf⟩
      exact { base := hI.base, targetIff := hI.targetIff
              complete := fun h => absurd h (by simp [hpf]) }
    · have hpf' : st.path_found = false := by
        revert hpf
        cases st.path_found <;> simp
      cases hq : st.queue with
      | nil =>
        refine ⟨st, by simp [loop, hpf', hq], ?_, Or.inr ⟨hq, hpf'⟩⟩
        refine { base := hI.base, targetIff := hI.targetIff, complete := ?_ }
        intro _ v hreach
        have hcl : ∀ u ∈ st.visited, ∀ v', g.Adj u v' → v' ∈ st.visited := by
          intro u hu v' hadj'
          exact (hI.procRelax hpf' u hu (by rw [hq]; simp) v' hadj').1
        obtain ⟨p, hh, hl, hc⟩ := hreach
        exact walk_closure hcl p source hI.base.sourceVis hc hh v hl
      | cons u rest =>
        have huv : u ∈ st.visited := by
          refine hI.base.queueSub u ?_
          rw [hq]
          exact List.mem_cons_self _ _
        have hun : u ∈ g.nodes := by
          rcases hI.base.visitedMem u huv with h | h
          · exact h
          · rw [h]
            exact hsrcm
        obtain ⟨neighbors, hadjeq⟩ : ∃ l, adj u = some l :=
          Option.isSome_iff_exists.mp ((hdom u).mpr hun)
        have hnb : ∀ v ∈ neighbors, g.Adj u v :=
          fun v hv => (hmem u v).mp ⟨neighbors, hadjeq, hv⟩
        obtain ⟨du, hdu⟩ : ∃ n, st.distances u = some n :=
          Option.isSome_iff_exists.mp ((hI.base.distDom u).mpr huv)
        have hqnodup := hI.base.queueNodup
        rw [hq] at hqnodup
        have hqsorted := hI.base.queueSorted
        rw [hq] at hqsorted
        set stM : State := { st with queue := rest } with hstM
        have hSM : SInv g source target inc u du stM := by
          refine
            { core :=
                { base :=
                    { distDom := hI.base.distDom, prevDom := hI.base.prevDom
                      sourceVis := hI.base.sourceVis
                      sourceDist := hI.base.sourceDist
                      prevSource := hI.base.prevSource
                      visitedNodup := hI.base.visitedNodup
                      visitedMem := hI.base.visitedMem
                      visitedReach := hI.base.visitedReach
                      orderEq := hI.base.orderEq
                      queueSub := ?_, queueNodup := hqnodup.of_cons
                      queueSorted := ?_, finLink := hI.base.finLink
                      minimal := hI.base.minimal }
                  uVisited := huv, uDist := hdu
                  uNotQueue := (List.nodup_cons.mp hqnodup).1
                  queueLB := ?_, queueUB := ?_, procLe := ?_, procRelax := ?_
                  startLB := ?_ }
              pfFalse := hpf'
              targetNotVis := fun h => by
                have := hI.targetIff.mp h
                rw [hpf'] at this
                exact Bool.noConfusion this }
          · intro v hv
            refine hI.base.queueSub v ?_
            rw [hq]
            exact List.mem_cons_of_mem _ hv
          · exact hqsorted.of_cons
          · intro a ha
            have := (List.pairwise_cons.mp hqsorted).1 a ha
            rw [rkd_eq hdu] at this
            exact this
          · intro a ha
            have := hI.queueSpread u (by rw [hq]; exact List.mem_cons_self _ _)
              a (by rw [hq]; exact List.mem_cons_of_mem _ ha)
            rw [rkd_eq hdu] at this
            exact this
          · intro v hv hvq hvu
            have hvnq : v ∉ st.queue := by
              rw [hq]
              intro h
              rcases List.mem_cons.mp h with h' | h'
              · exact hvu h'
              · exact hvq h'
            have := hI.procLe hpf' v hv hvnq u (by rw [hq]; exact List.mem_cons_self _ _)
            rw [rkd_eq hdu] at this
            exact this
          · intro w hw hwq hwu v hadj'
            have hwnq : w ∉ st.queue := by
              rw [hq]
              intro h
              rcases List.mem_cons.mp h with h' | h'
              · exact hwu h'
              · exact hwq h'
            exact hI.procRelax hpf' w hw hwnq v hadj'
          · have := hI.frontierLB hpf' u (by rw [hq]; rfl)
            rw [rkd_eq hdu] at this
            exact this
        obtain ⟨st'', news, hsok, hout, hdisj⟩ :=
          scan_master hval u du neighbors stM hSM hnb
        have heq : loop adj target inc (fuel + 1) st =
            loop adj target inc fuel st'' := by
          simp only [loop, hq, hadjeq, if_neg hpf]
          rw [← hstM, hsok]
          simp [ok_bind]
        have hstMvis : stM.visited = st.visited := by rw [hstM]
        have hstMq : stM.queue = rest := by rw [hstM]
        rcases hdisj with ⟨hpf'', htv''⟩ | ⟨hpf'', htnv'', hcov⟩
        · refine ⟨st'', ?_, ?_, Or.inl hpf''⟩
          · rw [heq]
            exact loop_path_found adj target inc hpf'' fuel
          · exact { base := hout.core.base
                    targetIff := ⟨fun _ => hpf'', fun _ => htv''⟩
                    complete := fun h => absurd (hpf''.symm.trans h) (by simp) }
        · have hunews : u ∉ news := fun h => hout.newsFresh u h (by rw [hstMvis]; exact huv)
          have hrku : rkd st'' u = du := by
            rw [rkd_congr (hout.oldDist u hunews), hstM]
            exact rkd_eq hdu
          have hInv'' : Inv g source target inc st'' := by
            refine
              { base := hout.core.base
                queueSpread := ?_, procLe := ?_, procRelax := ?_
                frontierLB := ?_
                targetIff := ⟨fun h => absurd h htnv'',
                  fun h => absurd (hpf''.symm.trans h) (by simp)⟩ }
            · intro a ha b hb
              have h1 := hout.core.queueLB a ha
              have h2 := hout.core.queueUB b hb
              omega
            · intro _ v hv hvq a ha
              by_cases hvu : v = u
              · rw [hvu, hrku]
                exact hout.core.queueLB a ha
              · have h1 := hout.core.procLe v hv hvq hvu
                have h2 := hout.core.queueLB a ha
                omega
            · intro _ w hw hwq v hadj'
              by_cases hwu : w = u
              · have hvn : v ∈ neighbors := by
                  obtain ⟨l, hl, hvl⟩ := (hmem u v).mpr (hwu ▸ hadj')
                  have : l = neighbors := by
                    rw [hadjeq] at hl
                    exact (Option.some.inj hl).symm
                  exact this ▸ hvl
                obtain ⟨h1, h2⟩ := hcov v hvn
                refine ⟨h1, ?_⟩
                rw [hwu, hrku]
                exact h2
              · exact hout.core.procRelax w hw hwq hwu v hadj'
            · intro _ a' hhead v hv p hc hh hl
              obtain ⟨t', hqc⟩ : ∃ t', st''.queue = a' :: t' := by
                cases hqq : st''.queue with
                | nil =>
                  rw [hqq] at hhead
                  exact absurd hhead (by simp)
                | cons b t' =>
                  rw [hqq] at hhead
                  have hb : b = a' := by simpa using hhead
                  exact ⟨t', by rw [hb]⟩
              have ha'mem : a' ∈ st''.queue := by
                rw [hqc]
                exact List.mem_cons_self _ _
              have hvold : v ∉ st.visited := by
                intro h
                refine hv ?_
                rw [hout.visEq, hstMvis]
                exact List.mem_append.mpr (Or.inl h)
              have hbase : du + 2 ≤ p.length := by
                have := hSM.core.startLB v (by rw [hstMvis]; exact hvold) p hc hh hl
                exact this
              have hub := hout.core.queueUB a' ha'mem
              by_cases hcase : rkd st'' a' ≤ du
              · omega
              · have ha'eq : rkd st'' a' = du + 1 := by omega
                by_contra hcon
                have hplen : p.length = du + 2 := by omega
                have hp2 : 2 ≤ p.length := by omega
                obtain ⟨q, z, hpq, hzlast, hqlen, hchains, hheads⟩ :=
                  walk_snoc_decomp (g := g) hl hp2
                obtain ⟨hzadj, hqchain⟩ := hchains hc
                have hqhead : q.head? = some source := by
                  rw [← hheads]
                  exact hh
                have hqlen' : q.length = du + 1 := by omega
                by_cases hz : z ∈ st.visited
                · by_cases hzu : z = u
                  · have hvn : v ∈ neighbors := by
                      obtain ⟨l, hl', hvl⟩ := (hmem u v).mpr (hzu ▸ hzadj)
                      have : l = neighbors := by
                        rw [hadjeq] at hl'
                        exact (Option.some.inj hl').symm
                      exact this ▸ hvl
                    exact hv (hcov v hvn).1
                  · by_cases hzq : z ∈ st.queue
                    · have hzrest : z ∈ rest := by
                        rw [hq] at hzq
                        rcases List.mem_cons.mp hzq with h' | h'
                        · exact absurd h' hzu
                        · exact h'
                      have hzmin : rkd st z + 1 ≤ q.length :=
                        hI.base.minimal z hz q hqchain hqhead hzlast
                      have hzq'' : z ∈ st''.queue := by
                        rw [hout.queueEq, hstMq]
                        exact List.mem_append.mpr (Or.inl hzrest)
                      have hznews : z ∉ news :=
                        fun h => hout.newsFresh z h (by rw [hstMvis]; exact hz)
                      have hzrk : rkd st'' z = rkd st z :=
                        (rkd_congr (hout.oldDist z hznews)).trans rfl
                      have hsorted'' := hout.core.base.queueSorted
                      rw [hqc] at hsorted''
                      have ha'le : rkd st'' a' ≤ rkd st'' z := by
                        rcases List.mem_cons.mp (hqc ▸ hzq'') with h' | h'
                        · rw [h']
                        · exact (List.pairwise_cons.mp hsorted'').1 z h'
                      omega
                    · have := (hI.procRelax hpf' z hz hzq v hzadj).1
                      exact hvold this
                · have := hSM.core.startLB z (by rw [hstMvis]; exact hz) q
                    hqchain hqhead hzlast
                  omega
          have hpot'' : bfsPotential g adj st'' < fuel := by
            have hnodup'' := hout.core.base.visitedNodup
            rw [hout.visEq, hstMvis] at hnodup''
            have hnnodup : news.Nodup := (List.nodup_append.mp hnodup'').2.1
            have hsub : news.toFinset ⊆
                g.nodes.toFinset \ st.visited.toFinset := by
              intro x hx
              have hx' := List.mem_toFinset.mp hx
              rw [Finset.mem_sdiff]
              refine ⟨List.mem_toFinset.mpr (hout.newsNodes x hx'), ?_⟩
              intro h
              exact hout.newsFresh x hx' (by rw [hstMvis]; exact List.mem_toFinset.mp h)
            have hsdiff : g.nodes.toFinset \ st''.visited.toFinset =
                (g.nodes.toFinset \ st.visited.toFinset) \ news.toFinset := by
              rw [hout.visEq, hstMvis]
              ext a
              simp only [Finset.mem_sdiff, List.mem_toFinset, List.mem_append]
              tauto
            have hsumeq :
                ((g.nodes.toFinset \ st.visited.toFinset) \ news.toFinset).sum
                    (fun v => 1 + ((adj v).getD []).length) +
                  news.toFinset.sum (fun v => 1 + ((adj v).getD []).length) =
                (g.nodes.toFinset \ st.visited.toFinset).sum
                  (fun v => 1 + ((adj v).getD []).length) :=
              Finset.sum_sdiff hsub
            have hcard : news.length ≤
                news.toFinset.sum (fun v => 1 + ((adj v).getD []).length) := by
              have h1 : news.toFinset.card ≤
                  news.toFinset.sum (fun v => 1 + ((adj v).getD []).length) := by
                rw [Finset.card_eq_sum_ones]
                refine Finset.sum_le_sum ?_
                intro i _
                omega
              rw [List.toFinset_card_of_nodup hnnodup] at h1
              exact h1
            have hqlen'' : st''.queue.length = rest.length + news.length := by
              rw [hout.queueEq, hstMq, List.length_append]
            have hqlen : st.queue.length = rest.length + 1 := by
              rw [hq]
              rfl
            unfold bfsPotential at hpot ⊢
            rw [hsdiff]
            rw [← hsumeq] at hpot
            omega
          obtain ⟨st₃, hok₃, hpost₃, hdisj₃⟩ := ih st'' hInv'' hpot''
          exact ⟨st₃, heq.trans hok₃, hpost₃, hdisj₃⟩

/-- A walk whose endpoints differ has at least two vertices. -/
theorem walk_two_le {p : List String} {s v : String} (hh : p.head? = some s)
    (hl : p.getLast? = some v) (hne : v ≠ s) : 2 ≤ p.length := by
  cases p with
  | nil => simp at hh
  | cons a q =>
    cases q with
    | nil =>
      have h1 : a = s := by simpa using hh
      have h2 : a = v := by simpa using hl
      exact absurd (h2.symm.trans h1) hne
    | cons b r => simp

/-- Running the BFS loop from the initial state of
`BFSAlgorithm.find_shortest_path`. -/
theorem bfs_loop_run (g : Graph) (source target : String) (inc : Bool)
    (hval : g.validEdges) (hsrc : source ∈ g.nodes) (hne : source ≠ target) :
    ∃ adj st', bfs_build_adjacency_list g = .ok adj ∧
      loop adj target inc (search_fuel g)
        { queue := [source], visited := [source],
          previous := Dict.empty.set source none,
          distances := Dict.empty.set source 0,
          visited_order := if inc then [source] else [],
          path_found := false } = .ok st' ∧
      Post g source target inc st' ∧
      (st'.path_found = true ∨ (st'.queue = [] ∧ st'.path_found = false)) := by
  obtain ⟨adj, hok, hdom, hmem⟩ := bfs_build_adjacency_list_ok g hval
  set st0 : State :=
    { queue := [source], visited := [source],
      previous := Dict.empty.set source none,
      distances := Dict.empty.set source 0,
      visited_order := if inc then [source] else [],
      path_found := false } with hst0
  have hd0 : ∀ k, st0.distances k =
      if k = source then some 0 else none := by
    intro k
    rw [hst0]
    show (Dict.empty.set source (0 : ℕ)) k = _
    rw [Dict.set_eq_ite]
    rfl
  have hp0 : ∀ k, st0.previous k =
      if k = source then some none else none := by
    intro k
    rw [hst0]
    show (Dict.empty.set source (none : Option String)) k = _
    rw [Dict.set_eq_ite]
    rfl
  have hvis0 : st0.visited = [source] := by rw [hst0]
  have hq0 : st0.queue = [source] := by rw [hst0]
  have hrk0 : rkd st0 source = 0 := by
    refine rkd_eq ?_
    rw [hd0, if_pos rfl]
  have hI0 : Inv g source target inc st0 := by
    refine
      { base :=
          { distDom := ?_, prevDom := ?_
            sourceVis := by rw [hvis0]; exact List.mem_cons_self _ _
            sourceDist := by rw [hd0, if_pos rfl]
            prevSource := by rw [hp0, if_pos rfl]
            visitedNodup := by rw [hvis0]; exact List.nodup_singleton _
            visitedMem := ?_, visitedReach := ?_
            orderEq := by rw [hst0]
            queueSub := ?_
            queueNodup := by rw [hq0]; exact List.nodup_singleton _
            queueSorted := by rw [hq0]; exact List.pairwise_singleton _ _
            finLink := ?_, minimal := ?_ }
        queueSpread := ?_, procLe := ?_, procRelax := ?_, frontierLB := ?_
        targetIff := ?_ }
    · intro k
      rw [hd0, hvis0]
      by_cases hk : k = source <;> simp [hk]
    · intro k
      rw [hp0, hvis0]
      by_cases hk : k = source <;> simp [hk]
    · intro v hv
      rw [hvis0] at hv
      exact Or.inr (by simpa using hv)
    · intro v hv
      rw [hvis0] at hv
      obtain rfl : v = source := by simpa using hv
      exact ⟨[v], rfl, rfl, by simp⟩
    · intro v hv
      rw [hq0] at hv
      rw [hvis0]
      exact hv
    · intro v hv hvs
      rw [hvis0] at hv
      exact absurd (by simpa using hv) hvs
    · intro v hv p hc hh hl
      rw [hvis0] at hv
      obtain rfl : v = source := by simpa using hv
      rw [hrk0]
      have h1 : 1 ≤ p.length := by
        cases p with
        | nil => simp at hl
        | cons a q => simp
      omega
    · intro a ha b hb
      rw [hq0] at ha hb
      have ha' : a = source := by simpa using ha
      have hb' : b = source := by simpa using hb
      rw [ha', hb']
      omega
    · intro _ v hv hvq a ha
      rw [hvis0] at hv
      rw [hq0] at hvq
      exact absurd (show v = source by simpa using hv)
        (show ¬ v = source by simpa using hvq)
    · intro _ w hw hwq v hadj'
      rw [hvis0] at hw
      rw [hq0] at hwq
      exact absurd (show w = source by simpa using hw)
        (show ¬ w = source by simpa using hwq)
    · intro _ a ha v hv p hc hh hl
      have hasrc : a = source := by
        rw [hq0] at ha
        have : source = a := by simpa using ha
        exact this.symm
      rw [hasrc, hrk0]
      rw [hvis0] at hv
      have hvne : v ≠ source := by simpa using hv
      have := walk_two_le hh hl hvne
      omega
    · constructor
      · intro h
        rw [hvis0] at h
        have : target = source := by simpa using h
        exact absurd this.symm hne
      · intro h
        rw [hst0] at h
        simp at h
  have hpot0 : bfsPotential g adj st0 < search_fuel g := by
    have hle : ((g.nodes.toFinset \ st0.visited.toFinset).sum
        fun v => 1 + ((adj v).getD []).length) ≤
        (g.nodes.toFinset.sum fun v => 1 + ((adj v).getD []).length) :=
      Finset.sum_le_sum_of_subset Finset.sdiff_subset
    have hsum : (g.nodes.toFinset.sum fun v => 1 + ((adj v).getD []).length) =
        g.nodes.toFinset.card + sumDeg g.nodes adj := by
      rw [Finset.sum_add_distrib]
      simp [sumDeg]
    have hdeg : sumDeg g.nodes adj ≤ 0 + 2 * g.edges.length := by
      have := genBuild_sumDeg g.directed (fun e => e.to_node)
        (fun e => e.from_node) g.nodes g.edges (initAdj g.nodes) adj hok
      simpa [sumDeg_initAdj] using this
    have hcard : g.nodes.toFinset.card ≤ g.nodes.length := g.nodes.toFinset_card_le
    have hq1 : st0.queue.length = 1 := by simp [hst0]
    unfold bfsPotential
    unfold search_fuel
    omega
  obtain ⟨st', hloopok, hPost, hdisj⟩ :=
    bfs_loop_master adj hval hsrc hdom hmem (search_fuel g) st0 hI0 hpot0
  exact ⟨adj, st', hok, hst0 ▸ hloopok, hPost, hdisj⟩

/-- Full specification of `BFSAlgorithm.find_shortest_path` for a source in
the node set and a distinct target (the target need not be a node: an
absent target is simply never found). -/
theorem bfs_find_spec (g : Graph) (source target : String) (inc : Bool)
    (hval : g.validEdges) (hsrc : source ∈ g.nodes) (hne : source ≠ target) :
    ∃ r, find_shortest_path g source target inc = .ok r ∧
      r.algorithm_used = .bfs ∧
      (r.«exists» = true ↔ g.Reachable source target) ∧
      (r.«exists» = false → r.path = [] ∧ r.distance = ⊤ ∧
        ∃ l : List String, l.Nodup ∧ (∀ v, v ∈ l ↔ g.Reachable source v) ∧
          r.visited_nodes_count = l.length) ∧
      (r.«exists» = true → ∃ n : ℕ, r.distance = ((n : ℚ) : WithTop ℚ) ∧
        r.path.length = n + 1 ∧ g.IsWalkFrom source target r.path ∧
        (∀ p, g.IsWalkFrom source target p → n + 1 ≤ p.length)) ∧
      (r.visited_nodes = none ↔ inc = false) ∧
      (∀ vl, r.visited_nodes = some vl →
        vl.Nodup ∧ vl.length = r.visited_nodes_count) := by
  obtain ⟨adj, st', hok, hloopok, hPost, hdisj⟩ :=
    bfs_loop_run g source target inc hval hsrc hne
  have hvisC10 : ((if inc then some st'.visited_order else none) = none ↔
        inc = false) ∧
      ∀ vl, (if inc then some st'.visited_order else none) = some vl →
        vl.Nodup ∧ vl.length = st'.visited.length := by
    constructor
    · cases inc <;> simp
    · intro vl hvl
      cases hinc : inc
      · rw [hinc] at hvl
        simp at hvl
      · rw [hinc] at hvl
        have hord := hPost.base.orderEq
        rw [hinc] at hord
        have hord' : st'.visited_order = st'.visited := by simpa using hord
        have hvl' : st'.visited_order = vl := by simpa using hvl
        have hvleq : vl = st'.visited := by rw [← hvl', hord']
        rw [hvleq]
        exact ⟨hPost.base.visitedNodup, rfl⟩
  by_cases htv : target ∈ st'.visited
  · -- target found
    obtain ⟨dt, hdt⟩ : ∃ n, st'.distances target = some n :=
      Option.isSome_iff_exists.mp ((hPost.base.distDom target).mpr htv)
    have hreach : g.Reachable source target := hPost.base.visitedReach target htv
    have hstep : ∀ v, v ∈ st'.visited → v ≠ source →
        ∃ u, st'.previous v = some (some u) ∧ u ∈ st'.visited ∧
          (g.Adj u v ∧ rkd st' v = rkd st' u + 1) ∧ rkd st' u < rkd st' v := by
      intro v hv hvs
      obtain ⟨u, hprev, huvis, hadj', hrk⟩ := hPost.base.finLink v hv hvs
      exact ⟨u, hprev, huvis, ⟨hadj', hrk⟩, by omega⟩
    have hQVS : ∀ v, v ∈ st'.visited → v ∈ insert source g.nodes.toFinset := by
      intro v hv
      rcases hPost.base.visitedMem v hv with h | h
      · exact Finset.mem_insert.mpr (Or.inr (List.mem_toFinset.mpr h))
      · exact Finset.mem_insert.mpr (Or.inl h)
    have hcardf : ((insert source g.nodes.toFinset).filter
        (fun u => rkd st' u < rkd st' target)).card < reconstruct_fuel g := by
      have h1 := Finset.card_filter_le (insert source g.nodes.toFinset)
        (fun u => rkd st' u < rkd st' target)
      have h2 : (insert source g.nodes.toFinset).card ≤
          g.nodes.toFinset.card + 1 := Finset.card_insert_le _ _
      have h3 : g.nodes.toFinset.card ≤ g.nodes.length := g.nodes.toFinset_card_le
      unfold reconstruct_fuel
      omega
    obtain ⟨p, hrec, hph, hpl, hpchain⟩ :=
      reconstruct_path_spec st'.previous source (fun v => v ∈ st'.visited)
        (fun a b => g.Adj a b ∧ rkd st' b = rkd st' a + 1) (rkd st')
        (insert source g.nodes.toFinset) hQVS hPost.base.prevSource hstep
        (reconstruct_fuel g) target htv hcardf
    have hrev_head : p.reverse.head? = some source := by
      rw [List.head?_reverse]
      exact hpl
    have hrev_last : p.reverse.getLast? = some target := by
      rw [List.getLast?_reverse]
      exact hph
    have hrev_chain : List.Chain'
        (fun a b => g.Adj a b ∧ rkd st' b = rkd st' a + 1) p.reverse := by
      rw [List.chain'_reverse]
      exact hpchain
    obtain ⟨a, q, hpq⟩ : ∃ a q, p.reverse = a :: q := by
      cases hp : p.reverse with
      | nil =>
        rw [hp] at hrev_head
        simp at hrev_head
      | cons a q => exact ⟨a, q, rfl⟩
    have ha : a = source := by
      rw [hpq] at hrev_head
      simpa using hrev_head
    obtain ⟨hhop, hadjchain⟩ := hop_chain_length (rkd st') q a (hpq ▸ hrev_chain)
      target (hpq ▸ hrev_last)
    have hrksrc : rkd st' source = 0 := by
      refine rkd_eq ?_
      exact hPost.base.sourceDist
    have hrkt : rkd st' target = dt := rkd_eq hdt
    have hlen : p.reverse.length = dt + 1 := by
      rw [hpq, ha]
      rw [ha, hrksrc, hrkt] at hhop
      omega
    have hfind : find_shortest_path g source target inc =
        .ok { path := p.reverse, distance := ((dt : ℚ) : WithTop ℚ),
              algorithm_used := .bfs,
              visited_nodes_count := st'.visited.length,
              visited_nodes := if inc then some st'.visited_order else none,
              «exists» := true } := by
      unfold find_shortest_path
      rw [hok, ok_bind, if_neg hne]
      simp only [hloopok, ok_bind]
      simp [htv, hrec, hdt, ok_bind]
    refine ⟨_, hfind, rfl, ?_, ?_, ?_, hvisC10.1, hvisC10.2⟩
    · exact ⟨fun _ => hreach, fun _ => rfl⟩
    · intro h
      exact absurd h (by simp)
    · intro _
      refine ⟨dt, rfl, hlen, ⟨hrev_head, hrev_last, by rw [hpq]; exact hadjchain⟩, ?_⟩
      intro p' hp'
      obtain ⟨hh', hl', hc'⟩ := hp'
      have := hPost.base.minimal target htv p' hc' hh' hl'
      rw [hrkt] at this
      exact this
  · -- target not found: the loop exhausted the queue
    have hpffalse : st'.path_found = false := by
      cases hpf : st'.path_found
      · rfl
      · exact absurd (hPost.targetIff.mpr hpf) htv
    have hdt : st'.distances target = none := by
      cases hdt : st'.distances target with
      | none => rfl
      | some d =>
        have := (hPost.base.distDom target).mp (by rw [hdt]; rfl)
        exact absurd this htv
    have hnreach : ¬ g.Reachable source target :=
      fun h => htv (hPost.complete hpffalse target h)
    have hfind : find_shortest_path g source target inc =
        .ok { path := [], distance := ⊤, algorithm_used := .bfs,
              visited_nodes_count := st'.visited.length,
              visited_nodes := if inc then some st'.visited_order else none,
              «exists» := false } := by
      unfold find_shortest_path
      rw [hok, ok_bind, if_neg hne]
      simp only [hloopok, ok_bind]
      simp [htv, hdt]
    refine ⟨_, hfind, rfl, ?_, ?_, ?_, hvisC10.1, hvisC10.2⟩
    · constructor
      · intro h
        exact absurd h (by simp)
      · intro h
        exact absurd h hnreach
    · intro _
      refine ⟨rfl, rfl, st'.visited, hPost.base.visitedNodup, ?_, rfl⟩
      intro v
      constructor
      · exact hPost.base.visitedReach v
      · exact hPost.complete hpffalse v
    · intro h
      exact absurd h (by simp)

end BFSAlgorithm

/-- Claim C4: on a graph satisfying the data-model invariant, for source and
target in the node set, BFS returns a minimum-hop walk from source to
target and reports the hop count as the distance when the target is
reachable; otherwise it reports `exists = false`, infinite distance, an
empty path, and counts exactly the nodes reached from the source. -/
theorem claim_C4_bfs_correctness (g : Graph) (source target : String)
    (inc : Bool) (hval : g.validEdges)
    (hsrc : source ∈ g.nodes) (htgt : target ∈ g.nodes) :
    ∃ r, BFSAlgorithm.find_shortest_path g source target inc = .ok r ∧
      (g.Reachable source target →
        r.«exists» = true ∧ g.IsWalkFrom source target r.path ∧
        r.distance = (((r.path.length - 1 : ℕ) : ℚ) : WithTop ℚ) ∧
        (∀ p, g.IsWalkFrom source target p → r.path.length ≤ p.length)) ∧
      (¬ g.Reachable source target →
        r.«exists» = false ∧ r.distance = ⊤ ∧ r.path = [] ∧
        ∃ l : List String, l.Nodup ∧ (∀ v, v ∈ l ↔ g.Reachable source v) ∧
          r.visited_nodes_count = l.length) := by
  by_cases hne : source = target
  · subst hne
    refine ⟨_, bfs_reflexive g source inc hval, ?_, ?_⟩
    · intro _
      refine ⟨rfl, ⟨rfl, rfl, by simp⟩, by norm_num, ?_⟩
      intro p hp
      obtain ⟨hh, -, -⟩ := hp
      cases p with
      | nil => simp at hh
      | cons a q => simp
    · intro h
      exact absurd ⟨[source], rfl, rfl, by simp⟩ h
  · obtain ⟨r, hfind, -, hiff, hfalse, htrue, -, -⟩ :=
      BFSAlgorithm.bfs_find_spec g source target inc hval hsrc hne
    refine ⟨r, hfind, ?_, ?_⟩
    · intro hreach
      obtain ⟨n, hdist, hlen, hwalk, hmin⟩ := htrue (hiff.mpr hreach)
      refine ⟨hiff.mpr hreach, hwalk, ?_, ?_⟩
      · rw [hdist, hlen]
        norm_num
      · intro p hp
        have := hmin p hp
        omega
    · intro hnreach
      have hex : r.«exists» = false := by
        cases hex : r.«exists»
        · rfl
        · exact absurd (hiff.mp hex) hnreach
      obtain ⟨h1, h2, h3⟩ := hfalse hex
      exact ⟨hex, h2, h1, h3⟩

/-- Witness for claim C4 at the spec scenario line graph. -/
theorem claim_C4_bfs_correctness_witness :
    Examples.Line.validEdges ∧ "A" ∈ Examples.Line.nodes ∧
    "C" ∈ Examples.Line.nodes ∧
    (∃ r, BFSAlgorithm.find_shortest_path Examples.Line "A" "C" false = .ok r ∧
      (Examples.Line.Reachable "A" "C" →
        r.«exists» = true ∧ Examples.Line.IsWalkFrom "A" "C" r.path ∧
        r.distance = (((r.path.length - 1 : ℕ) : ℚ) : WithTop ℚ) ∧
        (∀ p, Examples.Line.IsWalkFrom "A" "C" p → r.path.length ≤ p.length)) ∧
      (¬ Examples.Line.Reachable "A" "C" →
        r.«exists» = false ∧ r.distance = ⊤ ∧ r.path = [] ∧
        ∃ l : List String, l.Nodup ∧
          (∀ v, v ∈ l ↔ Examples.Line.Reachable "A" v) ∧
          r.visited_nodes_count = l.length)) :=
  ⟨by decide, by decide, by decide,
   claim_C4_bfs_correctness Examples.Line "A" "C" false
     (by decide) (by decide) (by decide)⟩

theorem adjRel_unit {g : Graph} (hunit : g.unitWeights) {u v : String} {w : ℚ}
    (h : g.adjRel u v w) : w = 1 := by
  obtain ⟨e, he, -, hw⟩ := h
  rw [← hw]
  exact hunit e he

/-- On a unit-weight graph, the cost of a walk is its hop count. -/
theorem unit_chainCost {g : Graph} (hunit : g.unitWeights) :
    ∀ {p : List String} {c : ℚ}, g.ChainCost p c → c + 1 = (p.length : ℚ) := by
  intro p c h
  induction h with
  | single v => simp
  | cons hadj hrest ih =>
    have hw := adjRel_unit hunit hadj
    rw [hw]
    simp only [List.length_cons] at ih ⊢
    push_cast at ih ⊢
    linarith

/-- Claim C7: on a unit-weight graph satisfying the data-model invariant,
BFS and Dijkstra report the same distance for every reachable pair of
nodes. -/
theorem claim_C7_unit_weight_equivalence (g : Graph) (source target : String)
    (inc : Bool) (hval : g.validEdges) (hunit : g.unitWeights)
    (hsrc : source ∈ g.nodes) (htgt : target ∈ g.nodes)
    (hreach : g.Reachable source target) :
    ∃ rb rd, BFSAlgorithm.find_shortest_path g source target inc = .ok rb ∧
      DijkstraAlgorithm.find_shortest_path g source target inc = .ok rd ∧
      rb.distance = rd.distance := by
  have hpos : g.posWeights := fun e he => by
    rw [hunit e he]
    norm_num
  by_cases hne : source = target
  · subst hne
    exact ⟨_, _, bfs_reflexive g source inc hval,
      dijkstra_reflexive g source inc hval hsrc, rfl⟩
  · obtain ⟨rb, hfb, -, hiffb, -, htrueb, -, -⟩ :=
      BFSAlgorithm.bfs_find_spec g source target inc hval hsrc hne
    obtain ⟨rd, hfd, -, hiffd, -, htrued, -, -⟩ :=
      DijkstraAlgorithm.dijkstra_find_spec g source target inc hval hpos hsrc htgt
    obtain ⟨n, hdistb, hlenb, hwalkb, hminb⟩ := htrueb (hiffb.mpr hreach)
    obtain ⟨c, hdistd, hccd, hheadd, hlastd, hoptd⟩ := htrued (hiffd.mpr hreach)
    obtain ⟨hh, hl, hcb⟩ := hwalkb
    obtain ⟨a, q, hpq⟩ : ∃ a q, rb.path = a :: q := by
      cases hp : rb.path with
      | nil =>
        rw [hp] at hh
        simp at hh
      | cons a q => exact ⟨a, q, rfl⟩
    obtain ⟨cb, hccb⟩ := chain'_adj_chainCost q a (hpq ▸ hcb)
    have hcble : c ≤ cb := hoptd (a :: q) cb hccb (hpq ▸ hh) (hpq ▸ hl)
    have hcbn : cb = (n : ℚ) := by
      have hcbval := unit_chainCost hunit hccb
      have hlen' : (a :: q).length = n + 1 := by
        rw [← hpq]
        exact hlenb
      rw [hlen'] at hcbval
      push_cast at hcbval
      linarith
    have h1 : c ≤ (n : ℚ) := hcbn ▸ hcble
    have h2 : (n : ℚ) ≤ c := by
      have hm := hminb rd.path ⟨hheadd, hlastd, chainCost_chain' hccd⟩
      have hcast : ((n : ℚ) + 1) ≤ (rd.path.length : ℚ) := by exact_mod_cast hm
      have hcdval := unit_chainCost hunit hccd
      linarith
    have hcn : c = (n : ℚ) := le_antisymm h1 h2
    refine ⟨rb, rd, hfb, hfd, ?_⟩
    rw [hdistb, hdistd, hcn]

/-- Witness for claim C7 at the spec scenario line graph. -/
theorem claim_C7_unit_weight_equivalence_witness :
    Examples.Line.validEdges ∧ Examples.Line.unitWeights ∧
    "A" ∈ Examples.Line.nodes ∧ "C" ∈ Examples.Line.nodes ∧
    Examples.Line.Reachable "A" "C" ∧
    (∃ rb rd,
      BFSAlgorithm.find_shortest_path Examples.Line "A" "C" false = .ok rb ∧
      DijkstraAlgorithm.find_shortest_path Examples.Line "A" "C" false = .ok rd ∧
      rb.distance = rd.distance) := by
  have hreach : Examples.Line.Reachable "A" "C" := by
    refine ⟨["A", "B", "C"], rfl, rfl, ?_⟩
    refine List.chain'_cons.mpr ⟨⟨1, ⟨"A", "B", 1⟩, by simp [Examples.Line],
      Or.inl ⟨rfl, rfl⟩, rfl⟩, ?_⟩
    refine List.chain'_cons.mpr ⟨⟨1, ⟨"B", "C", 1⟩, by simp [Examples.Line],
      Or.inl ⟨rfl, rfl⟩, rfl⟩, ?_⟩
    simp
  exact ⟨by decide, by decide, by decide, by decide, hreach,
    claim_C7_unit_weight_equivalence Examples.Line "A" "C" false
      (by decide) (by decide) (by decide) (by decide) hreach⟩

namespace AStarAlgorithm

/-- One unfolding of `AStarAlgorithm.relax` on a neighbor that is not in
the closed set. -/
theorem relax_cons_eq (hfun : Heuristic) (target current neighbor : String)
    (weight : ℚ) (rest : List (String × ℚ)) (st : State)
    {gcur gn : WithTop ℚ}
    (hncl : neighbor ∉ st.closed_set)
    (hgc : st.g_score current = some gcur)
    (hgn : st.g_score neighbor = some gn) :
    relax hfun target current ((neighbor, weight) :: rest) st =
      (if gcur + ((weight : ℚ) : WithTop ℚ) < gn then
        (if neighbor ∈ st.open_set_nodes then
          relax hfun target current rest
            { st with
              previous := st.previous.set neighbor (some current)
              g_score := st.g_score.set neighbor
                (gcur + ((weight : ℚ) : WithTop ℚ))
              f_score := st.f_score.set neighbor
                (gcur + ((weight : ℚ) : WithTop ℚ) +
                  ((hfun neighbor target : ℚ) : WithTop ℚ)) }
        else
          relax hfun target current rest
            { st with
              previous := st.previous.set neighbor (some current)
              g_score := st.g_score.set neighbor
                (gcur + ((weight : ℚ) : WithTop ℚ))
              f_score := st.f_score.set neighbor
                (gcur + ((weight : ℚ) : WithTop ℚ) +
                  ((hfun neighbor target : ℚ) : WithTop ℚ))
              open_set := st.open_set ++
                [(gcur + ((weight : ℚ) : WithTop ℚ) +
                    ((hfun neighbor target : ℚ) : WithTop ℚ),
                  gcur + ((weight : ℚ) : WithTop ℚ), neighbor)]
              open_set_nodes := st.open_set_nodes ++ [neighbor] })
      else relax hfun target current rest st) := by
  simp [relax, hncl, hgc, hgn]

/-- Master lemma for the A* relaxation loop: it never raises and preserves
the invariant, the closed set, the visited order, and bounds the growth of
the open set. -/
theorem astar_relax_master {g : Graph} {source : String} {inc : Bool}
    (hfun : Heuristic) (target : String)
    (hval : g.validEdges) (hpos : g.posWeights) (current : String) :
    ∀ (neighbors : List (String × ℚ)) (st : State),
      Inv g source inc st →
      (∀ v w, (v, w) ∈ neighbors → g.adjRel current v w) →
      current ∈ st.closed_set →
      ∃ st', relax hfun target current neighbors st = .ok st' ∧
        Inv g source inc st' ∧
        st'.closed_set = st.closed_set ∧
        st'.visited_order = st.visited_order ∧
        st'.open_set.length ≤ st.open_set.length + neighbors.length
  | [], st, hI, _, _ => ⟨st, rfl, hI, rfl, rfl, by omega⟩
  | (neighbor, weight) :: rest, st, hI, hadj, hcur => by
    have hadjn : g.adjRel current neighbor weight :=
      hadj neighbor weight (List.mem_cons_self _ _)
    have hadjrest : ∀ v w, (v, w) ∈ rest → g.adjRel current v w :=
      fun v w hvw => hadj v w (List.mem_cons_of_mem _ hvw)
    have hwpos : 0 < weight := adjRel_pos hpos hadjn
    have hnn : neighbor ∈ g.nodes := (adjRel_mem_nodes hval hadjn).2
    by_cases hncl : neighbor ∈ st.closed_set
    · have heq : relax hfun target current ((neighbor, weight) :: rest) st =
          relax hfun target current rest st := by
        simp [relax, hncl]
      obtain ⟨st', hok, hI', hc', ho', hl'⟩ :=
        astar_relax_master hfun target hval hpos current rest st hI hadjrest hcur
      refine ⟨st', heq.trans hok, hI', hc', ho', ?_⟩
      simp only [List.length_cons]
      omega
    · obtain ⟨gc, hgc⟩ := hI.closedFin current hcur
      obtain ⟨gn, hgn⟩ : ∃ gn, st.g_score neighbor = some gn :=
        Option.isSome_iff_exists.mp ((hI.gDom neighbor).mpr (Or.inl hnn))
      rw [relax_cons_eq hfun target current neighbor weight rest st hncl hgc hgn]
      by_cases himp : ((gc : ℚ) : WithTop ℚ) + ((weight : ℚ) : WithTop ℚ) < gn
      · rw [if_pos himp]
        have htent : ((gc : ℚ) : WithTop ℚ) + ((weight : ℚ) : WithTop ℚ) =
            (((gc + weight : ℚ)) : WithTop ℚ) := by
          push_cast
          rfl
        have hgcnn : 0 ≤ gc := hI.gNonneg current gc hgc
        have hnsrc : neighbor ≠ source := by
          intro hns
          rw [hns, hI.sourceG] at hgn
          have hgn0 : gn = ((0 : ℚ) : WithTop ℚ) := (Option.some.inj hgn).symm
          rw [hgn0, htent] at himp
          have : gc + weight < 0 := by exact_mod_cast himp
          linarith
        have hncur : neighbor ≠ current := fun hh => hncl (hh ▸ hcur)
        set stU : State :=
          { st with
            previous := st.previous.set neighbor (some current)
            g_score := st.g_score.set neighbor
              (((gc : ℚ) : WithTop ℚ) + ((weight : ℚ) : WithTop ℚ))
            f_score := st.f_score.set neighbor
              (((gc : ℚ) : WithTop ℚ) + ((weight : ℚ) : WithTop ℚ) +
                ((hfun neighbor target : ℚ) : WithTop ℚ)) } with hstU
        have hgU : ∀ k, stU.g_score k =
            if k = neighbor
            then some (((gc + weight : ℚ)) : WithTop ℚ)
            else st.g_score k := by
          intro k
          rw [hstU]
          show (st.g_score.set neighbor _) k = _
          rw [Dict.set_eq_ite, htent]
        have hpU : ∀ k, stU.previous k =
            if k = neighbor then some (some current) else st.previous k := by
          intro k
          rw [hstU]
          show (st.previous.set neighbor _) k = _
          rw [Dict.set_eq_ite]
        have hIU : Inv g source inc stU := by
          refine
            { gDom := ?_, sourceG := ?_, gNonneg := ?_, prevDom := ?_
              prevSource := ?_, closedNodup := hI.closedNodup
              closedMem := hI.closedMem, orderEq := hI.orderEq
              openMem := hI.openMem, openFin := ?_, finLink := ?_
              closedFin := ?_ }
          · intro k
            rw [hgU]
            by_cases hk : k = neighbor
            · simp [hk, hnn]
            · rw [if_neg hk]
              exact hI.gDom k
          · rw [hgU, if_neg (Ne.symm hnsrc)]
            exact hI.sourceG
          · intro v gv hgv
            rw [hgU] at hgv
            by_cases hk : v = neighbor
            · rw [if_pos hk] at hgv
              have : gv = gc + weight := by
                exact_mod_cast (Option.some.inj hgv).symm
              rw [this]
              linarith
            · rw [if_neg hk] at hgv
              exact hI.gNonneg v gv hgv
          · intro k
            rw [hpU]
            by_cases hk : k = neighbor
            · simp [hk, hnn]
            · rw [if_neg hk]
              exact hI.prevDom k
          · intro hsn
            rw [hpU, if_neg (Ne.symm hnsrc)]
            exact hI.prevSource hsn
          · intro e he
            have he' : e ∈ st.open_set := he
            by_cases hk : e.2.2 = neighbor
            · refine ⟨gc + weight, ?_⟩
              rw [hgU, if_pos hk]
            · obtain ⟨ge, hge⟩ := hI.openFin e he'
              refine ⟨ge, ?_⟩
              rw [hgU, if_neg hk]
              exact hge
          · intro v hvs gv hgv
            rw [hgU] at hgv
            by_cases hk : v = neighbor
            · rw [if_pos hk] at hgv
              have hgveq : gv = gc + weight := by
                exact_mod_cast (Option.some.inj hgv).symm
              refine ⟨current, weight, gc, hk ▸ hadjn, ?_, ?_, hgveq, hcur⟩
              · rw [hpU, if_pos hk]
              · rw [hgU, if_neg hncur.symm]
                · exact hgc
            · rw [if_neg hk] at hgv
              obtain ⟨u', w', gu', h1, h2, h3, h4, h5⟩ := hI.finLink v hvs gv hgv
              have hu'ne : u' ≠ neighbor := fun hh => hncl (hh ▸ h5)
              refine ⟨u', w', gu', h1, ?_, ?_, h4, h5⟩
              · rw [hpU, if_neg hk]
                exact h2
              · rw [hgU, if_neg hu'ne]
                exact h3
          · intro u hu
            have hune : u ≠ neighbor := fun hh => hncl (hh ▸ hu)
            obtain ⟨gu, hgu⟩ := hI.closedFin u hu
            refine ⟨gu, ?_⟩
            rw [hgU, if_neg hune]
            exact hgu
        by_cases hosn : neighbor ∈ st.open_set_nodes
        · rw [if_pos hosn]
          obtain ⟨st', hok, hI', hc', ho', hl'⟩ :=
            astar_relax_master hfun target hval hpos current rest stU hIU hadjrest
              (by rw [hstU]; exact hcur)
          refine ⟨st', hok, hI', ?_, ?_, ?_⟩
          · rw [hc', hstU]
          · rw [ho', hstU]
          · have hoU : stU.open_set = st.open_set := by rw [hstU]
            rw [hoU] at hl'
            simp only [List.length_cons]
            omega
        · rw [if_neg hosn]
          set stP : State :=
            { stU with
              open_set := stU.open_set ++
                [(((gc : ℚ) : WithTop ℚ) + ((weight : ℚ) : WithTop ℚ) +
                    ((hfun neighbor target : ℚ) : WithTop ℚ),
                  ((gc : ℚ) : WithTop ℚ) + ((weight : ℚ) : WithTop ℚ), neighbor)]
              open_set_nodes := stU.open_set_nodes ++ [neighbor] } with hstP
          have hIP : Inv g source inc stP := by
            refine
              { gDom := hIU.gDom, sourceG := hIU.sourceG
                gNonneg := hIU.gNonneg, prevDom := hIU.prevDom
                prevSource := hIU.prevSource, closedNodup := hIU.closedNodup
                closedMem := hIU.closedMem, orderEq := hIU.orderEq
                openMem := ?_, openFin := ?_, finLink := hIU.finLink
                closedFin := hIU.closedFin }
            · intro e he
              rw [hstP] at he
              rcases List.mem_append.mp he with h | h
              · exact hIU.openMem e h
              · have : e = (((gc : ℚ) : WithTop ℚ) + ((weight : ℚ) : WithTop ℚ) +
                    ((hfun neighbor target : ℚ) : WithTop ℚ),
                    ((gc : ℚ) : WithTop ℚ) + ((weight : ℚ) : WithTop ℚ),
                    neighbor) := by simpa using h
                rw [this]
                exact hnn
            · intro e he
              rw [hstP] at he
              rcases List.mem_append.mp he with h | h
              · exact hIU.openFin e h
              · have : e = (((gc : ℚ) : WithTop ℚ) + ((weight : ℚ) : WithTop ℚ) +
                    ((hfun neighbor target : ℚ) : WithTop ℚ),
                    ((gc : ℚ) : WithTop ℚ) + ((weight : ℚ) : WithTop ℚ),
                    neighbor) := by simpa using h
                rw [this]
                refine ⟨gc + weight, ?_⟩
                rw [hgU, if_pos rfl]
          obtain ⟨st', hok, hI', hc', ho', hl'⟩ :=
            astar_relax_master hfun target hval hpos current rest stP hIP hadjrest
              (by rw [hstP, hstU]; exact hcur)
          refine ⟨st', hok, hI', ?_, ?_, ?_⟩
          · rw [hc', hstP, hstU]
          · rw [ho', hstP, hstU]
          · have hoP : stP.open_set.length = st.open_set.length + 1 := by
              rw [hstP, hstU]
              simp
            rw [hoP] at hl'
            simp only [List.length_cons]
            omega
      · rw [if_neg himp]
        obtain ⟨st', hok, hI', hc', ho', hl'⟩ :=
          astar_relax_master hfun target hval hpos current rest st hI hadjrest hcur
        refine ⟨st', hok, hI', hc', ho', ?_⟩
        simp only [List.length_cons]
        omega

end AStarAlgorithm

namespace AStarAlgorithm

/-- Master lemma for the A* search loop: with enough fuel it returns
without error, the invariant holds at the exit, and the loop has either
settled the target or exhausted the open set. -/
theorem astar_loop_master {g : Graph} {source target : String} {inc : Bool}
    (adj : Dict (List (String × ℚ))) (hfun : Heuristic)
    (hval : g.validEdges) (hpos : g.posWeights)
    (hdom : ∀ k, (adj k).isSome ↔ k ∈ g.nodes)
    (hmem : ∀ u v w, (∃ l, adj u = some l ∧ (v, w) ∈ l) ↔ g.adjRel u v w) :
    ∀ (fuel : ℕ) (st : State), Inv g source inc st →
      astarPotential g adj st < fuel →
      ∃ st', loop adj hfun target inc fuel st = .ok st' ∧
        Inv g source inc st' ∧
        (target ∈ st'.closed_set ∨ st'.open_set = []) := by
  intro fuel
  induction fuel with
  | zero =>
    intro st _ hpot
    exact absurd hpot (Nat.not_lt_zero _)
  | succ fuel ih =>
    intro st hI hpot
    cases hpop : popMinKey entryKey st.open_set with
    | none =>
      refine ⟨st, by simp only [loop, hpop], hI,
        Or.inr ((popMinKey_none entryKey).mp hpop)⟩
    | some pe =>
      obtain ⟨⟨fv, gv, current⟩, open'⟩ := pe
      obtain ⟨hmemE, hrest, -⟩ := popMinKey_some entryKey hpop
      have hlen : open'.length + 1 = st.open_set.length :=
        popMinKey_length entryKey hpop
      have hcurn : current ∈ g.nodes := hI.openMem (fv, gv, current) hmemE
      by_cases hcl : current ∈ st.closed_set
      · set stP : State :=
          { st with
            open_set := open'
            open_set_nodes := st.open_set_nodes.erase current } with hstP
        have heq : loop adj hfun target inc (fuel + 1) st =
            loop adj hfun target inc fuel stP := by
          simp only [loop, hpop, if_pos hcl]
        have hIP : Inv g source inc stP :=
          { gDom := hI.gDom, sourceG := hI.sourceG, gNonneg := hI.gNonneg
            prevDom := hI.prevDom, prevSource := hI.prevSource
            closedNodup := hI.closedNodup, closedMem := hI.closedMem
            orderEq := hI.orderEq
            openMem := fun e he =>
              hI.openMem e (popMinKey_subset entryKey hpop e he)
            openFin := fun e he =>
              hI.openFin e (popMinKey_subset entryKey hpop e he)
            finLink := hI.finLink, closedFin := hI.closedFin }
        have hpotP : astarPotential g adj stP < fuel := by
          unfold astarPotential at hpot ⊢
          simp only at hpot ⊢
          omega
        obtain ⟨st', hok, hI', hdisj⟩ := ih stP hIP hpotP
        exact ⟨st', heq ▸ hok, hI', hdisj⟩
      · set stS : State :=
          { st with
            open_set := open'
            open_set_nodes := st.open_set_nodes.erase current
            closed_set := st.closed_set ++ [current]
            visited_order :=
              if inc then st.visited_order ++ [current]
              else st.visited_order } with hstS
        have hIS : Inv g source inc stS := by
          refine
            { gDom := hI.gDom, sourceG := hI.sourceG, gNonneg := hI.gNonneg
              prevDom := hI.prevDom, prevSource := hI.prevSource
              closedNodup := ?_, closedMem := ?_, orderEq := ?_
              openMem := ?_, openFin := ?_, finLink := ?_, closedFin := ?_ }
          · rw [hstS]
            show (st.closed_set ++ [current]).Nodup
            simp only [List.nodup_append]
            exact ⟨hI.closedNodup, List.nodup_singleton _,
              fun a ha hb => hcl ((by simpa using hb) ▸ ha)⟩
          · intro v hv
            rw [hstS] at hv
            rcases List.mem_append.mp hv with h | h
            · exact hI.closedMem v h
            · obtain rfl : v = current := by simpa using h
              exact hcurn
          · rw [hstS]
            show (if inc then st.visited_order ++ [current]
              else st.visited_order) = _
            cases inc <;> simp [hI.orderEq]
          · intro e he
            rw [hstS] at he
            exact hI.openMem e (popMinKey_subset entryKey hpop e he)
          · intro e he
            rw [hstS] at he
            exact hI.openFin e (popMinKey_subset entryKey hpop e he)
          · intro v hvs gvq hgv
            obtain ⟨u', w', gu', h1, h2, h3, h4, h5⟩ := hI.finLink v hvs gvq hgv
            refine ⟨u', w', gu', h1, h2, h3, h4, ?_⟩
            rw [hstS]
            show u' ∈ st.closed_set ++ [current]
            exact List.mem_append.mpr (Or.inl h5)
          · intro u hu
            rw [hstS] at hu
            rcases List.mem_append.mp hu with h | h
            · exact hI.closedFin u h
            · obtain rfl : u = current := by simpa using h
              exact hI.openFin (fv, gv, u) hmemE
        by_cases hct : current = target
        · have heq : loop adj hfun target inc (fuel + 1) st = .ok stS := by
            simp only [loop, hpop, if_neg hcl, if_pos hct]
          refine ⟨stS, heq, hIS, Or.inl ?_⟩
          rw [hstS]
          show target ∈ st.closed_set ++ [current]
          rw [← hct]
          exact List.mem_append.mpr (Or.inr (List.mem_singleton_self _))
        · obtain ⟨neighbors, hadjeq⟩ : ∃ l, adj current = some l :=
            Option.isSome_iff_exists.mp ((hdom current).mpr hcurn)
          have hnb : ∀ v w, (v, w) ∈ neighbors → g.adjRel current v w :=
            fun v w hvw => (hmem current v w).mp ⟨neighbors, hadjeq, hvw⟩
          have hcurS : current ∈ stS.closed_set := by
            rw [hstS]
            show current ∈ st.closed_set ++ [current]
            exact List.mem_append.mpr (Or.inr (List.mem_singleton_self _))
          obtain ⟨st'', hokR, hI'', hclR, hordR, hlenR⟩ :=
            astar_relax_master hfun target hval hpos current neighbors stS hIS hnb hcurS
          have heq : loop adj hfun target inc (fuel + 1) st =
              loop adj hfun target inc fuel st'' := by
            simp only [loop, hpop, if_neg hcl, if_neg hct, hadjeq, hokR, ok_bind]
          have hpot'' : astarPotential g adj st'' < fuel := by
            have hsum : ((g.nodes.toFinset \ stS.closed_set.toFinset).sum
                  fun v => 1 + ((adj v).getD []).length) + (1 + neighbors.length) =
                ((g.nodes.toFinset \ st.closed_set.toFinset).sum
                  fun v => 1 + ((adj v).getD []).length) := by
              have hVS : stS.closed_set.toFinset =
                  insert current st.closed_set.toFinset := by
                rw [hstS]
                show (st.closed_set ++ [current]).toFinset = _
                simp [List.toFinset_append]
                ext a
                simp [or_comm]
              rw [hVS, Finset.sdiff_insert]
              have humem : current ∈ g.nodes.toFinset \ st.closed_set.toFinset := by
                simp only [Finset.mem_sdiff, List.mem_toFinset]
                exact ⟨hcurn, hcl⟩
              have := Finset.sum_erase_add
                (g.nodes.toFinset \ st.closed_set.toFinset)
                (fun v => 1 + ((adj v).getD []).length) humem
              rw [← this]
              simp [hadjeq]
            have hcl'' : st''.closed_set.toFinset = stS.closed_set.toFinset := by
              rw [hclR]
            unfold astarPotential at hpot ⊢
            rw [hcl'']
            have h1 : st''.open_set.length ≤ stS.open_set.length + neighbors.length :=
              hlenR
            have h2 : stS.open_set.length = open'.length := by rw [hstS]
            omega
          obtain ⟨st', hok, hI', hdisj⟩ := ih st'' hI'' hpot''
          exact ⟨st', heq ▸ hok, hI', hdisj⟩

end AStarAlgorithm

namespace AStarAlgorithm

/-- Running the A* loop from the initial state of
`AStarAlgorithm.find_shortest_path`. -/
theorem astar_loop_run (g : Graph) (hfun : Heuristic) (source target : String)
    (inc : Bool) (hval : g.validEdges) (hpos : g.posWeights)
    (hsrc : source ∈ g.nodes) :
    ∃ adj st', build_adjacency_list g = .ok adj ∧
      loop adj hfun target inc (search_fuel g)
        { g_score := (init_inf g.nodes).set source ((0 : ℚ) : WithTop ℚ)
          f_score := (init_inf g.nodes).set source
            ((hfun source target : ℚ) : WithTop ℚ)
          previous := init_previous g.nodes
          open_set := [(((hfun source target : ℚ) : WithTop ℚ),
            ((0 : ℚ) : WithTop ℚ), source)]
          open_set_nodes := [source]
          closed_set := []
          visited_order := [] } = .ok st' ∧
      Inv g source inc st' ∧
      (target ∈ st'.closed_set ∨ st'.open_set = []) := by
  obtain ⟨adj, hok, hdom, hmem⟩ := build_adjacency_list_ok g hval
  set st0 : State :=
    { g_score := (init_inf g.nodes).set source ((0 : ℚ) : WithTop ℚ)
      f_score := (init_inf g.nodes).set source
        ((hfun source target : ℚ) : WithTop ℚ)
      previous := init_previous g.nodes
      open_set := [(((hfun source target : ℚ) : WithTop ℚ),
        ((0 : ℚ) : WithTop ℚ), source)]
      open_set_nodes := [source]
      closed_set := []
      visited_order := [] } with hst0
  have hg0 : ∀ k, st0.g_score k =
      if k = source then some ((0 : ℚ) : WithTop ℚ)
      else if k ∈ g.nodes then some ⊤ else none := by
    intro k
    by_cases hk : k = source
    · rw [hst0]
      show ((init_inf g.nodes).set source _) k = _
      rw [if_pos hk, hk, Dict.set_self]
    · rw [hst0]
      show ((init_inf g.nodes).set source _) k = _
      rw [if_neg hk, Dict.set_ne _ _ hk, init_inf_eq]
  have hI0 : Inv g source inc st0 := by
    refine
      { gDom := ?_, sourceG := ?_, gNonneg := ?_, prevDom := ?_
        prevSource := ?_
        closedNodup := by rw [hst0]; exact List.nodup_nil
        closedMem := by intro v hv; rw [hst0] at hv; simp at hv
        orderEq := by rw [hst0]; cases inc <;> rfl
        openMem := ?_, openFin := ?_, finLink := ?_
        closedFin := by intro u hu; rw [hst0] at hu; simp at hu }
    · intro k
      rw [hg0 k]
      by_cases hk : k = source
      · simp [hk]
      · by_cases hkn : k ∈ g.nodes <;> simp [hk, hkn]
    · rw [hg0 source, if_pos rfl]
    · intro v gvq hgv
      rw [hg0 v] at hgv
      by_cases hk : v = source
      · rw [if_pos hk] at hgv
        have h0 : gvq = 0 := by
          exact_mod_cast (Option.some.inj hgv).symm
        rw [h0]
      · rw [if_neg hk] at hgv
        by_cases hkn : v ∈ g.nodes
        · rw [if_pos hkn] at hgv
          exact absurd (Option.some.inj hgv).symm (by simp)
        · rw [if_neg hkn] at hgv
          exact absurd hgv (by simp)
    · intro k
      rw [hst0]
      show ((init_previous g.nodes) k).isSome ↔ _
      rw [init_previous_eq]
      by_cases hk : k ∈ g.nodes <;> simp [hk]
    · intro hsn
      rw [hst0]
      show (init_previous g.nodes) source = some none
      rw [init_previous_eq, if_pos hsn]
    · intro e he
      rw [hst0] at he
      have he' : e = (((hfun source target : ℚ) : WithTop ℚ),
          ((0 : ℚ) : WithTop ℚ), source) := by simpa using he
      rw [he']
      exact hsrc
    · intro e he
      rw [hst0] at he
      have he' : e = (((hfun source target : ℚ) : WithTop ℚ),
          ((0 : ℚ) : WithTop ℚ), source) := by simpa using he
      rw [he']
      refine ⟨0, ?_⟩
      rw [hg0, if_pos rfl]
    · intro v hvs gvq hgv
      rw [hg0 v, if_neg hvs] at hgv
      by_cases hkn : v ∈ g.nodes
      · rw [if_pos hkn] at hgv
        exact absurd (Option.some.inj hgv).symm (by simp)
      · rw [if_neg hkn] at hgv
        exact absurd hgv (by simp)
  have hpot0 : astarPotential g adj st0 < search_fuel g := by
    have hsum : ((g.nodes.toFinset \ st0.closed_set.toFinset).sum
        fun v => 1 + ((adj v).getD []).length) =
        g.nodes.toFinset.card + sumDeg g.nodes adj := by
      rw [hst0]
      show ((g.nodes.toFinset \ ([] : List String).toFinset).sum
        fun v => 1 + ((adj v).getD []).length) = _
      simp only [List.toFinset_nil, Finset.sdiff_empty]
      rw [Finset.sum_add_distrib]
      simp [sumDeg]
    have hdeg : sumDeg g.nodes adj ≤ 0 + 2 * g.edges.length := by
      have := genBuild_sumDeg g.directed
        (fun e => (e.to_node, e.weight)) (fun e => (e.from_node, e.weight))
        g.nodes g.edges (initAdj g.nodes) adj hok
      simpa [sumDeg_initAdj] using this
    have hcard : g.nodes.toFinset.card ≤ g.nodes.length := g.nodes.toFinset_card_le
    have hop : st0.open_set.length = 1 := by simp [hst0]
    unfold astarPotential
    unfold search_fuel
    omega
  obtain ⟨st', hloopok, hI', hdisj⟩ :=
    astar_loop_master adj hfun hval hpos hdom hmem (search_fuel g) st0 hI0 hpot0
  exact ⟨adj, st', hok, hst0 ▸ hloopok, hI', hdisj⟩

/-- Partial specification of `AStarAlgorithm.find_shortest_path` for
endpoints in the node set (no optimality statement: the reported distance
is the cost of the returned walk, which claim C1 shows need not be
minimal). -/
theorem find_spec_partial (g : Graph) (hfun : Heuristic)
    (source target : String) (inc : Bool)
    (hval : g.validEdges) (hpos : g.posWeights)
    (hsrc : source ∈ g.nodes) (htgt : target ∈ g.nodes) :
    ∃ r, find_shortest_path g hfun source target inc = .ok r ∧
      r.algorithm_used = .astar ∧
      (r.«exists» = false → r.path = [] ∧ r.distance = ⊤) ∧
      (r.«exists» = true → ∃ c : ℚ, r.distance = ((c : ℚ) : WithTop ℚ) ∧
        g.ChainCost r.path c ∧ r.path.head? = some source ∧
        r.path.getLast? = some target) ∧
      (r.visited_nodes = none ↔ inc = false) ∧
      (∀ vl, r.visited_nodes = some vl →
        vl.Nodup ∧ vl.length = r.visited_nodes_count) := by
  by_cases hne : source = target
  · subst hne
    refine ⟨_, astar_reflexive g hfun source inc hval, rfl, ?_, ?_, ?_, ?_⟩
    · intro h
      exact absurd h (by simp)
    · intro _
      exact ⟨0, by norm_num, Graph.ChainCost.single source, rfl, rfl⟩
    · cases inc <;> simp
    · intro vl hvl
      cases hinc : inc
      · rw [hinc] at hvl
        simp at hvl
      · rw [hinc] at hvl
        have : vl = [source] := by simpa using hvl.symm
        rw [this]
        exact ⟨List.nodup_singleton _, rfl⟩
  · obtain ⟨adj, st', hok, hloopok, hI', hdisj⟩ :=
      astar_loop_run g hfun source target inc hval hpos hsrc
    obtain ⟨gt, hgt⟩ : ∃ gt, st'.g_score target = some gt :=
      Option.isSome_iff_exists.mp ((hI'.gDom target).mpr (Or.inl htgt))
    have hvisC10 : ((if inc then some st'.visited_order else none) = none ↔
          inc = false) ∧
        ∀ vl, (if inc then some st'.visited_order else none) = some vl →
          vl.Nodup ∧ vl.length = st'.closed_set.length := by
      constructor
      · cases inc <;> simp
      · intro vl hvl
        cases hinc : inc
        · rw [hinc] at hvl
          simp at hvl
        · rw [hinc] at hvl
          have hord := hI'.orderEq
          rw [hinc] at hord
          have hord' : st'.visited_order = st'.closed_set := by simpa using hord
          have hvl' : st'.visited_order = vl := by simpa using hvl
          have hvleq : vl = st'.closed_set := by rw [← hvl', hord']
          rw [hvleq]
          exact ⟨hI'.closedNodup, rfl⟩
    cases gt with
    | top =>
      have hfind : find_shortest_path g hfun source target inc =
          .ok { path := [], distance := ⊤, algorithm_used := .astar,
                visited_nodes_count := st'.closed_set.length,
                visited_nodes := if inc then some st'.visited_order else none,
                «exists» := false } := by
        unfold find_shortest_path
        rw [hok, ok_bind, if_neg hne]
        simp only [hloopok, ok_bind, hgt]
        simp
      refine ⟨_, hfind, rfl, ?_, ?_, hvisC10.1, hvisC10.2⟩
      · intro _
        exact ⟨rfl, rfl⟩
      · intro h
        exact absurd h (by simp)
    | coe c =>
      set rk : String → ℚ := fun v => WithTop.untop' 0 ((st'.g_score v).getD ⊤)
        with hrk
      have hrkval : ∀ v (gvq : ℚ), st'.g_score v = some ((gvq : ℚ) : WithTop ℚ) →
          rk v = gvq := by
        intro v gvq h
        rw [hrk]
        simp only [h, Option.getD_some]
        exact WithTop.untop'_coe 0 gvq
      have hstep : ∀ v, (∃ gvq : ℚ, st'.g_score v = some ((gvq : ℚ) : WithTop ℚ)) →
          v ≠ source → ∃ u, st'.previous v = some (some u) ∧
            (∃ gu : ℚ, st'.g_score u = some ((gu : ℚ) : WithTop ℚ)) ∧
            (∃ w, g.adjRel u v w ∧ rk v = rk u + w) ∧ rk u < rk v := by
        rintro v ⟨gvq, hgv⟩ hvs
        obtain ⟨u, w, gu, hadj, hprev, hgu, hsum, -⟩ :=
          hI'.finLink v hvs gvq hgv
        refine ⟨u, hprev, ⟨gu, hgu⟩, ⟨w, hadj, ?_⟩, ?_⟩
        · rw [hrkval v gvq hgv, hrkval u gu hgu]
          exact hsum
        · rw [hrkval v gvq hgv, hrkval u gu hgu]
          have := adjRel_pos hpos hadj
          linarith
      have hQVS : ∀ v, (∃ gvq : ℚ, st'.g_score v = some ((gvq : ℚ) : WithTop ℚ)) →
          v ∈ insert source g.nodes.toFinset := by
        rintro v ⟨gvq, hgv⟩
        have : v ∈ g.nodes ∨ v = source :=
          (hI'.gDom v).mp (by rw [hgv]; rfl)
        rcases this with h | h
        · exact Finset.mem_insert.mpr (Or.inr (List.mem_toFinset.mpr h))
        · exact Finset.mem_insert.mpr (Or.inl h)
      have hcardf : ((insert source g.nodes.toFinset).filter
          (fun u => rk u < rk target)).card < reconstruct_fuel g := by
        have h1 : ((insert source g.nodes.toFinset).filter
            (fun u => rk u < rk target)).card ≤
            (insert source g.nodes.toFinset).card :=
          Finset.card_filter_le _ _
        have h2 : (insert source g.nodes.toFinset).card ≤
            g.nodes.toFinset.card + 1 := Finset.card_insert_le _ _
        have h3 : g.nodes.toFinset.card ≤ g.nodes.length := g.nodes.toFinset_card_le
        unfold reconstruct_fuel
        omega
      obtain ⟨p, hrec, hph, hpl, hpchain⟩ :=
        reconstruct_path_spec st'.previous source
          (fun v => ∃ gvq : ℚ, st'.g_score v = some ((gvq : ℚ) : WithTop ℚ))
          (fun a b => ∃ w, g.adjRel a b w ∧ rk b = rk a + w) rk
          (insert source g.nodes.toFinset) hQVS (hI'.prevSource hsrc) hstep
          (reconstruct_fuel g) target ⟨c, hgt⟩ hcardf
      have hrev_head : p.reverse.head? = some source := by
        rw [List.head?_reverse]
        exact hpl
      have hrev_last : p.reverse.getLast? = some target := by
        rw [List.getLast?_reverse]
        exact hph
      have hrev_chain : List.Chain'
          (fun a b => ∃ w, g.adjRel a b w ∧ rk b = rk a + w) p.reverse := by
        rw [List.chain'_reverse]
        exact hpchain
      obtain ⟨a, q, hpq⟩ : ∃ a q, p.reverse = a :: q := by
        cases hp : p.reverse with
        | nil =>
          rw [hp] at hrev_head
          simp at hrev_head
        | cons a q => exact ⟨a, q, rfl⟩
      have ha : a = source := by
        rw [hpq] at hrev_head
        simpa using hrev_head
      have hrksrc : rk source = 0 := hrkval source 0 hI'.sourceG
      have hrkt : rk target = c := hrkval target c hgt
      have hchaincost : g.ChainCost p.reverse c := by
        have := chainCost_of_rank_chain rk q a (hpq ▸ hrev_chain) target
          (hpq ▸ hrev_last)
        rw [hpq]
        have heqc : rk target - rk a = c := by
          rw [hrkt, ha, hrksrc]
          ring
        rw [← heqc]
        exact this
      have hfind : find_shortest_path g hfun source target inc =
          .ok { path := p.reverse, distance := ((c : ℚ) : WithTop ℚ),
                algorithm_used := .astar,
                visited_nodes_count := st'.closed_set.length,
                visited_nodes := if inc then some st'.visited_order else none,
                «exists» := true } := by
        unfold find_shortest_path
        rw [hok, ok_bind, if_neg hne]
        simp only [hloopok, ok_bind, hgt]
        simp [hrec, ok_bind]
      refine ⟨_, hfind, rfl, ?_, ?_, hvisC10.1, hvisC10.2⟩
      · intro h
        exact absurd h (by simp)
      · intro _
        exact ⟨c, rfl, hchaincost, hrev_head, hrev_last⟩

/-- A query whose target is not a node (and differs from the source): the
A* loop terminates and the final `g_score[target]` lookup raises
`KeyError(target)`. -/
theorem missing_target (g : Graph) (hfun : Heuristic) (source target : String)
    (inc : Bool) (hval : g.validEdges) (hpos : g.posWeights)
    (hsrc : source ∈ g.nodes) (htgt : target ∉ g.nodes) (hne : target ≠ source) :
    find_shortest_path g hfun source target inc = .error target := by
  obtain ⟨adj, st', hok, hloopok, hI', -⟩ :=
    astar_loop_run g hfun source target inc hval hpos hsrc
  have hgt : st'.g_score target = none := by
    cases h : st'.g_score target with
    | none => rfl
    | some d =>
      rcases (hI'.gDom target).mp (by rw [h]; rfl) with h1 | h1
      · exact absurd h1 htgt
      · exact absurd h1 hne
  unfold find_shortest_path
  rw [hok, ok_bind, if_neg (fun h => hne h.symm)]
  simp only [hloopok, ok_bind, hgt]

end AStarAlgorithm

/-- On a graph whose edge endpoints lie in the node set, anything reachable
is a node (or the source itself). -/
theorem reachable_mem_nodes {g : Graph} (hval : g.validEdges) {s t : String}
    (h : g.Reachable s t) : t ∈ g.nodes ∨ t = s := by
  obtain ⟨p, hh, hl, hc⟩ := h
  by_cases hlen : 2 ≤ p.length
  · obtain ⟨q, z, hpq, hzl, -, hchains, -⟩ := walk_snoc_decomp (g := g) hl hlen
    obtain ⟨⟨w, hadj⟩, -⟩ := hchains hc
    exact Or.inl (adjRel_mem_nodes hval hadj).2
  · cases p with
    | nil => simp at hh
    | cons a q =>
      cases q with
      | nil =>
        have h1 : a = s := by simpa using hh
        have h2 : a = t := by simpa using hl
        exact Or.inr (h2.symm.trans h1)
      | cons b r => exact absurd (by simp) hlen

/-- Claim C2, amended: the three algorithms do not treat unknown nodes
uniformly.  An absent source makes all three raise `KeyError(source)`; an
absent target makes Dijkstra and A* raise `KeyError(target)` while BFS
returns `exists = false` with an empty path and infinite distance. -/
theorem claim_C2_missing_node_amended (g : Graph) (source target : String)
    (inc : Bool) (hval : g.validEdges) (hpos : g.posWeights) :
    (source ∉ g.nodes → source ≠ target →
      DijkstraAlgorithm.find_shortest_path g source target inc = .error source ∧
      BFSAlgorithm.find_shortest_path g source target inc = .error source ∧
      ∀ hfun : AStarAlgorithm.Heuristic,
        AStarAlgorithm.find_shortest_path g hfun source target inc =
          .error source) ∧
    (source ∈ g.nodes → target ∉ g.nodes → target ≠ source →
      DijkstraAlgorithm.find_shortest_path g source target inc = .error target ∧
      (∀ hfun : AStarAlgorithm.Heuristic,
        AStarAlgorithm.find_shortest_path g hfun source target inc =
          .error target) ∧
      ∃ r, BFSAlgorithm.find_shortest_path g source target inc = .ok r ∧
        r.«exists» = false ∧ r.path = [] ∧ r.distance = ⊤) := by
  constructor
  · intro hsrc hne
    exact ⟨dijkstra_missing_source g source target inc hval hsrc hne,
      bfs_missing_source g source target inc hval hsrc hne,
      fun hfun => astar_missing_source g hfun source target inc hval hsrc hne⟩
  · intro hsrc htgt hne
    refine ⟨dijkstra_missing_target g source target inc hval hpos hsrc htgt hne,
      fun hfun =>
        AStarAlgorithm.missing_target g hfun source target inc hval hpos hsrc
          htgt hne, ?_⟩
    obtain ⟨r, hfind, -, hiff, hfalse, -, -, -⟩ :=
      BFSAlgorithm.bfs_find_spec g source target inc hval hsrc
        (fun h => hne h.symm)
    have hnreach : ¬ g.Reachable source target := by
      intro h
      rcases reachable_mem_nodes hval h with h1 | h1
      · exact htgt h1
      · exact hne h1
    have hex : r.«exists» = false := by
      cases hex : r.«exists»
      · rfl
      · exact absurd (hiff.mp hex) hnreach
    obtain ⟨h1, h2, -⟩ := hfalse hex
    exact ⟨r, hfind, hex, h1, h2⟩

/-- Witness for the amended claim C2, on the single-node graph of the C2
counterexample with an absent source. -/
theorem claim_C2_missing_node_amended_witness :
    Examples.G2.validEdges ∧ Examples.G2.posWeights ∧
    ((("b" : String) ∉ Examples.G2.nodes → ("b" : String) ≠ "a" →
      DijkstraAlgorithm.find_shortest_path Examples.G2 "b" "a" false =
        .error "b" ∧
      BFSAlgorithm.find_shortest_path Examples.G2 "b" "a" false = .error "b" ∧
      ∀ hfun : AStarAlgorithm.Heuristic,
        AStarAlgorithm.find_shortest_path Examples.G2 hfun "b" "a" false =
          .error "b") ∧
    (("b" : String) ∈ Examples.G2.nodes → ("a" : String) ∉ Examples.G2.nodes →
      ("a" : String) ≠ "b" →
      DijkstraAlgorithm.find_shortest_path Examples.G2 "b" "a" false =
        .error "a" ∧
      (∀ hfun : AStarAlgorithm.Heuristic,
        AStarAlgorithm.find_shortest_path Examples.G2 hfun "b" "a" false =
          .error "a") ∧
      ∃ r, BFSAlgorithm.find_shortest_path Examples.G2 "b" "a" false = .ok r ∧
        r.«exists» = false ∧ r.path = [] ∧ r.distance = ⊤)) :=
  ⟨by decide, by decide,
   claim_C2_missing_node_amended Examples.G2 "b" "a" false
     (by decide) (by decide)⟩

/-- Claim C5, amended: for endpoints in the node set all three algorithms
return a path that is empty exactly when `exists` is false and whose
consecutive elements are joined by edges of the edge table; Dijkstra and A*
report the summed edge weights of that path as the distance, while BFS
reports its hop count. -/
theorem claim_C5_path_validity_amended (g : Graph) (source target : String)
    (inc : Bool) (hval : g.validEdges) (hpos : g.posWeights)
    (hsrc : source ∈ g.nodes) (htgt : target ∈ g.nodes) :
    (∀ r, DijkstraAlgorithm.find_shortest_path g source target inc = .ok r →
      (r.path = [] ↔ r.«exists» = false) ∧ List.Chain' g.Adj r.path ∧
      (r.«exists» = true →
        ∃ c : ℚ, g.ChainCost r.path c ∧ r.distance = ((c : ℚ) : WithTop ℚ))) ∧
    (∀ hfun : AStarAlgorithm.Heuristic, ∀ r,
      AStarAlgorithm.find_shortest_path g hfun source target inc = .ok r →
      (r.path = [] ↔ r.«exists» = false) ∧ List.Chain' g.Adj r.path ∧
      (r.«exists» = true →
        ∃ c : ℚ, g.ChainCost r.path c ∧ r.distance = ((c : ℚ) : WithTop ℚ))) ∧
    (∀ r, BFSAlgorithm.find_shortest_path g source target inc = .ok r →
      (r.path = [] ↔ r.«exists» = false) ∧ List.Chain' g.Adj r.path ∧
      (r.«exists» = true →
        r.distance = (((r.path.length - 1 : ℕ) : ℚ) : WithTop ℚ))) := by
  refine ⟨?_, ?_, ?_⟩
  · obtain ⟨r0, hfind, -, -, hfalse, htrue, -, -⟩ :=
      DijkstraAlgorithm.dijkstra_find_spec g source target inc hval hpos hsrc htgt
    intro r hr
    obtain rfl : r0 = r := Except.ok.inj (hfind.symm.trans hr)
    refine ⟨?_, ?_, ?_⟩
    · constructor
      · intro hp
        cases hex : r0.«exists»
        · rfl
        · obtain ⟨c, -, -, hh, -, -⟩ := htrue hex
          rw [hp] at hh
          simp at hh
      · intro hex
        exact (hfalse hex).1
    · cases hex : r0.«exists»
      · rw [(hfalse hex).1]
        simp
      · obtain ⟨c, -, hcc, -, -, -⟩ := htrue hex
        exact chainCost_chain' hcc
    · intro hex
      obtain ⟨c, hdist, hcc, -, -, -⟩ := htrue hex
      exact ⟨c, hcc, hdist⟩
  · intro hfun
    obtain ⟨r0, hfind, -, hfalse, htrue, -, -⟩ :=
      AStarAlgorithm.find_spec_partial g hfun source target inc hval hpos
        hsrc htgt
    intro r hr
    obtain rfl : r0 = r := Except.ok.inj (hfind.symm.trans hr)
    refine ⟨?_, ?_, ?_⟩
    · constructor
      · intro hp
        cases hex : r0.«exists»
        · rfl
        · obtain ⟨c, -, -, hh, -⟩ := htrue hex
          rw [hp] at hh
          simp at hh
      · intro hex
        exact (hfalse hex).1
    · cases hex : r0.«exists»
      · rw [(hfalse hex).1]
        simp
      · obtain ⟨c, -, hcc, -, -⟩ := htrue hex
        exact chainCost_chain' hcc
    · intro hex
      obtain ⟨c, hdist, hcc, -, -⟩ := htrue hex
      exact ⟨c, hcc, hdist⟩
  · by_cases hne : source = target
    · subst hne
      intro r hr
      obtain rfl : _ = r :=
        Except.ok.inj ((bfs_reflexive g source inc hval).symm.trans hr)
      refine ⟨?_, ?_, ?_⟩
      · constructor
        · intro hp
          simp at hp
        · intro hex
          simp at hex
      · simp
      · intro _
        norm_num
    · obtain ⟨r0, hfind, -, -, hfalse, htrue, -, -⟩ :=
        BFSAlgorithm.bfs_find_spec g source target inc hval hsrc hne
      intro r hr
      obtain rfl : r0 = r := Except.ok.inj (hfind.symm.trans hr)
      refine ⟨?_, ?_, ?_⟩
      · constructor
        · intro hp
          cases hex : r0.«exists»
          · rfl
          · obtain ⟨n, -, -, ⟨hh, -, -⟩, -⟩ := htrue hex
            rw [hp] at hh
            simp at hh
        · intro hex
          exact (hfalse hex).1
      · cases hex : r0.«exists»
        · rw [(hfalse hex).1]
          simp
        · obtain ⟨n, -, -, ⟨-, -, hc⟩, -⟩ := htrue hex
          exact hc
      · intro hex
        obtain ⟨n, hdist, hlen, -, -⟩ := htrue hex
        rw [hdist, hlen]
        norm_num

/-- Witness for the amended claim C5 at the spec scenario line graph. -/
theorem claim_C5_path_validity_amended_witness :
    Examples.Line.validEdges ∧ Examples.Line.posWeights ∧
    "A" ∈ Examples.Line.nodes ∧ "C" ∈ Examples.Line.nodes ∧
    ((∀ r, DijkstraAlgorithm.find_shortest_path Examples.Line "A" "C" false =
        .ok r →
      (r.path = [] ↔ r.«exists» = false) ∧ List.Chain' Examples.Line.Adj r.path ∧
      (r.«exists» = true →
        ∃ c : ℚ, Examples.Line.ChainCost r.path c ∧
          r.distance = ((c : ℚ) : WithTop ℚ))) ∧
    (∀ hfun : AStarAlgorithm.Heuristic, ∀ r,
      AStarAlgorithm.find_shortest_path Examples.Line hfun "A" "C" false =
        .ok r →
      (r.path = [] ↔ r.«exists» = false) ∧ List.Chain' Examples.Line.Adj r.path ∧
      (r.«exists» = true →
        ∃ c : ℚ, Examples.Line.ChainCost r.path c ∧
          r.distance = ((c : ℚ) : WithTop ℚ))) ∧
    (∀ r, BFSAlgorithm.find_shortest_path Examples.Line "A" "C" false = .ok r →
      (r.path = [] ↔ r.«exists» = false) ∧ List.Chain' Examples.Line.Adj r.path ∧
      (r.«exists» = true →
        r.distance = (((r.path.length - 1 : ℕ) : ℚ) : WithTop ℚ)))) :=
  ⟨by decide, by decide, by decide, by decide,
   claim_C5_path_validity_amended Examples.Line "A" "C" false
     (by decide) (by decide) (by decide) (by decide)⟩

/-- Claim C6: every result of the three algorithms on endpoints in the node
set satisfies the `PathResult` invariants: `exists = false` forces an empty
path and infinite distance, `exists = true` forces a non-empty path that
starts at the source and ends at the target. -/
theorem claim_C6_pathresult_invariants (g : Graph) (source target : String)
    (inc : Bool) (hval : g.validEdges) (hpos : g.posWeights)
    (hsrc : source ∈ g.nodes) (htgt : target ∈ g.nodes) :
    (∀ r, DijkstraAlgorithm.find_shortest_path g source target inc = .ok r →
      (r.«exists» = false → r.path = [] ∧ r.distance = ⊤) ∧
      (r.«exists» = true → r.path ≠ [] ∧ r.path.head? = some source ∧
        r.path.getLast? = some target)) ∧
    (∀ hfun : AStarAlgorithm.Heuristic, ∀ r,
      AStarAlgorithm.find_shortest_path g hfun source target inc = .ok r →
      (r.«exists» = false → r.path = [] ∧ r.distance = ⊤) ∧
      (r.«exists» = true → r.path ≠ [] ∧ r.path.head? = some source ∧
        r.path.getLast? = some target)) ∧
    (∀ r, BFSAlgorithm.find_shortest_path g source target inc = .ok r →
      (r.«exists» = false → r.path = [] ∧ r.distance = ⊤) ∧
      (r.«exists» = true → r.path ≠ [] ∧ r.path.head? = some source ∧
        r.path.getLast? = some target)) := by
  refine ⟨?_, ?_, ?_⟩
  · obtain ⟨r0, hfind, -, -, hfalse, htrue, -, -⟩ :=
      DijkstraAlgorithm.dijkstra_find_spec g source target inc hval hpos hsrc htgt
    intro r hr
    obtain rfl : r0 = r := Except.ok.inj (hfind.symm.trans hr)
    refine ⟨hfalse, ?_⟩
    intro hex
    obtain ⟨c, -, -, hh, hl, -⟩ := htrue hex
    refine ⟨?_, hh, hl⟩
    intro hp
    rw [hp] at hh
    simp at hh
  · intro hfun
    obtain ⟨r0, hfind, -, hfalse, htrue, -, -⟩ :=
      AStarAlgorithm.find_spec_partial g hfun source target inc hval hpos
        hsrc htgt
    intro r hr
    obtain rfl : r0 = r := Except.ok.inj (hfind.symm.trans hr)
    refine ⟨hfalse, ?_⟩
    intro hex
    obtain ⟨c, -, -, hh, hl⟩ := htrue hex
    refine ⟨?_, hh, hl⟩
    intro hp
    rw [hp] at hh
    simp at hh
  · by_cases hne : source = target
    · subst hne
      intro r hr
      obtain rfl : _ = r :=
        Except.ok.inj ((bfs_reflexive g source inc hval).symm.trans hr)
      refine ⟨?_, ?_⟩
      · intro hex
        simp at hex
      · intro _
        exact ⟨by simp, rfl, rfl⟩
    · obtain ⟨r0, hfind, -, -, hfalse, htrue, -, -⟩ :=
        BFSAlgorithm.bfs_find_spec g source target inc hval hsrc hne
      intro r hr
      obtain rfl : r0 = r := Except.ok.inj (hfind.symm.trans hr)
      refine ⟨?_, ?_⟩
      · intro hex
        obtain ⟨h1, h2, -⟩ := hfalse hex
        exact ⟨h1, h2⟩
      · intro hex
        obtain ⟨n, -, -, ⟨hh, hl, -⟩, -⟩ := htrue hex
        refine ⟨?_, hh, hl⟩
        intro hp
        rw [hp] at hh
        simp at hh

/-- Witness for claim C6 at the spec scenario line graph. -/
theorem claim_C6_pathresult_invariants_witness :
    Examples.Line.validEdges ∧ Examples.Line.posWeights ∧
    "A" ∈ Examples.Line.nodes ∧ "C" ∈ Examples.Line.nodes ∧
    ((∀ r, DijkstraAlgorithm.find_shortest_path Examples.Line "A" "C" false =
        .ok r →
      (r.«exists» = false → r.path = [] ∧ r.distance = ⊤) ∧
      (r.«exists» = true → r.path ≠ [] ∧ r.path.head? = some "A" ∧
        r.path.getLast? = some "C")) ∧
    (∀ hfun : AStarAlgorithm.Heuristic, ∀ r,
      AStarAlgorithm.find_shortest_path Examples.Line hfun "A" "C" false =
        .ok r →
      (r.«exists» = false → r.path = [] ∧ r.distance = ⊤) ∧
      (r.«exists» = true → r.path ≠ [] ∧ r.path.head? = some "A" ∧
        r.path.getLast? = some "C")) ∧
    (∀ r, BFSAlgorithm.find_shortest_path Examples.Line "A" "C" false = .ok r →
      (r.«exists» = false → r.path = [] ∧ r.distance = ⊤) ∧
      (r.«exists» = true → r.path ≠ [] ∧ r.path.head? = some "A" ∧
        r.path.getLast? = some "C"))) :=
  ⟨by decide, by decide, by decide, by decide,
   claim_C6_pathresult_invariants Examples.Line "A" "C" false
     (by decide) (by decide) (by decide) (by decide)⟩

/-- Claim C10: for endpoints in the node set, each algorithm's result has
`visited_nodes = none` exactly when `include_visited` was false, and when
present the list is duplicate-free with length `visited_nodes_count`. -/
theorem claim_C10_visited_nodes_invariants (g : Graph) (source target : String)
    (inc : Bool) (hval : g.validEdges) (hpos : g.posWeights)
    (hsrc : source ∈ g.nodes) (htgt : target ∈ g.nodes) :
    (∀ r, DijkstraAlgorithm.find_shortest_path g source target inc = .ok r →
      (r.visited_nodes = none ↔ inc = false) ∧
      (∀ vl, r.visited_nodes = some vl →
        vl.Nodup ∧ vl.length = r.visited_nodes_count)) ∧
    (∀ hfun : AStarAlgorithm.Heuristic, ∀ r,
      AStarAlgorithm.find_shortest_path g hfun source target inc = .ok r →
      (r.visited_nodes = none ↔ inc = false) ∧
      (∀ vl, r.visited_nodes = some vl →
        vl.Nodup ∧ vl.length = r.visited_nodes_count)) ∧
    (∀ r, BFSAlgorithm.find_shortest_path g source target inc = .ok r →
      (r.visited_nodes = none ↔ inc = false) ∧
      (∀ vl, r.visited_nodes = some vl →
        vl.Nodup ∧ vl.length = r.visited_nodes_count)) := by
  refine ⟨?_, ?_, ?_⟩
  · obtain ⟨r0, hfind, -, -, -, -, hnone, hsome⟩ :=
      DijkstraAlgorithm.dijkstra_find_spec g source target inc hval hpos hsrc htgt
    intro r hr
    obtain rfl : r0 = r := Except.ok.inj (hfind.symm.trans hr)
    exact ⟨hnone, hsome⟩
  · intro hfun
    obtain ⟨r0, hfind, -, -, -, hnone, hsome⟩ :=
      AStarAlgorithm.find_spec_partial g hfun source target inc hval hpos
        hsrc htgt
    intro r hr
    obtain rfl : r0 = r := Except.ok.inj (hfind.symm.trans hr)
    exact ⟨hnone, hsome⟩
  · by_cases hne : source = target
    · subst hne
      intro r hr
      obtain rfl : _ = r :=
        Except.ok.inj ((bfs_reflexive g source inc hval).symm.trans hr)
      constructor
      · cases inc <;> simp
      · intro vl hvl
        cases hinc : inc
        · rw [hinc] at hvl
          simp at hvl
        · rw [hinc] at hvl
          have : vl = [source] := by simpa using hvl.symm
          rw [this]
          exact ⟨List.nodup_singleton _, rfl⟩
    · obtain ⟨r0, hfind, -, -, -, -, hnone, hsome⟩ :=
        BFSAlgorithm.bfs_find_spec g source target inc hval hsrc hne
      intro r hr
      obtain rfl : r0 = r := Except.ok.inj (hfind.symm.trans hr)
      exact ⟨hnone, hsome⟩

/-- Witness for claim C10 at the spec scenario line graph. -/
theorem claim_C10_visited_nodes_invariants_witness :
    Examples.Line.validEdges ∧ Examples.Line.posWeights ∧
    "A" ∈ Examples.Line.nodes ∧ "C" ∈ Examples.Line.nodes ∧
    ((∀ r, DijkstraAlgorithm.find_shortest_path Examples.Line "A" "C" true =
        .ok r →
      (r.visited_nodes = none ↔ (true : Bool) = false) ∧
      (∀ vl, r.visited_nodes = some vl →
        vl.Nodup ∧ vl.length = r.visited_nodes_count)) ∧
    (∀ hfun : AStarAlgorithm.Heuristic, ∀ r,
      AStarAlgorithm.find_shortest_path Examples.Line hfun "A" "C" true =
        .ok r →
      (r.visited_nodes = none ↔ (true : Bool) = false) ∧
      (∀ vl, r.visited_nodes = some vl →
        vl.Nodup ∧ vl.length = r.visited_nodes_count)) ∧
    (∀ r, BFSAlgorithm.find_shortest_path Examples.Line "A" "C" true = .ok r →
      (r.visited_nodes = none ↔ (true : Bool) = false) ∧
      (∀ vl, r.visited_nodes = some vl →
        vl.Nodup ∧ vl.length = r.visited_nodes_count))) :=
  ⟨by decide, by decide, by decide, by decide,
   claim_C10_visited_nodes_invariants Examples.Line "A" "C" true
     (by decide) (by decide) (by decide) (by decide)⟩

end ShortPath
